/-
Verification of the entity-extraction and information-structuring pipeline
of the Information-Extraction-System repository.

Python strings are modelled as lists of character codes (`List Nat`);
Python enums as Lean inductives carrying their string `.value`s; fallible
constructors (`__post_init__` validation) as `Except`-returning functions.
All definitions are translated from the Python sources
(`data_model.py`, `Name_Entity_Recogniztion.py`, `info_processing.py`).
-/
import Mathlib

namespace InfoExtract

/-! ### Character-code level helpers (Python `str` primitives) -/

/-- Character codes of a Lean string literal, used to write concrete
Python strings in the model. -/
def codes (s : String) : List Nat := s.data.map Char.toNat

/-- Python `str.isspace` for a single character (ASCII whitespace). -/
def isPySpace (c : Nat) : Bool := c = 32 || c = 9 || c = 10 || c = 13 || c = 11 || c = 12

/-- Python `str.strip()`: drop leading and trailing whitespace. -/
def pyStrip (s : List Nat) : List Nat :=
  ((s.dropWhile isPySpace).reverse.dropWhile isPySpace).reverse

/-- Python `str.lower` on one ASCII character code. -/
def pyLowerChar (c : Nat) : Nat := if 65 ≤ c ∧ c ≤ 90 then c + 32 else c

/-- Python `str.upper` on one ASCII character code. -/
def pyUpperChar (c : Nat) : Nat := if 97 ≤ c ∧ c ≤ 122 then c - 32 else c

/-- Python `str.lower()`. -/
def pyLower (s : List Nat) : List Nat := s.map pyLowerChar

/-- Python `str.upper()`. -/
def pyUpper (s : List Nat) : List Nat := s.map pyUpperChar

/-- Python `str.capitalize()`: first character uppercased, rest lowercased. -/
def pyCapitalize (s : List Nat) : List Nat :=
  match s with
  | [] => []
  | c :: t => pyUpperChar c :: pyLower t

/-- Auxiliary bound used for termination of `pySplitWs`. -/
theorem lengthDropWhileLe {α : Type} (p : α → Bool) (l : List α) :
    (l.dropWhile p).length ≤ l.length := by
  induction l with
  | nil => simp [List.dropWhile]
  | cons c t ih =>
    simp only [List.dropWhile]
    split
    · exact le_trans ih (by simp)
    · simp

/-- Fuelled worker for `pySplitWs`; the fuel (at least the string length)
only ensures structural recursion so that the kernel can evaluate it. -/
def pySplitWsGo : Nat → List Nat → List (List Nat)
  | 0, _ => []
  | _, [] => []
  | fuel + 1, c :: t =>
    if isPySpace c then pySplitWsGo fuel t
    else ((c :: t).takeWhile (fun x => !isPySpace x)) ::
      pySplitWsGo fuel (t.dropWhile (fun x => !isPySpace x))

/-- Python `str.split()` with no argument: split on whitespace runs,
returning no empty words. -/
def pySplitWs (s : List Nat) : List (List Nat) := pySplitWsGo s.length s

/-- The fuel of the split worker is irrelevant once sufficient. -/
theorem pySplitWsGo_fuel (f₁ : Nat) : ∀ (f₂ : Nat) (s : List Nat),
    s.length ≤ f₁ → s.length ≤ f₂ → pySplitWsGo f₁ s = pySplitWsGo f₂ s := by
  induction f₁ with
  | zero =>
    intro f₂ s h1 _
    have hs : s = [] := List.eq_nil_of_length_eq_zero (Nat.le_zero.mp h1)
    rw [hs]
    cases f₂ <;> rfl
  | succ f ih =>
    intro f₂ s h1 h2
    cases s with
    | nil => cases f₂ <;> rfl
    | cons c t =>
      cases f₂ with
      | zero => simp at h2
      | succ g =>
        simp only [pySplitWsGo]
        have hlt : t.length ≤ f := by simp at h1; omega
        have hlg : t.length ≤ g := by simp at h2; omega
        have hdrop := lengthDropWhileLe (fun x => !isPySpace x) t
        split
        · exact ih g t hlt hlg
        · rw [ih g (t.dropWhile fun x => !isPySpace x) (by omega) (by omega)]

/-- Python `' '.join(words)`. -/
def joinSpace (ws : List (List Nat)) : List Nat := (ws.intersperse [32]).flatten

/-- Python substring test `needle in hay`. -/
def containsSub (n : List Nat) : List Nat → Bool
  | [] => n.isEmpty
  | c :: t => n.isPrefixOf (c :: t) || containsSub n t

/-- Python `s.split(',')`: split at every comma, keeping empty pieces. -/
def splitComma : List Nat → List (List Nat)
  | [] => [[]]
  | c :: t =>
    if c = 44 then [] :: splitComma t
    else
      match splitComma t with
      | [] => [[c]]
      | w :: ws => (c :: w) :: ws

/-- Python lexicographic string `<` on code lists. -/
def pyStrLt : List Nat → List Nat → Bool
  | [], [] => false
  | [], _ :: _ => true
  | _ :: _, [] => false
  | a :: as_, b :: bs => if a < b then true else if b < a then false else pyStrLt as_ bs

/-! ### Data model (`data_model.py`) -/

/-- Enum `ExtractionConfidence` with string values. -/
inductive ExtractionConfidence where
  | HIGH
  | MEDIUM
  | LOW
  | UNKNOWN
deriving DecidableEq, Repr

/-- The Python `.value` string of each `ExtractionConfidence` member. -/
def ExtractionConfidence.value : ExtractionConfidence → List Nat
  | .HIGH => codes "HIGH"
  | .MEDIUM => codes "MEDIUM"
  | .LOW => codes "LOW"
  | .UNKNOWN => codes "UNKNOWN"

/-- Enum `EntityType`. -/
inductive EntityType where
  | PERSON
  | EVENT
  | LOCATION
  | DATE
  | ORGANIZATION
deriving DecidableEq, Repr

/-- Dataclass `ExtractedEntity` (positions are Python ints). -/
structure ExtractedEntity where
  entityType : EntityType
  value : List Nat
  confidence : ExtractionConfidence
  startPosition : Int
  endPosition : Int
  originalText : List Nat
deriving DecidableEq, Repr

/-- The validation performed by `ExtractedEntity.__post_init__`, in source
order, returning the `ValueError` message raised, if any.  The
`isinstance` checks on `entityType` and `confidence` cannot fail in the
typed model. -/
def entityInitError (e : ExtractedEntity) : Option (List Nat) :=
  if e.value = [] ∨ pyStrip e.value = [] then some (codes "Entity value cannot be empty")
  else if e.startPosition < 0 ∨ e.endPosition < e.startPosition then
    some (codes "Invalid position values")
  else none

/-- Constructing an `ExtractedEntity`: `__post_init__` validation as an
`Except`, mirroring the `ValueError` raised on invalid data. -/
def mkExtractedEntity (entityType : EntityType) (value : List Nat)
    (confidence : ExtractionConfidence) (startPosition endPosition : Int)
    (originalText : List Nat) : Except (List Nat) ExtractedEntity :=
  let e : ExtractedEntity :=
    ⟨entityType, value, confidence, startPosition, endPosition, originalText⟩
  match entityInitError e with
  | some msg => .error msg
  | none => .ok e

/-- Dataclass `EventRegistrationInfo` (timestamp omitted; the four fields
are `Option` code lists, `none` standing for Python `None`). -/
structure EventRegistrationInfo where
  participantName : Option (List Nat) := none
  eventName : Option (List Nat) := none
  location : Option (List Nat) := none
  date : Option (List Nat) := none
  extractedEntities : List ExtractedEntity := []
  originalText : List Nat := []
  overallConfidence : ExtractionConfidence := .UNKNOWN
deriving DecidableEq, Repr

/-- Python truthiness of an optional string field (`None` and `""` are
falsy). -/
def truthyField : Option (List Nat) → Bool
  | none => false
  | some v => ¬ v.isEmpty

/-! ### C10: `ExtractedEntity.__post_init__` validation -/

/-- C10: constructing an `ExtractedEntity` raises exactly when the value is
empty or whitespace-only, the start position is negative, or the end
position is less than the start position (the enum `isinstance` checks
cannot fail in the typed model); in particular a zero-width span with
`endPosition == startPosition` is accepted without error. -/
theorem entity_post_init_error_characterisation (e : ExtractedEntity) :
    (entityInitError e = none ↔
      ¬ (pyStrip e.value = []) ∧ ¬ (e.startPosition < 0) ∧
        ¬ (e.endPosition < e.startPosition)) ∧
    (e.endPosition = e.startPosition → pyStrip e.value ≠ [] → 0 ≤ e.startPosition →
      entityInitError e = none) := by
  have hval : (e.value = [] ∨ pyStrip e.value = []) ↔ pyStrip e.value = [] := by
    constructor
    · rintro (hv | hv)
      · rw [hv]; rfl
      · exact hv
    · exact Or.inr
  constructor
  · unfold entityInitError
    split_ifs with h1 h2
    · simp only [reduceCtorEq, false_iff]
      intro ⟨ha, _, _⟩
      exact ha (hval.mp h1)
    · simp only [reduceCtorEq, false_iff]
      intro ⟨_, hb, hc⟩
      rcases h2 with h2 | h2
      · exact hb h2
      · exact hc h2
    · simp only [true_iff]
      refine ⟨fun hs => h1 (Or.inr hs), ?_, ?_⟩ <;> omega
  · intro hz hv hs
    unfold entityInitError
    rw [if_neg (fun h => hv (hval.mp h)), if_neg (by omega)]

/-- C10 witness: a concrete zero-width entity is accepted. -/
theorem entity_post_init_error_characterisation_witness :
    entityInitError ⟨.PERSON, codes "x", .HIGH, 5, 5, codes "x"⟩ = none :=
  (entity_post_init_error_characterisation ⟨.PERSON, codes "x", .HIGH, 5, 5, codes "x"⟩).2
    (by decide) (by decide) (by decide)

/-! ### Overlap resolver (`_removeDuplicatesAndOverlaps`,
`Name_Entity_Recogniztion.py` lines 535-559) -/

/-- The half-open span overlap test used by the resolver:
`entity.startPosition < existing.endPosition and entity.endPosition >
existing.startPosition`. -/
def overlaps (a b : ExtractedEntity) : Bool :=
  decide (a.startPosition < b.endPosition) && decide (a.endPosition > b.startPosition)

/-- Stable ascending insertion by `startPosition` (one step of the stable
`entities.sort(key=lambda x: x.startPosition)`). -/
def insertByStart (e : ExtractedEntity) : List ExtractedEntity → List ExtractedEntity
  | [] => [e]
  | x :: xs =>
    if e.startPosition ≤ x.startPosition then e :: x :: xs else x :: insertByStart e xs

/-- Stable sort by `startPosition`, modelling `entities.sort(key=lambda x:
x.startPosition)`. -/
def sortByStart (l : List ExtractedEntity) : List ExtractedEntity := l.foldr insertByStart []

/-- The inner `for existingEntity in list(cleaned)` loop body: scan the
accepted list for the first overlap; on overlap compare the enum `.value`
strings with Python `>` and either replace (`cleaned.remove` then append)
or discard; if no overlap is found append the candidate. -/
def resolverScan (cleaned : List ExtractedEntity) (entity : ExtractedEntity) :
    List ExtractedEntity → List ExtractedEntity
  | [] => cleaned ++ [entity]
  | x :: xs =>
    if overlaps entity x then
      if pyStrLt x.confidence.value entity.confidence.value then
        cleaned.erase x ++ [entity]
      else cleaned
    else resolverScan cleaned entity xs

/-- One iteration of the outer `for entity in entities` loop. -/
def resolverStep (cleaned : List ExtractedEntity) (entity : ExtractedEntity) :
    List ExtractedEntity :=
  resolverScan cleaned entity cleaned

/-- The resolver `_removeDuplicatesAndOverlaps`. -/
def removeDuplicatesAndOverlaps (entities : List ExtractedEntity) : List ExtractedEntity :=
  if entities.isEmpty then entities
  else (sortByStart entities).foldl resolverStep []

/-! ### C1: the confidence comparison in the resolver -/

/-- A HIGH-confidence person entity on span `[0, 10)`. -/
def sampleHighEntity : ExtractedEntity :=
  ⟨.PERSON, codes "Sarah Johns", .HIGH, 0, 10, codes "Sarah Johns"⟩

/-- A MEDIUM-confidence person entity on the overlapping span `[5, 15)`. -/
def sampleMediumEntity : ExtractedEntity :=
  ⟨.PERSON, codes "Johns Smith", .MEDIUM, 5, 15, codes "Johns Smith"⟩

/-- C1 failing input: the resolver compares the enum `.value` strings
`"MEDIUM" > "HIGH"` lexicographically, so a MEDIUM candidate replaces an
overlapping already-accepted HIGH entity: the output retains only the
MEDIUM one, contradicting the claimed ordinal rule (and the function's own
docstring, which promises to keep the higher-confidence entity). -/
theorem resolver_string_compare_keeps_medium :
    removeDuplicatesAndOverlaps [sampleHighEntity, sampleMediumEntity]
        = [sampleMediumEntity] ∧
      removeDuplicatesAndOverlaps [sampleHighEntity, sampleMediumEntity]
        ≠ [sampleHighEntity] := by
  constructor
  · rfl
  · decide

/-! ### C4: the resolver output is overlap-free and a fixpoint -/

/-- Ordering of entities by start position. -/
def startLE (a b : ExtractedEntity) : Prop := a.startPosition ≤ b.startPosition

/-- Two entities do not overlap. -/
def noOv (a b : ExtractedEntity) : Prop := overlaps a b = false

/-- The overlap test of the resolver is symmetric. -/
theorem overlaps_symm (a b : ExtractedEntity) : overlaps a b = overlaps b a := by
  simp only [overlaps, gt_iff_lt]
  exact Bool.and_comm _ _

/-- The inner scan is the `find?`-characterised conflict resolution. -/
theorem resolverScan_spec (cleaned : List ExtractedEntity) (entity : ExtractedEntity)
    (l : List ExtractedEntity) :
    resolverScan cleaned entity l =
      match l.find? (fun x => overlaps entity x) with
      | none => cleaned ++ [entity]
      | some x =>
        if pyStrLt x.confidence.value entity.confidence.value then
          cleaned.erase x ++ [entity]
        else cleaned := by
  induction l with
  | nil => rfl
  | cons x xs ih =>
    unfold resolverScan
    rw [List.find?_cons]
    cases hov : overlaps entity x with
    | true => simp [hov]
    | false => simp [hov, ih]

/-- A successful `find?` splits the list at the first hit. -/
theorem find?_decomp {α : Type} {p : α → Bool} {l : List α} {a : α}
    (h : l.find? p = some a) :
    ∃ l₁ l₂, l = l₁ ++ a :: l₂ ∧ ∀ x ∈ l₁, p x = false := by
  induction l with
  | nil => simp [List.find?] at h
  | cons x xs ih =>
    rw [List.find?_cons] at h
    cases hp : p x with
    | true =>
      rw [hp] at h
      simp at h
      exact ⟨[], xs, by simp [h], by simp⟩
    | false =>
      rw [hp] at h
      simp at h
      obtain ⟨l₁, l₂, hl, hl₁⟩ := ih h
      refine ⟨x :: l₁, l₂, by simp [hl], ?_⟩
      intro y hy
      rcases List.mem_cons.mp hy with hy | hy
      · subst hy; exact hp
      · exact hl₁ y hy

/-- One resolver step preserves sortedness and overlap-freedom of the
accepted list, and only introduces the candidate itself. -/
theorem resolverStep_inv (acc : List ExtractedEntity) (e : ExtractedEntity)
    (hsort : acc.Pairwise startLE) (hnov : acc.Pairwise noOv)
    (hub : ∀ x ∈ acc, x.startPosition ≤ e.startPosition) :
    (resolverStep acc e).Pairwise startLE ∧ (resolverStep acc e).Pairwise noOv ∧
      ∀ y ∈ resolverStep acc e, y ∈ acc ∨ y = e := by
  unfold resolverStep
  rw [resolverScan_spec]
  cases hfind : acc.find? (fun x => overlaps e x) with
  | none =>
    have hno : ∀ x ∈ acc, overlaps e x = false := by
      intro x hx
      have := List.find?_eq_none.mp hfind x hx
      simpa using this
    refine ⟨?_, ?_, ?_⟩
    · rw [List.pairwise_append]
      refine ⟨hsort, List.pairwise_singleton _ _, ?_⟩
      intro a ha b hb
      rw [List.mem_singleton] at hb
      subst hb
      exact hub a ha
    · rw [List.pairwise_append]
      refine ⟨hnov, List.pairwise_singleton _ _, ?_⟩
      intro a ha b hb
      rw [List.mem_singleton] at hb
      rw [hb]
      show overlaps a e = false
      rw [overlaps_symm]
      exact hno a ha
    · intro y hy
      rcases List.mem_append.mp hy with h | h
      · exact Or.inl h
      · rw [List.mem_singleton] at h
        exact Or.inr h
  | some ex =>
    obtain ⟨l₁, l₂, hacc, hl₁⟩ := find?_decomp hfind
    have hov : overlaps e ex = true := by
      have := List.find?_some hfind
      simpa using this
    have hexnot : ex ∉ l₁ := by
      intro hmem
      rw [hl₁ ex hmem] at hov
      exact Bool.false_ne_true hov
    have herase : acc.erase ex = l₁ ++ l₂ := by
      rw [hacc, List.erase_append_right _ hexnot, List.erase_cons_head]
    have hsub : List.Sublist (l₁ ++ l₂) acc := by
      rw [hacc]
      exact (List.Sublist.refl l₁).append (List.sublist_cons_self ex l₂)
    dsimp only
    split_ifs with hconf
    · -- replace: the candidate takes the place of the first conflict
      rw [herase]
      have hkey : ∀ x ∈ l₁ ++ l₂, overlaps x e = false := by
        intro x hx
        rcases List.mem_append.mp hx with hx | hx
        · rw [overlaps_symm]
          exact hl₁ x hx
        · -- geometric argument: x lies after ex, so e cannot reach it
          have hsx : startLE ex x := by
            rw [hacc] at hsort
            exact (List.pairwise_cons.mp (List.pairwise_append.mp hsort).2.1).1 x hx
          have hnx : noOv ex x := by
            rw [hacc] at hnov
            exact (List.pairwise_cons.mp (List.pairwise_append.mp hnov).2.1).1 x hx
          have hubx : x.startPosition ≤ e.startPosition :=
            hub x (hsub.mem (List.mem_append.mpr (Or.inr hx)))
          simp only [noOv, overlaps, gt_iff_lt, Bool.and_eq_true, decide_eq_true_eq,
            Bool.and_eq_false_iff, decide_eq_false_iff_not] at hov hnx ⊢
          unfold startLE at hsx
          omega
      refine ⟨?_, ?_, ?_⟩
      · rw [List.pairwise_append]
        refine ⟨hsort.sublist hsub, List.pairwise_singleton _ _, ?_⟩
        intro a ha b hb
        rw [List.mem_singleton] at hb
        subst hb
        exact hub a (hsub.mem ha)
      · rw [List.pairwise_append]
        refine ⟨hnov.sublist hsub, List.pairwise_singleton _ _, ?_⟩
        intro a ha b hb
        rw [List.mem_singleton] at hb
        subst hb
        exact hkey a ha
      · intro y hy
        rcases List.mem_append.mp hy with h | h
        · exact Or.inl (hsub.mem h)
        · rw [List.mem_singleton] at h
          exact Or.inr h
    · exact ⟨hsort, hnov, fun y hy => Or.inl hy⟩

/-- Folding the resolver step over a sorted candidate list keeps the
accepted list sorted and overlap-free. -/
theorem foldl_resolver_inv (rest : List ExtractedEntity) (acc : List ExtractedEntity)
    (hsort : acc.Pairwise startLE) (hnov : acc.Pairwise noOv)
    (hconn : ∀ x ∈ acc, ∀ y ∈ rest, x.startPosition ≤ y.startPosition)
    (hrest : rest.Pairwise startLE) :
    (rest.foldl resolverStep acc).Pairwise startLE ∧
      (rest.foldl resolverStep acc).Pairwise noOv := by
  induction rest generalizing acc with
  | nil => exact ⟨hsort, hnov⟩
  | cons e rest ih =>
    rw [List.foldl_cons]
    have hub : ∀ x ∈ acc, x.startPosition ≤ e.startPosition := fun x hx =>
      hconn x hx e (List.mem_cons_self e rest)
    obtain ⟨s1, n1, m1⟩ := resolverStep_inv acc e hsort hnov hub
    apply ih _ s1 n1
    · intro x hx y hy
      rcases m1 x hx with h | h
      · exact hconn x h y (List.mem_cons_of_mem _ hy)
      · rw [h]
        exact (List.pairwise_cons.mp hrest).1 y hy
    · exact (List.pairwise_cons.mp hrest).2

/-- Membership in the insertion-sort step. -/
theorem insertByStart_mem (e : ExtractedEntity) (l : List ExtractedEntity)
    (y : ExtractedEntity) : y ∈ insertByStart e l ↔ y = e ∨ y ∈ l := by
  induction l with
  | nil => simp [insertByStart]
  | cons x xs ih =>
    unfold insertByStart
    split_ifs with h
    · simp [List.mem_cons]
    · simp only [List.mem_cons, ih]
      tauto

/-- The insertion-sort step preserves sortedness. -/
theorem insertByStart_pairwise (e : ExtractedEntity) (l : List ExtractedEntity)
    (h : l.Pairwise startLE) : (insertByStart e l).Pairwise startLE := by
  induction l with
  | nil => simp [insertByStart]
  | cons x xs ih =>
    unfold insertByStart
    obtain ⟨hx, hxs⟩ := List.pairwise_cons.mp h
    split_ifs with hle
    · rw [List.pairwise_cons]
      refine ⟨?_, h⟩
      intro y hy
      rcases List.mem_cons.mp hy with hy | hy
      · rw [hy]; exact hle
      · exact le_trans hle (hx y hy)
    · rw [List.pairwise_cons]
      refine ⟨?_, ih hxs⟩
      intro y hy
      rcases (insertByStart_mem e xs y).mp hy with hy | hy
      · rw [hy]
        unfold startLE
        omega
      · exact hx y hy

/-- The stable sort produces a list sorted by start position. -/
theorem sortByStart_pairwise (l : List ExtractedEntity) :
    (sortByStart l).Pairwise startLE := by
  induction l with
  | nil => simp [sortByStart]
  | cons x xs ih => exact insertByStart_pairwise x _ ih

/-- Sorting an already-sorted list is the identity. -/
theorem sortByStart_eq_self (l : List ExtractedEntity) (h : l.Pairwise startLE) :
    sortByStart l = l := by
  induction l with
  | nil => rfl
  | cons x xs ih =>
    obtain ⟨hx, hxs⟩ := List.pairwise_cons.mp h
    show insertByStart x (sortByStart xs) = x :: xs
    rw [ih hxs]
    cases xs with
    | nil => rfl
    | cons y ys =>
      unfold insertByStart
      have hxy : x.startPosition ≤ y.startPosition := hx y (List.mem_cons_self y ys)
      rw [if_pos hxy]

/-- Folding the resolver over a pairwise non-overlapping list appends
every candidate. -/
theorem foldl_resolver_append (rest : List ExtractedEntity) (acc : List ExtractedEntity)
    (hpre : ∀ x ∈ acc, ∀ y ∈ rest, overlaps y x = false)
    (hrest : rest.Pairwise noOv) :
    rest.foldl resolverStep acc = acc ++ rest := by
  induction rest generalizing acc with
  | nil => simp
  | cons e rest ih =>
    rw [List.foldl_cons]
    have hstep : resolverStep acc e = acc ++ [e] := by
      unfold resolverStep
      rw [resolverScan_spec]
      have hnone : acc.find? (fun x => overlaps e x) = none :=
        List.find?_eq_none.mpr fun x hx => by
          simp [hpre x hx e (List.mem_cons_self e rest)]
      rw [hnone]
    rw [hstep, ih]
    · simp
    · intro x hx y hy
      rcases List.mem_append.mp hx with hx | hx
      · exact hpre x hx y (List.mem_cons_of_mem _ hy)
      · rw [List.mem_singleton] at hx
        rw [hx, ← overlaps_symm]
        exact (List.pairwise_cons.mp hrest).1 y hy
    · exact (List.pairwise_cons.mp hrest).2

/-- C4: for every candidate list, the overlap resolver output contains no
pair of entities with overlapping spans (`a.start < b.end` and
`a.end > b.start`), and re-running the resolver on its own output returns
it unchanged. -/
theorem resolver_output_nonoverlapping_and_idempotent (l : List ExtractedEntity) :
    (removeDuplicatesAndOverlaps l).Pairwise noOv ∧
      removeDuplicatesAndOverlaps (removeDuplicatesAndOverlaps l) =
        removeDuplicatesAndOverlaps l := by
  by_cases hl : l.isEmpty
  · have hnil : l = [] := by
      cases l
      · rfl
      · simp [List.isEmpty] at hl
    rw [hnil]
    exact ⟨by simp [removeDuplicatesAndOverlaps], rfl⟩
  · have hrem : removeDuplicatesAndOverlaps l = (sortByStart l).foldl resolverStep [] := by
      unfold removeDuplicatesAndOverlaps
      rw [if_neg hl]
    obtain ⟨hs, hn⟩ := foldl_resolver_inv (sortByStart l) []
      (List.Pairwise.nil) (List.Pairwise.nil) (by simp) (sortByStart_pairwise l)
    rw [hrem]
    refine ⟨hn, ?_⟩
    by_cases hme : ((sortByStart l).foldl resolverStep []).isEmpty
    · unfold removeDuplicatesAndOverlaps
      rw [if_pos hme]
    · unfold removeDuplicatesAndOverlaps
      rw [if_neg hme, sortByStart_eq_self _ hs]
      rw [foldl_resolver_append _ [] (by simp) hn]
      simp

/-! ### Context scorer (`_enhanceWithContext` / `_analyzeEntityContext`,
`Name_Entity_Recogniztion.py` lines 561-591) -/

/-- Keywords counted for PERSON entities. -/
def personContextKeywords : List (List Nat) :=
  [codes "registered", codes "participant", codes "attendee", codes "mr",
    codes "mrs", codes "dr"]

/-- Keywords counted for EVENT entities. -/
def eventContextKeywords : List (List Nat) :=
  [codes "registered for", codes "attending", codes "conference", codes "summit"]

/-- Keywords counted for LOCATION entities. -/
def locationContextKeywords : List (List Nat) :=
  [codes "in", codes "at", codes "held in", codes "located"]

/-- Keywords counted for DATE entities. -/
def dateContextKeywords : List (List Nat) :=
  [codes "on", codes "scheduled", codes "happening"]

/-- Python slice `text[a:b]` for non-negative bounds. -/
def sliceCodes (t : List Nat) (a b : Int) : List Nat := (t.take b.toNat).drop a.toNat

/-- The `sum(1 for keyword in keywords if keyword in context)` counter. -/
def countKeywords (kws : List (List Nat)) (context : List Nat) : Nat :=
  (kws.filter (fun kw => containsSub kw context)).length

/-- `_analyzeEntityContext`: count type-specific keywords in the lowercased
window `[max(0, start-50), min(len(text), end+50)]`. -/
def analyzeEntityContext (entity : ExtractedEntity) (text : List Nat) : Nat :=
  let contextWindow : Int := 50
  let start := max 0 (entity.startPosition - contextWindow)
  let stop := min (text.length : Int) (entity.endPosition + contextWindow)
  let context := pyLower (sliceCodes text start stop)
  match entity.entityType with
  | .PERSON => countKeywords personContextKeywords context
  | .EVENT => countKeywords eventContextKeywords context
  | .LOCATION => countKeywords locationContextKeywords context
  | .DATE => countKeywords dateContextKeywords context
  | .ORGANIZATION => 0

/-- The per-entity body of `_enhanceWithContext`: on a positive context
score promote LOW to MEDIUM and MEDIUM to HIGH. -/
def enhanceEntity (text : List Nat) (entity : ExtractedEntity) : ExtractedEntity :=
  if analyzeEntityContext entity text > 0 then
    if entity.confidence = .LOW then { entity with confidence := .MEDIUM }
    else if entity.confidence = .MEDIUM then { entity with confidence := .HIGH }
    else entity
  else entity

/-- `_enhanceWithContext` over the whole entity list. -/
def enhanceWithContext (entities : List ExtractedEntity) (text : List Nat) :
    List ExtractedEntity :=
  entities.map (enhanceEntity text)

/-- The ordinal HIGH > MEDIUM > LOW > UNKNOWN. -/
def confidenceOrdinal : ExtractionConfidence → Nat
  | .UNKNOWN => 0
  | .LOW => 1
  | .MEDIUM => 2
  | .HIGH => 3

/-- Promotion by exactly one tier, bounded at HIGH. -/
def promoteOneTier : ExtractionConfidence → ExtractionConfidence
  | .LOW => .MEDIUM
  | .MEDIUM => .HIGH
  | .HIGH => .HIGH
  | .UNKNOWN => .UNKNOWN

/-- The context score ignores the confidence field. -/
theorem analyze_set_confidence (e : ExtractedEntity) (c : ExtractionConfidence)
    (text : List Nat) :
    analyzeEntityContext { e with confidence := c } text = analyzeEntityContext e text := by
  cases e
  rfl

/-- Entity used in the context-scorer counterexample. -/
def sampleScorerEntity : ExtractedEntity :=
  ⟨.PERSON, codes "alice smith", .LOW, 11, 22, codes "alice smith"⟩

/-- Text used in the context-scorer counterexample. -/
def sampleScorerText : List Nat := codes "registered alice smith"

/-- C5 counterexample: the context scorer is not idempotent.  A LOW entity
with a positive keyword count is promoted to MEDIUM by the first
application and promoted again to HIGH by the second, so re-applying the
scorer to its own output changes the entity. -/
theorem context_scorer_second_application_changes_entity :
    enhanceWithContext (enhanceWithContext [sampleScorerEntity] sampleScorerText)
        sampleScorerText ≠
      enhanceWithContext [sampleScorerEntity] sampleScorerText := by
  decide

/-- C5 amended: the context scorer promotes each entity by exactly one tier
(LOW to MEDIUM, MEDIUM to HIGH) when its keyword count in the window is
positive, leaves HIGH entities and zero-count entities unchanged, and never
lowers any confidence; a second application may promote an entity one
further tier, and from the second application onwards the list is fixed
(three applications equal two). -/
theorem context_scorer_promotion_properties (text : List Nat)
    (l : List ExtractedEntity) :
    (∀ e ∈ l, confidenceOrdinal e.confidence ≤
      confidenceOrdinal (enhanceEntity text e).confidence) ∧
    (∀ e ∈ l, e.confidence = .HIGH → enhanceEntity text e = e) ∧
    (∀ e ∈ l, 0 < analyzeEntityContext e text →
      (enhanceEntity text e).confidence = promoteOneTier e.confidence) ∧
    (∀ e ∈ l, analyzeEntityContext e text = 0 → enhanceEntity text e = e) ∧
    enhanceWithContext (enhanceWithContext (enhanceWithContext l text) text) text =
      enhanceWithContext (enhanceWithContext l text) text := by
  have hfix : ∀ e : ExtractedEntity,
      enhanceEntity text (enhanceEntity text (enhanceEntity text e)) =
        enhanceEntity text (enhanceEntity text e) := by
    intro e
    by_cases hpos : analyzeEntityContext e text > 0
    · cases hc : e.confidence
      all_goals
        simp only [enhanceEntity, hpos, if_true, hc, analyze_set_confidence,
          reduceCtorEq, if_false, reduceIte]
    · simp [enhanceEntity, hpos]
  refine ⟨?_, ?_, ?_, ?_, ?_⟩
  · intro e _
    unfold enhanceEntity
    split_ifs with h1 h2 h3 <;> simp_all [confidenceOrdinal]
  · intro e _ hh
    unfold enhanceEntity
    rw [hh]
    split_ifs <;> simp_all
  · intro e _ hpos
    unfold enhanceEntity
    cases hc : e.confidence <;> simp_all [promoteOneTier]
  · intro e _ hzero
    unfold enhanceEntity
    simp [hzero]
  · unfold enhanceWithContext
    rw [List.map_map, List.map_map, List.map_map]
    apply List.map_congr_left
    intro e _
    exact hfix e

/-- C5 witness: the amended promotion rule evaluated at the sample
entity. -/
theorem context_scorer_promotion_properties_witness :
    (enhanceEntity sampleScorerText sampleScorerEntity).confidence =
      promoteOneTier sampleScorerEntity.confidence :=
  (context_scorer_promotion_properties sampleScorerText [sampleScorerEntity]).2.2.1
    sampleScorerEntity (by simp) (by decide)

/-! ### C3: overall-confidence aggregator (`_calculateOverallConfidence`,
`info_processing.py` lines 563-597) -/

/-- The `confidenceValues` mapping `{HIGH: 3, MEDIUM: 2, LOW: 1, UNKNOWN: 0}`. -/
def confidenceValues : ExtractionConfidence → Nat
  | .HIGH => 3
  | .MEDIUM => 2
  | .LOW => 1
  | .UNKNOWN => 0

/-- The number of the four fields that are truthy. -/
def filledFieldsCount (info : EventRegistrationInfo) : Nat :=
  (if truthyField info.participantName then 1 else 0) +
    (if truthyField info.eventName then 1 else 0) +
    (if truthyField info.location then 1 else 0) +
    (if truthyField info.date then 1 else 0)

/-- The mean confidence score over the record's entity list (exact
rational arithmetic; the Python float comparisons against 2.5, 2.0 and 1.5
are exact in this range). -/
def meanEntityScore (info : EventRegistrationInfo) : ℚ :=
  ((info.extractedEntities.map fun e => (confidenceValues e.confidence : ℚ)).sum) /
    (info.extractedEntities.length : ℚ)

/-- `_calculateOverallConfidence`. -/
def calculateOverallConfidence (info : EventRegistrationInfo) : ExtractionConfidence :=
  if info.extractedEntities = [] then .UNKNOWN
  else
    let filledFields := filledFieldsCount info
    let averageConfidence := meanEntityScore info
    if filledFields = 4 ∧ averageConfidence ≥ 5/2 then .HIGH
    else if filledFields ≥ 3 ∧ averageConfidence ≥ 2 then .HIGH
    else if filledFields ≥ 2 ∧ averageConfidence ≥ 3/2 then .MEDIUM
    else if filledFields ≥ 1 then .LOW
    else .UNKNOWN

/-- The decision table exactly as the claim words it, top-to-bottom,
first match wins. -/
def claimConfidenceTable (filledCount : Nat) (mean : ℚ) : ExtractionConfidence :=
  if filledCount = 4 ∧ mean ≥ 5/2 then .HIGH
  else if filledCount ≥ 3 ∧ mean ≥ 2 then .HIGH
  else if filledCount ≥ 2 ∧ mean ≥ 3/2 then .MEDIUM
  else if filledCount ≥ 1 then .LOW
  else .UNKNOWN

/-- C3: for every record handed to the confidence aggregator (the
aggregator is only reached with a non-empty entity list), the overall
confidence is the first matching row of the claimed decision table applied
to the filled-field count and the mean entity score. -/
theorem overall_confidence_matches_claim_table (info : EventRegistrationInfo)
    (h : info.extractedEntities ≠ []) :
    calculateOverallConfidence info =
      claimConfidenceTable (filledFieldsCount info) (meanEntityScore info) := by
  unfold calculateOverallConfidence claimConfidenceTable
  rw [if_neg h]

/-- Record used as the C3 witness: one HIGH entity, one filled field. -/
def sampleAggregatorInfo : EventRegistrationInfo :=
  { participantName := some (codes "Sarah Johnson"),
    extractedEntities :=
      [⟨.PERSON, codes "Sarah Johnson", .HIGH, 0, 13, codes "Sarah Johnson"⟩] }

/-- C3 witness: the aggregator agrees with the claimed table on a concrete
record (both sides evaluate to LOW). -/
theorem overall_confidence_matches_claim_table_witness :
    calculateOverallConfidence sampleAggregatorInfo =
        claimConfidenceTable (filledFieldsCount sampleAggregatorInfo)
          (meanEntityScore sampleAggregatorInfo) ∧
      calculateOverallConfidence sampleAggregatorInfo = .LOW :=
  ⟨overall_confidence_matches_claim_table sampleAggregatorInfo (by decide),
    by decide⟩

/-! ### C7: entity merger (`mergeEntities` / `_confidenceToScore`,
`info_processing.py` lines 92-124) -/

/-- `_confidenceToScore`. -/
def confidenceToScore : ExtractionConfidence → Nat
  | .HIGH => 3
  | .MEDIUM => 2
  | .LOW => 1
  | .UNKNOWN => 0

/-- The grouping key `(entity.entityType, entity.value.lower())`. -/
def entityKey (e : ExtractedEntity) : EntityType × List Nat :=
  (e.entityType, pyLower e.value)

/-- The distinct keys in dict-insertion (first-occurrence) order. -/
def groupKeys (l : List ExtractedEntity) : List (EntityType × List Nat) :=
  l.foldl (fun acc e => if entityKey e ∈ acc then acc else acc ++ [entityKey e]) []

/-- One comparison step of Python `max(entity_list, key=...)`: the current
best is kept unless the next score is strictly greater, so the first
maximal element wins. -/
def pickHigher (best e : ExtractedEntity) : ExtractedEntity :=
  if confidenceToScore best.confidence < confidenceToScore e.confidence then e else best

/-- Merging one group: a single entity is kept as-is, otherwise the
highest-confidence entity is selected. -/
def mergeGroup (group : List ExtractedEntity) : List ExtractedEntity :=
  match group with
  | [] => []
  | [e] => [e]
  | x :: xs => [xs.foldl pickHigher x]

/-- `mergeEntities`: group by `(entityType, value.lower())` and keep one
highest-confidence entity per group. -/
def mergeEntities (entities : List ExtractedEntity) : List ExtractedEntity :=
  if entities = [] then []
  else (groupKeys entities).flatMap fun k =>
    mergeGroup (entities.filter fun e => entityKey e = k)

/-- The `max` fold returns a member of the group. -/
theorem foldl_pickHigher_mem (xs : List ExtractedEntity) (x : ExtractedEntity) :
    xs.foldl pickHigher x = x ∨ xs.foldl pickHigher x ∈ xs := by
  induction xs generalizing x with
  | nil => exact Or.inl rfl
  | cons y ys ih =>
    rw [List.foldl_cons]
    rcases ih (pickHigher x y) with h | h
    · rw [h]
      unfold pickHigher
      split_ifs
      · exact Or.inr (List.mem_cons_self y ys)
      · exact Or.inl rfl
    · exact Or.inr (List.mem_cons_of_mem y h)

/-- The `max` fold never drops below its running best. -/
theorem foldl_pickHigher_start (xs : List ExtractedEntity) (x : ExtractedEntity) :
    confidenceToScore x.confidence ≤
      confidenceToScore (xs.foldl pickHigher x).confidence := by
  induction xs generalizing x with
  | nil => simp
  | cons y ys ih =>
    rw [List.foldl_cons]
    refine le_trans ?_ (ih (pickHigher x y))
    unfold pickHigher
    split_ifs with h
    · omega
    · omega

/-- The `max` fold dominates every element it has seen. -/
theorem foldl_pickHigher_ge (xs : List ExtractedEntity) (x e : ExtractedEntity)
    (he : e = x ∨ e ∈ xs) :
    confidenceToScore e.confidence ≤
      confidenceToScore (xs.foldl pickHigher x).confidence := by
  induction xs generalizing x with
  | nil =>
    rcases he with he | he
    · rw [he]; simp
    · simp at he
  | cons y ys ih =>
    rw [List.foldl_cons]
    have hystep : confidenceToScore y.confidence ≤
        confidenceToScore (pickHigher x y).confidence := by
      unfold pickHigher
      split_ifs with h
      · omega
      · omega
    rcases he with he | he
    · rw [he]
      refine le_trans ?_ (foldl_pickHigher_start ys (pickHigher x y))
      unfold pickHigher
      split_ifs with h
      · omega
      · omega
    · rcases List.mem_cons.mp he with he | he
      · rw [he]
        exact le_trans hystep (foldl_pickHigher_start ys (pickHigher x y))
      · exact ih (pickHigher x y) (Or.inr he)

/-- Merging a group returns members of the group. -/
theorem mergeGroup_subset (g : List ExtractedEntity) (y : ExtractedEntity)
    (hy : y ∈ mergeGroup g) : y ∈ g := by
  match g with
  | [] => simp [mergeGroup] at hy
  | [e] =>
    simp [mergeGroup] at hy
    simp [hy]
  | x :: x' :: xs =>
    simp only [mergeGroup, List.mem_singleton] at hy
    rw [hy]
    rcases foldl_pickHigher_mem (x' :: xs) x with h | h
    · rw [h]; exact List.mem_cons_self _ _
    · exact List.mem_cons_of_mem _ h

/-- The merged representative dominates its group. -/
theorem mergeGroup_max (g : List ExtractedEntity) (y : ExtractedEntity)
    (hy : y ∈ mergeGroup g) (e : ExtractedEntity) (he : e ∈ g) :
    confidenceToScore e.confidence ≤ confidenceToScore y.confidence := by
  match g with
  | [] => simp [mergeGroup] at hy
  | [e'] =>
    simp [mergeGroup] at hy
    simp at he
    rw [hy, he]
  | x :: x' :: xs =>
    simp only [mergeGroup, List.mem_singleton] at hy
    rw [hy]
    rcases List.mem_cons.mp he with he | he
    · exact foldl_pickHigher_ge (x' :: xs) x e (Or.inl he)
    · exact foldl_pickHigher_ge (x' :: xs) x e (Or.inr he)

/-- A non-empty group merges to exactly one representative. -/
theorem mergeGroup_singleton (g : List ExtractedEntity) (hg : g ≠ []) :
    ∃ y, mergeGroup g = [y] := by
  match g with
  | [] => exact absurd rfl hg
  | [e] => exact ⟨e, rfl⟩
  | x :: x' :: xs => exact ⟨(x' :: xs).foldl pickHigher x, rfl⟩

/-- Key membership in the fold computing `groupKeys`. -/
theorem foldKeys_mem (l : List ExtractedEntity) (acc : List (EntityType × List Nat))
    (k : EntityType × List Nat) :
    k ∈ l.foldl (fun acc e => if entityKey e ∈ acc then acc else acc ++ [entityKey e]) acc ↔
      k ∈ acc ∨ ∃ e ∈ l, entityKey e = k := by
  induction l generalizing acc with
  | nil => simp
  | cons e es ih =>
    rw [List.foldl_cons, ih]
    split_ifs with hmem
    · constructor
      · rintro (h | h)
        · exact Or.inl h
        · obtain ⟨a, ha, hk⟩ := h
          exact Or.inr ⟨a, List.mem_cons_of_mem _ ha, hk⟩
      · rintro (h | ⟨a, ha, hk⟩)
        · exact Or.inl h
        · rcases List.mem_cons.mp ha with ha | ha
          · exact Or.inl (by rw [← hk, ha]; exact hmem)
          · exact Or.inr ⟨a, ha, hk⟩
    · simp only [List.mem_append, List.mem_singleton, List.mem_cons]
      aesop

/-- A key appears in `groupKeys l` exactly when some entity of `l` has it. -/
theorem groupKeys_mem (l : List ExtractedEntity) (k : EntityType × List Nat) :
    k ∈ groupKeys l ↔ ∃ e ∈ l, entityKey e = k := by
  unfold groupKeys
  rw [foldKeys_mem]
  simp

/-- Every element of the merged list belongs to the input and dominates
its whole key group; and each input entity has exactly one representative
of its key in the output.  This is claim C7. -/
theorem merge_entities_one_max_per_group (l : List ExtractedEntity) :
    (∀ y ∈ mergeEntities l, y ∈ l) ∧
    (∀ y ∈ mergeEntities l, ∀ e ∈ l, entityKey e = entityKey y →
      confidenceToScore e.confidence ≤ confidenceToScore y.confidence) ∧
    (∀ f ∈ l, ∃ y ∈ mergeEntities l, entityKey y = entityKey f ∧
      ∀ z ∈ mergeEntities l, entityKey z = entityKey f → z = y) := by
  by_cases hl : l = []
  · rw [hl]
    simp [mergeEntities]
  · have hme : mergeEntities l = (groupKeys l).flatMap fun k =>
        mergeGroup (l.filter fun e => entityKey e = k) := by
      unfold mergeEntities
      rw [if_neg hl]
    have hpiece : ∀ y ∈ mergeEntities l, ∃ k ∈ groupKeys l,
        y ∈ l.filter (fun e => entityKey e = k) ∧ entityKey y = k := by
      intro y hy
      rw [hme] at hy
      obtain ⟨k, hk, hyk⟩ := List.mem_flatMap.mp hy
      have hmem := mergeGroup_subset _ y hyk
      have := List.mem_filter.mp hmem
      exact ⟨k, hk, hmem, by simpa using this.2⟩
    refine ⟨?_, ?_, ?_⟩
    · intro y hy
      obtain ⟨k, _, hyf, _⟩ := hpiece y hy
      exact (List.mem_filter.mp hyf).1
    · intro y hy e he hk
      obtain ⟨k, hkmem, hyf, hyk⟩ := hpiece y hy
      rw [hme] at hy
      obtain ⟨k', hk', hyk'⟩ := List.mem_flatMap.mp hy
      -- y is in the merge of the group of its own key
      have hef : e ∈ l.filter (fun x => entityKey x = k) :=
        List.mem_filter.mpr ⟨he, by simp [hk, hyk]⟩
      -- identify the piece y came from with the group of key k
      have hk'k : k' = k := by
        have := List.mem_filter.mp (mergeGroup_subset _ y hyk')
        have h2 : entityKey y = k' := by simpa using this.2
        rw [← h2, hyk]
      rw [hk'k] at hyk'
      exact mergeGroup_max _ y hyk' e hef
    · intro f hf
      have hkmem : entityKey f ∈ groupKeys l := (groupKeys_mem l _).mpr ⟨f, hf, rfl⟩
      have hgne : l.filter (fun e => entityKey e = entityKey f) ≠ [] := by
        intro hnil
        have : f ∈ l.filter (fun e => entityKey e = entityKey f) :=
          List.mem_filter.mpr ⟨hf, by simp⟩
        rw [hnil] at this
        simp at this
      obtain ⟨y, hy⟩ := mergeGroup_singleton _ hgne
      have hymem : y ∈ mergeEntities l := by
        rw [hme]
        exact List.mem_flatMap.mpr ⟨entityKey f, hkmem, by rw [hy]; simp⟩
      have hykey : entityKey y = entityKey f := by
        have := List.mem_filter.mp (mergeGroup_subset _ y (by rw [hy]; simp))
        simpa using this.2
      refine ⟨y, hymem, hykey, ?_⟩
      intro z hz hzk
      obtain ⟨k', hk', hzk'⟩ := by
        rw [hme] at hz
        exact List.mem_flatMap.mp hz
      have hzkey : entityKey z = k' := by
        have := List.mem_filter.mp (mergeGroup_subset _ z hzk')
        simpa using this.2
      have : k' = entityKey f := by rw [← hzkey, hzk]
      rw [this] at hzk'
      rw [hy] at hzk'
      simpa using hzk'

/-- C7 witness: a two-element group merges to its single maximal element. -/
theorem merge_entities_one_max_per_group_witness :
    mergeEntities [⟨.PERSON, codes "Ann Lee", .LOW, 0, 7, codes "Ann Lee"⟩,
        ⟨.PERSON, codes "ann lee", .HIGH, 10, 17, codes "ann lee"⟩] =
      [⟨.PERSON, codes "ann lee", .HIGH, 10, 17, codes "ann lee"⟩] ∧
    confidenceToScore (ExtractedEntity.confidence
        ⟨.PERSON, codes "Ann Lee", .LOW, 0, 7, codes "Ann Lee"⟩) ≤
      confidenceToScore (ExtractedEntity.confidence
        ⟨.PERSON, codes "ann lee", .HIGH, 10, 17, codes "ann lee"⟩) := by
  constructor
  · decide
  · exact (merge_entities_one_max_per_group
      [⟨.PERSON, codes "Ann Lee", .LOW, 0, 7, codes "Ann Lee"⟩,
        ⟨.PERSON, codes "ann lee", .HIGH, 10, 17, codes "ann lee"⟩]).2.1
      ⟨.PERSON, codes "ann lee", .HIGH, 10, 17, codes "ann lee"⟩ (by decide)
      ⟨.PERSON, codes "Ann Lee", .LOW, 0, 7, codes "Ann Lee"⟩ (by simp) (by decide)

/-! ### C9: field formatters (`info_processing.py` lines 480-561) -/

/-- Uppercasing a character twice is the same as doing it once. -/
theorem pyUpperChar_idem (c : Nat) : pyUpperChar (pyUpperChar c) = pyUpperChar c := by
  unfold pyUpperChar
  split_ifs <;> omega

/-- Lowercasing a character twice is the same as doing it once. -/
theorem pyLowerChar_idem (c : Nat) : pyLowerChar (pyLowerChar c) = pyLowerChar c := by
  unfold pyLowerChar
  split_ifs <;> omega

/-- Lowercasing after uppercasing equals lowercasing. -/
theorem pyLowerChar_pyUpperChar (c : Nat) :
    pyLowerChar (pyUpperChar c) = pyLowerChar c := by
  unfold pyLowerChar pyUpperChar
  split_ifs <;> omega

/-- Uppercasing after lowercasing equals uppercasing. -/
theorem pyUpperChar_pyLowerChar (c : Nat) :
    pyUpperChar (pyLowerChar c) = pyUpperChar c := by
  unfold pyUpperChar pyLowerChar
  split_ifs <;> omega

/-- Case mapping does not change whitespace-ness. -/
theorem isPySpace_pyUpperChar (c : Nat) : isPySpace (pyUpperChar c) = isPySpace c := by
  unfold pyUpperChar
  split_ifs with h
  · have h1 : isPySpace (c - 32) = false := by
      unfold isPySpace
      simp only [Bool.or_eq_false_iff, decide_eq_false_iff_not]
      omega
    have h2 : isPySpace c = false := by
      unfold isPySpace
      simp only [Bool.or_eq_false_iff, decide_eq_false_iff_not]
      omega
    rw [h1, h2]
  · rfl

/-- Case mapping does not change whitespace-ness. -/
theorem isPySpace_pyLowerChar (c : Nat) : isPySpace (pyLowerChar c) = isPySpace c := by
  unfold pyLowerChar
  split_ifs with h
  · have h1 : isPySpace (c + 32) = false := by
      unfold isPySpace
      simp only [Bool.or_eq_false_iff, decide_eq_false_iff_not]
      omega
    have h2 : isPySpace c = false := by
      unfold isPySpace
      simp only [Bool.or_eq_false_iff, decide_eq_false_iff_not]
      omega
    rw [h1, h2]
  · rfl

/-- Characters below the letter range are fixed by uppercasing. -/
theorem pyUpperChar_eq_low (c d : Nat) (hd : d < 65) : pyUpperChar c = d ↔ c = d := by
  unfold pyUpperChar
  split_ifs <;> omega

/-- Characters below the letter range are fixed by lowercasing. -/
theorem pyLowerChar_eq_low (c d : Nat) (hd : d < 65) : pyLowerChar c = d ↔ c = d := by
  unfold pyLowerChar
  split_ifs <;> omega

/-- A Python word: non-empty and whitespace-free, as produced by `split()`. -/
def wordOK (w : List Nat) : Prop := w ≠ [] ∧ ∀ c ∈ w, isPySpace c = false

/-- Lowercasing a string twice equals doing it once. -/
theorem pyLower_idem (w : List Nat) : pyLower (pyLower w) = pyLower w := by
  unfold pyLower
  rw [List.map_map]
  exact List.map_congr_left fun c _ => pyLowerChar_idem c

/-- Uppercasing a string twice equals doing it once. -/
theorem pyUpper_idem (w : List Nat) : pyUpper (pyUpper w) = pyUpper w := by
  unfold pyUpper
  rw [List.map_map]
  exact List.map_congr_left fun c _ => pyUpperChar_idem c

/-- Uppercasing a capitalized string equals uppercasing the original. -/
theorem pyUpper_pyCapitalize (w : List Nat) : pyUpper (pyCapitalize w) = pyUpper w := by
  cases w with
  | nil => rfl
  | cons c t =>
    unfold pyCapitalize pyUpper pyLower
    simp only [List.map_cons, List.map_map, List.cons.injEq]
    exact ⟨pyUpperChar_idem c, List.map_congr_left fun d _ => pyUpperChar_pyLowerChar d⟩

/-- Lowercasing a capitalized string equals lowercasing the original. -/
theorem pyLower_pyCapitalize (w : List Nat) : pyLower (pyCapitalize w) = pyLower w := by
  cases w with
  | nil => rfl
  | cons c t =>
    unfold pyCapitalize pyLower
    simp only [List.map_cons, List.map_map, List.cons.injEq]
    exact ⟨pyLowerChar_pyUpperChar c, List.map_congr_left fun d _ => pyLowerChar_idem d⟩

/-- Capitalizing twice equals capitalizing once. -/
theorem pyCapitalize_idem (w : List Nat) : pyCapitalize (pyCapitalize w) = pyCapitalize w := by
  cases w with
  | nil => rfl
  | cons c t =>
    unfold pyCapitalize
    simp only [List.cons.injEq]
    exact ⟨pyUpperChar_idem c, pyLower_idem t⟩

/-- Low character membership is unchanged by uppercasing. -/
theorem mem_pyUpper_low (w : List Nat) (d : Nat) (hd : d < 65) :
    d ∈ pyUpper w ↔ d ∈ w := by
  unfold pyUpper
  rw [List.mem_map]
  constructor
  · rintro ⟨c, hc, he⟩
    rwa [← (pyUpperChar_eq_low c d hd).mp he]
  · intro hc
    exact ⟨d, hc, (pyUpperChar_eq_low d d hd).mpr rfl⟩

/-- Low character membership is unchanged by lowercasing. -/
theorem mem_pyLower_low (w : List Nat) (d : Nat) (hd : d < 65) :
    d ∈ pyLower w ↔ d ∈ w := by
  unfold pyLower
  rw [List.mem_map]
  constructor
  · rintro ⟨c, hc, he⟩
    rwa [← (pyLowerChar_eq_low c d hd).mp he]
  · intro hc
    exact ⟨d, hc, (pyLowerChar_eq_low d d hd).mpr rfl⟩

/-- Low character membership is unchanged by capitalizing. -/
theorem mem_pyCapitalize_low (w : List Nat) (d : Nat) (hd : d < 65) :
    d ∈ pyCapitalize w ↔ d ∈ w := by
  cases w with
  | nil => simp [pyCapitalize]
  | cons c t =>
    unfold pyCapitalize
    simp only [List.mem_cons, mem_pyLower_low t d hd]
    constructor
    · rintro (h | h)
      · exact Or.inl ((pyUpperChar_eq_low c d hd).mp h.symm).symm
      · exact Or.inr h
    · rintro (h | h)
      · exact Or.inl ((pyUpperChar_eq_low c d hd).mpr h.symm).symm
      · exact Or.inr h

/-- Uppercasing preserves wordhood. -/
theorem wordOK_pyUpper (w : List Nat) (h : wordOK w) : wordOK (pyUpper w) := by
  obtain ⟨h1, h2⟩ := h
  refine ⟨by simpa [pyUpper] using h1, ?_⟩
  intro c hc
  obtain ⟨d, hd, he⟩ := List.mem_map.mp hc
  rw [← he, isPySpace_pyUpperChar]
  exact h2 d hd

/-- Lowercasing preserves wordhood. -/
theorem wordOK_pyLower (w : List Nat) (h : wordOK w) : wordOK (pyLower w) := by
  obtain ⟨h1, h2⟩ := h
  refine ⟨by simpa [pyLower] using h1, ?_⟩
  intro c hc
  obtain ⟨d, hd, he⟩ := List.mem_map.mp hc
  rw [← he, isPySpace_pyLowerChar]
  exact h2 d hd

/-- Capitalizing preserves wordhood. -/
theorem wordOK_pyCapitalize (w : List Nat) (h : wordOK w) : wordOK (pyCapitalize w) := by
  obtain ⟨h1, h2⟩ := h
  cases w with
  | nil => exact absurd rfl h1
  | cons c t =>
    unfold pyCapitalize
    refine ⟨by simp, ?_⟩
    intro d hd
    rcases List.mem_cons.mp hd with hd | hd
    · rw [hd, isPySpace_pyUpperChar]
      exact h2 c (List.mem_cons_self c t)
    · obtain ⟨x, hx, he⟩ := List.mem_map.mp hd
      rw [← he, isPySpace_pyLowerChar]
      exact h2 x (List.mem_cons_of_mem c hx)

/-- Unfolding equation of `pySplitWs` at the empty string. -/
theorem pySplitWs_nil : pySplitWs [] = [] := rfl

/-- Unfolding equation of `pySplitWs` at a whitespace character. -/
theorem pySplitWs_cons_space (c : Nat) (t : List Nat) (h : isPySpace c = true) :
    pySplitWs (c :: t) = pySplitWs t := by
  unfold pySplitWs
  simp only [List.length_cons, pySplitWsGo, h, if_true]

/-- Unfolding equation of `pySplitWs` at a word character. -/
theorem pySplitWs_cons_word (c : Nat) (t : List Nat) (h : isPySpace c = false) :
    pySplitWs (c :: t) =
      ((c :: t).takeWhile (fun x => !isPySpace x)) ::
        pySplitWs (t.dropWhile (fun x => !isPySpace x)) := by
  have hdrop := lengthDropWhileLe (fun x => !isPySpace x) t
  unfold pySplitWs
  simp only [List.length_cons, pySplitWsGo, h, Bool.false_eq_true, if_false]
  congr 1
  exact pySplitWsGo_fuel t.length (t.dropWhile (fun x => !isPySpace x)).length
    (t.dropWhile (fun x => !isPySpace x)) hdrop (le_refl _)

/-- Case analysis principle matching the recursion of `pySplitWs`. -/
theorem pySplitWs_induction (P : List Nat → Prop) (h1 : P [])
    (h2 : ∀ c t, isPySpace c = true → P t → P (c :: t))
    (h3 : ∀ c t, isPySpace c = false →
      P (t.dropWhile (fun x => !isPySpace x)) → P (c :: t)) :
    ∀ s, P s := by
  have H : ∀ (n : Nat) (s : List Nat), s.length ≤ n → P s := by
    intro n
    induction n with
    | zero =>
      intro s hs
      rw [List.eq_nil_of_length_eq_zero (Nat.le_zero.mp hs)]
      exact h1
    | succ n ih =>
      intro s hs
      cases s with
      | nil => exact h1
      | cons c t =>
        cases hc : isPySpace c with
        | true =>
          exact h2 c t hc (ih t (by simp at hs; omega))
        | false =>
          have hd := lengthDropWhileLe (fun x => !isPySpace x) t
          exact h3 c t hc (ih _ (by simp at hs; omega))
  exact fun s => H s.length s (le_refl _)

/-- `takeWhile` over an append whose left part satisfies the predicate. -/
theorem takeWhile_append_all (q : Nat → Bool) (u v : List Nat)
    (h : ∀ c ∈ u, q c = true) : (u ++ v).takeWhile q = u ++ v.takeWhile q := by
  induction u with
  | nil => simp
  | cons c t ih =>
    rw [List.cons_append, List.takeWhile_cons, h c (List.mem_cons_self c t)]
    simp only [if_true, List.cons_append, List.cons.injEq, true_and]
    exact ih fun d hd => h d (List.mem_cons_of_mem c hd)

/-- `dropWhile` over an append whose left part satisfies the predicate. -/
theorem dropWhile_append_all (q : Nat → Bool) (u v : List Nat)
    (h : ∀ c ∈ u, q c = true) : (u ++ v).dropWhile q = v.dropWhile q := by
  induction u with
  | nil => simp
  | cons c t ih =>
    rw [List.cons_append, List.dropWhile_cons, h c (List.mem_cons_self c t)]
    simp only [if_true]
    exact ih fun d hd => h d (List.mem_cons_of_mem c hd)

/-- `takeWhile` over an append whose right part fails the predicate. -/
theorem takeWhile_append_notq (q : Nat → Bool) (t sp : List Nat)
    (hsp : ∀ c ∈ sp, q c = false) : (t ++ sp).takeWhile q = t.takeWhile q := by
  induction t with
  | nil =>
    cases sp with
    | nil => rfl
    | cons c r =>
      simp [List.takeWhile_cons, hsp c (List.mem_cons_self c r)]
  | cons c t ih =>
    rw [List.cons_append, List.takeWhile_cons, List.takeWhile_cons]
    cases hq : q c
    · rfl
    · simp only [ih]

/-- `dropWhile` over an append whose right part fails the predicate. -/
theorem dropWhile_append_notq (q : Nat → Bool) (t sp : List Nat)
    (hsp : ∀ c ∈ sp, q c = false) : (t ++ sp).dropWhile q = t.dropWhile q ++ sp := by
  induction t with
  | nil =>
    cases sp with
    | nil => rfl
    | cons c r =>
      simp [List.dropWhile_cons, hsp c (List.mem_cons_self c r)]
  | cons c t ih =>
    rw [List.cons_append, List.dropWhile_cons, List.dropWhile_cons]
    cases hq : q c
    · simp
    · simpa using ih

/-- Every word produced by `split()` is non-empty and whitespace-free. -/
theorem splitWs_wordOK (s : List Nat) : ∀ w ∈ pySplitWs s, wordOK w := by
  induction s using pySplitWs_induction with
  | h1 => simp [pySplitWs_nil]
  | h2 c t h ih =>
    rw [pySplitWs_cons_space c t h]
    exact ih
  | h3 c t hc ih =>
    rw [pySplitWs_cons_word c t hc]
    intro w hw
    rcases List.mem_cons.mp hw with hw | hw
    · rw [hw]
      constructor
      · simp [List.takeWhile_cons, hc]
      · intro d hd
        have := List.mem_takeWhile_imp hd
        simpa using this
    · exact ih w hw

/-- Every character of a `split()` word comes from the original string. -/
theorem splitWs_chars (s : List Nat) : ∀ w ∈ pySplitWs s, ∀ c ∈ w, c ∈ s := by
  induction s using pySplitWs_induction with
  | h1 => simp [pySplitWs_nil]
  | h2 c t h ih =>
    rw [pySplitWs_cons_space c t h]
    intro w hw d hd
    exact List.mem_cons_of_mem c (ih w hw d hd)
  | h3 c t hc ih =>
    rw [pySplitWs_cons_word c t hc]
    intro w hw d hd
    rcases List.mem_cons.mp hw with hw | hw
    · rw [hw] at hd
      exact (List.takeWhile_sublist _).mem hd
    · have := ih w hw d hd
      exact List.mem_cons_of_mem c ((List.dropWhile_sublist _).mem this)

/-- A string of whitespace splits to nothing. -/
theorem splitWs_all_space (s : List Nat) (h : ∀ c ∈ s, isPySpace c = true) :
    pySplitWs s = [] := by
  induction s with
  | nil => exact pySplitWs_nil
  | cons c t ih =>
    rw [pySplitWs_cons_space c t (h c (List.mem_cons_self c t))]
    exact ih fun d hd => h d (List.mem_cons_of_mem c hd)

/-- Trailing whitespace does not affect `split()`. -/
theorem splitWs_append_spaces (s sp : List Nat) (hsp : ∀ c ∈ sp, isPySpace c = true) :
    pySplitWs (s ++ sp) = pySplitWs s := by
  induction s using pySplitWs_induction with
  | h1 =>
    rw [List.nil_append, splitWs_all_space sp hsp, pySplitWs_nil]
  | h2 c t hc ih =>
    rw [List.cons_append, pySplitWs_cons_space c _ hc, pySplitWs_cons_space c t hc]
    exact ih
  | h3 c t hc ih =>
    have hq : ∀ c ∈ sp, (fun x => !isPySpace x) c = false := by
      intro d hd
      simp [hsp d hd]
    rw [List.cons_append, pySplitWs_cons_word c _ hc, pySplitWs_cons_word c t hc]
    rw [show c :: (t ++ sp) = (c :: t) ++ sp from rfl]
    rw [takeWhile_append_notq _ _ _ hq, dropWhile_append_notq _ _ _ hq]
    simp only [List.cons.injEq, true_and]
    exact ih

/-- Leading whitespace does not affect `split()`. -/
theorem splitWs_dropWhile_space (s : List Nat) :
    pySplitWs (s.dropWhile isPySpace) = pySplitWs s := by
  induction s with
  | nil => rfl
  | cons c t ih =>
    rw [List.dropWhile_cons]
    cases hc : isPySpace c
    · simp
    · simp only [if_true]
      rw [ih, pySplitWs_cons_space c t hc]

/-- Stripping does not affect `split()`. -/
theorem splitWs_pyStrip (s : List Nat) : pySplitWs (pyStrip s) = pySplitWs s := by
  unfold pyStrip
  set u := s.dropWhile isPySpace with hu
  have hdecomp : u = (u.reverse.dropWhile isPySpace).reverse ++
      (u.reverse.takeWhile isPySpace).reverse := by
    have := List.takeWhile_append_dropWhile (p := isPySpace) (l := u.reverse)
    calc u = u.reverse.reverse := by rw [List.reverse_reverse]
    _ = (u.reverse.takeWhile isPySpace ++ u.reverse.dropWhile isPySpace).reverse := by
        rw [this]
    _ = _ := by rw [List.reverse_append]
  have hsp : ∀ c ∈ (u.reverse.takeWhile isPySpace).reverse, isPySpace c = true := by
    intro c hc
    rw [List.mem_reverse] at hc
    exact List.mem_takeWhile_imp hc
  calc pySplitWs (u.reverse.dropWhile isPySpace).reverse
      = pySplitWs ((u.reverse.dropWhile isPySpace).reverse ++
          (u.reverse.takeWhile isPySpace).reverse) :=
        (splitWs_append_spaces _ _ hsp).symm
    _ = pySplitWs u := by rw [← hdecomp]
    _ = pySplitWs s := splitWs_dropWhile_space s

/-- Joining a single word. -/
theorem joinSpace_single (w : List Nat) : joinSpace [w] = w := by
  simp [joinSpace, List.intersperse]

/-- Joining two or more words. -/
theorem joinSpace_cons_cons (w x : List Nat) (l : List (List Nat)) :
    joinSpace (w :: x :: l) = w ++ 32 :: joinSpace (x :: l) := by
  simp [joinSpace, List.intersperse]

/-- The join of words led by a real word is non-empty. -/
theorem joinSpace_ne_nil (w : List Nat) (l : List (List Nat)) (hw : wordOK w) :
    joinSpace (w :: l) ≠ [] := by
  cases l with
  | nil =>
    rw [joinSpace_single]
    exact hw.1
  | cons x r =>
    rw [joinSpace_cons_cons]
    intro h
    rcases List.append_eq_nil.mp h with ⟨h1, h2⟩
    exact absurd h2 (by simp)

/-- Splitting a word followed by a space and arbitrary text. -/
theorem splitWs_word_cons (w X : List Nat) (hw : wordOK w) :
    pySplitWs (w ++ 32 :: X) = w :: pySplitWs X := by
  obtain ⟨hne, hns⟩ := hw
  cases w with
  | nil => exact absurd rfl hne
  | cons c t =>
    have hc : isPySpace c = false := hns c (List.mem_cons_self c t)
    have hall : ∀ d ∈ c :: t, (fun x => !isPySpace x) d = true := by
      intro d hd
      simp [hns d hd]
    rw [List.cons_append, pySplitWs_cons_word c _ hc]
    have h1 : (c :: (t ++ 32 :: X)).takeWhile (fun x => !isPySpace x) = c :: t := by
      rw [show c :: (t ++ 32 :: X) = (c :: t) ++ 32 :: X from rfl]
      rw [takeWhile_append_all _ _ _ hall]
      simp [List.takeWhile_cons, isPySpace]
    have h2 : (t ++ 32 :: X).dropWhile (fun x => !isPySpace x) = 32 :: X := by
      rw [dropWhile_append_all _ _ _ fun d hd => hall d (List.mem_cons_of_mem c hd)]
      simp [List.dropWhile_cons, isPySpace]
    rw [h1, h2, pySplitWs_cons_space 32 X (by simp [isPySpace])]

/-- A single word splits to itself. -/
theorem splitWs_of_word (w : List Nat) (hw : wordOK w) : pySplitWs w = [w] := by
  obtain ⟨hne, hns⟩ := hw
  cases w with
  | nil => exact absurd rfl hne
  | cons c t =>
    have hc : isPySpace c = false := hns c (List.mem_cons_self c t)
    have hall : ∀ d ∈ c :: t, (fun x => !isPySpace x) d = true := by
      intro d hd
      simp [hns d hd]
    rw [pySplitWs_cons_word c t hc]
    have h1 : (c :: t).takeWhile (fun x => !isPySpace x) = c :: t := by
      have := takeWhile_append_all (fun x => !isPySpace x) (c :: t) [] hall
      simpa using this
    have h2 : t.dropWhile (fun x => !isPySpace x) = [] := by
      have := dropWhile_append_all (fun x => !isPySpace x) t []
        fun d hd => hall d (List.mem_cons_of_mem c hd)
      simpa using this
    rw [h1, h2, pySplitWs_nil]

/-- Splitting a join of words followed by a space and arbitrary text. -/
theorem splitWs_join_cons (ws : List (List Nat)) (X : List Nat)
    (h : ∀ w ∈ ws, wordOK w) (hne : ws ≠ []) :
    pySplitWs (joinSpace ws ++ 32 :: X) = ws ++ pySplitWs X := by
  induction ws with
  | nil => exact absurd rfl hne
  | cons w l ih =>
    cases l with
    | nil =>
      rw [joinSpace_single]
      exact splitWs_word_cons w X (h w (List.mem_cons_self w []))
    | cons x r =>
      rw [joinSpace_cons_cons, List.append_assoc, List.cons_append,
        splitWs_word_cons w _ (h w (List.mem_cons_self w _))]
      rw [ih (fun v hv => h v (List.mem_cons_of_mem w hv)) (by simp)]
      rfl

/-- Splitting the join of a word list recovers the word list. -/
theorem splitWs_joinSpace (ws : List (List Nat)) (h : ∀ w ∈ ws, wordOK w) :
    pySplitWs (joinSpace ws) = ws := by
  cases ws with
  | nil => exact pySplitWs_nil
  | cons w l =>
    cases l with
    | nil =>
      rw [joinSpace_single]
      exact splitWs_of_word w (h w (List.mem_cons_self w []))
    | cons x r =>
      rw [joinSpace_cons_cons, splitWs_word_cons w _ (h w (List.mem_cons_self w _)),
        splitWs_joinSpace (x :: r) fun v hv => h v (List.mem_cons_of_mem w hv)]

/-- Every piece of an interspersed list is the separator or an original
element. -/
theorem mem_intersperse {α : Type} (sep : α) (l : List α) (x : α)
    (hx : x ∈ List.intersperse sep l) : x = sep ∨ x ∈ l := by
  induction l with
  | nil => simp [List.intersperse] at hx
  | cons a as ih =>
    cases as with
    | nil =>
      simp [List.intersperse] at hx
      exact Or.inr (by simp [hx])
    | cons b bs =>
      rw [show List.intersperse sep (a :: b :: bs) =
        a :: sep :: List.intersperse sep (b :: bs) by simp [List.intersperse]] at hx
      rcases List.mem_cons.mp hx with hx | hx
      · exact Or.inr (by simp [hx])
      · rcases List.mem_cons.mp hx with hx | hx
        · exact Or.inl hx
        · rcases ih hx with hx | hx
          · exact Or.inl hx
          · exact Or.inr (List.mem_cons_of_mem a hx)

/-- Original elements survive interspersing. -/
theorem mem_intersperse_of_mem {α : Type} (sep : α) (l : List α) (x : α)
    (hx : x ∈ l) : x ∈ List.intersperse sep l := by
  induction l with
  | nil => simp at hx
  | cons a as ih =>
    cases as with
    | nil =>
      simp at hx
      simp [List.intersperse, hx]
    | cons b bs =>
      rw [show List.intersperse sep (a :: b :: bs) =
        a :: sep :: List.intersperse sep (b :: bs) by simp [List.intersperse]]
      rcases List.mem_cons.mp hx with hx | hx
      · exact hx ▸ List.mem_cons_self _ _
      · exact List.mem_cons_of_mem a (List.mem_cons_of_mem sep (ih hx))

/-- A character absent from all words and distinct from the space is
absent from the join. -/
theorem not_mem_joinSpace (ws : List (List Nat)) (d : Nat) (hd : d ≠ 32)
    (h : ∀ w ∈ ws, d ∉ w) : d ∉ joinSpace ws := by
  intro hmem
  unfold joinSpace at hmem
  obtain ⟨piece, hp, hdp⟩ := List.mem_flatten.mp hmem
  rcases mem_intersperse [32] ws piece hp with hp | hp
  · rw [hp] at hdp
    simp at hdp
    exact hd hdp
  · exact h piece hp hdp

/-- A character of any word appears in the join. -/
theorem mem_joinSpace_of_mem (ws : List (List Nat)) (w : List Nat) (d : Nat)
    (hw : w ∈ ws) (hd : d ∈ w) : d ∈ joinSpace ws := by
  unfold joinSpace
  exact List.mem_flatten.mpr ⟨w, mem_intersperse_of_mem [32] ws w hw, hd⟩

/-- Strip of a leading space. -/
theorem pyStrip_cons_space (h : List Nat) : pyStrip (32 :: h) = pyStrip h := by
  unfold pyStrip
  rw [List.dropWhile_cons]
  simp [isPySpace]

/-- The last element of a list is a member. -/
theorem getLast?_mem_self {α : Type} (l : List α) (a : α) (h : l.getLast? = some a) :
    a ∈ l := by
  induction l with
  | nil => simp at h
  | cons c t ih =>
    cases t with
    | nil =>
      simp at h
      simp [h]
    | cons d r =>
      rw [List.getLast?_cons_cons] at h
      exact List.mem_cons_of_mem c (ih h)

/-- Strings with non-space first and last characters are strip-fixed. -/
theorem pyStrip_eq_self (s : List Nat)
    (hhead : ∀ c, s.head? = some c → isPySpace c = false)
    (hlast : ∀ c, s.getLast? = some c → isPySpace c = false) : pyStrip s = s := by
  cases s with
  | nil => rfl
  | cons c t =>
    have h1 : (c :: t).dropWhile isPySpace = c :: t := by
      rw [List.dropWhile_cons, hhead c rfl]
      simp
    unfold pyStrip
    rw [h1]
    have h2 : (c :: t).reverse.dropWhile isPySpace = (c :: t).reverse := by
      cases hr : (c :: t).reverse with
      | nil => simp at hr
      | cons d r =>
        have hd : (c :: t).getLast? = some d := by
          rw [← List.head?_reverse, hr]
          rfl
        rw [List.dropWhile_cons, hlast d hd]
        simp
    rw [h2, List.reverse_reverse]

/-- The last character of a join of words is non-space. -/
theorem joinSpace_getLast_ns (ws : List (List Nat)) (h : ∀ w ∈ ws, wordOK w) :
    ∀ c, (joinSpace ws).getLast? = some c → isPySpace c = false := by
  induction ws with
  | nil => simp [joinSpace]
  | cons w l ih =>
    cases l with
    | nil =>
      rw [joinSpace_single]
      intro c hc
      exact (h w (List.mem_cons_self w [])).2 c (getLast?_mem_self w c hc)
    | cons x r =>
      rw [joinSpace_cons_cons]
      intro c hc
      have hx : wordOK x := h x (by simp)
      have hnn : joinSpace (x :: r) ≠ [] := joinSpace_ne_nil x r hx
      rw [List.getLast?_append] at hc
      have hcons : (32 :: joinSpace (x :: r)).getLast? = (joinSpace (x :: r)).getLast? := by
        rw [show (32 :: joinSpace (x :: r)) = [32] ++ joinSpace (x :: r) from rfl,
          List.getLast?_append]
        cases hj : joinSpace (x :: r) with
        | nil => exact absurd hj hnn
        | cons a b => simp [List.getLast?]
      rw [hcons] at hc
      cases hj : (joinSpace (x :: r)).getLast? with
      | none =>
        exfalso
        apply hnn
        cases hje : joinSpace (x :: r) with
        | nil => rfl
        | cons a b =>
          rw [hje] at hj
          rcases List.getLast?_eq_none_iff.mp hj with h
          simp at h
      | some d =>
        rw [hj] at hc
        simp at hc
        rw [← hc]
        exact ih (fun v hv => h v (List.mem_cons_of_mem w hv)) d hj

/-- A join of proper words is strip-fixed. -/
theorem pyStrip_joinSpace (ws : List (List Nat)) (h : ∀ w ∈ ws, wordOK w) :
    pyStrip (joinSpace ws) = joinSpace ws := by
  apply pyStrip_eq_self
  · intro c hc
    cases ws with
    | nil => simp [joinSpace] at hc
    | cons w l =>
      obtain ⟨hne, hns⟩ := h w (List.mem_cons_self w l)
      cases w with
      | nil => exact absurd rfl hne
      | cons a t =>
        have : ∃ r, joinSpace ((a :: t) :: l) = a :: r := by
          cases l with
          | nil => exact ⟨t, joinSpace_single _⟩
          | cons x rl => exact ⟨t ++ 32 :: joinSpace (x :: rl), joinSpace_cons_cons _ _ _⟩
        obtain ⟨r, hr⟩ := this
        rw [hr] at hc
        simp at hc
        rw [← hc]
        exact hns a (List.mem_cons_self a t)
  · exact joinSpace_getLast_ns ws h

/-- Joining an append of two non-empty word lists. -/
theorem joinSpace_append (l₁ l₂ : List (List Nat)) (h₁ : l₁ ≠ []) (h₂ : l₂ ≠ []) :
    joinSpace (l₁ ++ l₂) = joinSpace l₁ ++ 32 :: joinSpace l₂ := by
  induction l₁ with
  | nil => exact absurd rfl h₁
  | cons w l ih =>
    cases l with
    | nil =>
      cases l₂ with
      | nil => exact absurd rfl h₂
      | cons x r =>
        rw [List.cons_append, List.nil_append, joinSpace_cons_cons, joinSpace_single]
    | cons v rl =>
      rw [List.cons_append, joinSpace_cons_cons w v rl,
        show (v :: rl) ++ l₂ = v :: (rl ++ l₂) from rfl]
      rw [show joinSpace (w :: v :: (rl ++ l₂)) =
        w ++ 32 :: joinSpace (v :: (rl ++ l₂)) from joinSpace_cons_cons _ _ _]
      rw [show (v :: rl) ++ l₂ = v :: (rl ++ l₂) from rfl] at ih
      rw [ih (by simp), List.append_assoc]
      rfl

/-- Name suffixes kept uppercase by `_cleanAndFormatPersonName`. -/
def personNameSuffixes : List (List Nat) :=
  [codes "II", codes "III", codes "IV", codes "JR", codes "SR"]

/-- Per-word formatting of `_cleanAndFormatPersonName`: recognized suffixes
and words containing a dot are uppercased, the rest capitalized. -/
def formatPersonWord (w : List Nat) : List Nat :=
  if pyUpper w ∈ personNameSuffixes then pyUpper w
  else if 46 ∈ w then pyUpper w
  else pyCapitalize w

/-- `_cleanAndFormatPersonName`. -/
def cleanAndFormatPersonName (name : List Nat) : List Nat :=
  let cleaned := joinSpace (pySplitWs (pyStrip name))
  joinSpace ((pySplitWs cleaned).map formatPersonWord)

/-- Formatting of one comma-part of `_cleanAndFormatLocationName`. -/
def formatLocationPart (part : List Nat) : List Nat :=
  joinSpace ((pySplitWs part).map pyCapitalize)

/-- Python `', '.join(parts)`. -/
def joinCommaSpace (ps : List (List Nat)) : List Nat := (ps.intersperse [44, 32]).flatten

/-- `_cleanAndFormatLocationName`. -/
def cleanAndFormatLocationName (location : List Nat) : List Nat :=
  let cleaned := joinSpace (pySplitWs (pyStrip location))
  if 44 ∈ cleaned then
    joinCommaSpace (((splitComma cleaned).map pyStrip).map formatLocationPart)
  else
    joinSpace ((pySplitWs cleaned).map pyCapitalize)

/-- Connector words kept lowercase by `_cleanAndFormatEventName`. -/
def eventLowercaseWords : List (List Nat) :=
  [codes "and", codes "or", codes "of", codes "the", codes "in", codes "on",
    codes "at", codes "for", codes "with", codes "by"]

/-- The indexed word loop of `_cleanAndFormatEventName`. -/
def formatEventWords (i : Nat) : List (List Nat) → List (List Nat)
  | [] => []
  | w :: ws =>
    (if pyLower w ∈ eventLowercaseWords ∧ i > 0 then pyLower w else pyCapitalize w) ::
      formatEventWords (i + 1) ws

/-- `_cleanAndFormatEventName`. -/
def cleanAndFormatEventName (eventName : List Nat) : List Nat :=
  let cleaned := joinSpace (pySplitWs (pyStrip eventName))
  joinSpace (formatEventWords 0 (pySplitWs cleaned))

/-- The person-word formatter preserves wordhood. -/
theorem formatPersonWord_wordOK (w : List Nat) (h : wordOK w) :
    wordOK (formatPersonWord w) := by
  unfold formatPersonWord
  split_ifs
  · exact wordOK_pyUpper w h
  · exact wordOK_pyUpper w h
  · exact wordOK_pyCapitalize w h

/-- The person-word formatter is idempotent. -/
theorem formatPersonWord_idem (w : List Nat) :
    formatPersonWord (formatPersonWord w) = formatPersonWord w := by
  by_cases h1 : pyUpper w ∈ personNameSuffixes
  · rw [show formatPersonWord w = pyUpper w from by
      unfold formatPersonWord; rw [if_pos h1]]
    unfold formatPersonWord
    rw [if_pos (by rw [pyUpper_idem]; exact h1), pyUpper_idem]
  · by_cases h2 : 46 ∈ w
    · rw [show formatPersonWord w = pyUpper w from by
        unfold formatPersonWord; rw [if_neg h1, if_pos h2]]
      unfold formatPersonWord
      rw [if_neg (by rw [pyUpper_idem]; exact h1),
        if_pos ((mem_pyUpper_low w 46 (by omega)).mpr h2), pyUpper_idem]
    · rw [show formatPersonWord w = pyCapitalize w from by
        unfold formatPersonWord; rw [if_neg h1, if_neg h2]]
      unfold formatPersonWord
      rw [if_neg (by rw [pyUpper_pyCapitalize]; exact h1),
        if_neg (fun hmem => h2 ((mem_pyCapitalize_low w 46 (by omega)).mp hmem))]
      exact pyCapitalize_idem w

/-- Normal form of the person formatter. -/
theorem cleanAndFormatPersonName_eq (x : List Nat) :
    cleanAndFormatPersonName x = joinSpace ((pySplitWs x).map formatPersonWord) := by
  unfold cleanAndFormatPersonName
  dsimp only
  rw [splitWs_pyStrip, splitWs_joinSpace _ (splitWs_wordOK x)]

/-- Idempotence of the person formatter. -/
theorem cleanAndFormatPersonName_idem (x : List Nat) :
    cleanAndFormatPersonName (cleanAndFormatPersonName x) = cleanAndFormatPersonName x := by
  rw [cleanAndFormatPersonName_eq x, cleanAndFormatPersonName_eq]
  have hok : ∀ w ∈ (pySplitWs x).map formatPersonWord, wordOK w := by
    intro w hw
    obtain ⟨v, hv, he⟩ := List.mem_map.mp hw
    rw [← he]
    exact formatPersonWord_wordOK v (splitWs_wordOK x v hv)
  rw [splitWs_joinSpace _ hok, List.map_map]
  congr 1
  exact List.map_congr_left fun w _ => formatPersonWord_idem w

/-- The indexed event-word loop preserves wordhood. -/
theorem formatEventWords_wordOK (ws : List (List Nat)) (i : Nat)
    (h : ∀ w ∈ ws, wordOK w) : ∀ v ∈ formatEventWords i ws, wordOK v := by
  induction ws generalizing i with
  | nil => simp [formatEventWords]
  | cons w ws ih =>
    unfold formatEventWords
    intro v hv
    rcases List.mem_cons.mp hv with hv | hv
    · rw [hv]
      split_ifs
      · exact wordOK_pyLower w (h w (List.mem_cons_self w ws))
      · exact wordOK_pyCapitalize w (h w (List.mem_cons_self w ws))
    · exact ih (i + 1) (fun u hu => h u (List.mem_cons_of_mem w hu)) v hv

/-- Unfolding equation of the indexed event-word loop. -/
theorem formatEventWords_cons (i : Nat) (w : List Nat) (ws : List (List Nat)) :
    formatEventWords i (w :: ws) =
      (if pyLower w ∈ eventLowercaseWords ∧ i > 0 then pyLower w else pyCapitalize w) ::
        formatEventWords (i + 1) ws := rfl

/-- The indexed event-word loop is idempotent. -/
theorem formatEventWords_idem (ws : List (List Nat)) (i : Nat) :
    formatEventWords i (formatEventWords i ws) = formatEventWords i ws := by
  induction ws generalizing i with
  | nil => rfl
  | cons w ws ih =>
    by_cases hc : pyLower w ∈ eventLowercaseWords ∧ i > 0
    · rw [formatEventWords_cons, if_pos hc, formatEventWords_cons]
      rw [if_pos (show pyLower (pyLower w) ∈ eventLowercaseWords ∧ i > 0 by
        rw [pyLower_idem]; exact hc)]
      rw [pyLower_idem, ih (i + 1)]
    · rw [formatEventWords_cons, if_neg hc, formatEventWords_cons]
      rw [if_neg (show ¬ (pyLower (pyCapitalize w) ∈ eventLowercaseWords ∧ i > 0) by
        rw [pyLower_pyCapitalize]; exact hc)]
      rw [pyCapitalize_idem, ih (i + 1)]

/-- Normal form of the event formatter. -/
theorem cleanAndFormatEventName_eq (x : List Nat) :
    cleanAndFormatEventName x = joinSpace (formatEventWords 0 (pySplitWs x)) := by
  unfold cleanAndFormatEventName
  dsimp only
  rw [splitWs_pyStrip, splitWs_joinSpace _ (splitWs_wordOK x)]

/-- Idempotence of the event formatter. -/
theorem cleanAndFormatEventName_idem (x : List Nat) :
    cleanAndFormatEventName (cleanAndFormatEventName x) = cleanAndFormatEventName x := by
  rw [cleanAndFormatEventName_eq x, cleanAndFormatEventName_eq]
  rw [splitWs_joinSpace _ (formatEventWords_wordOK (pySplitWs x) 0 (splitWs_wordOK x))]
  rw [formatEventWords_idem]

/-- Comma splitting always yields at least one piece. -/
theorem splitComma_ne_nil (s : List Nat) : splitComma s ≠ [] := by
  induction s with
  | nil => simp [splitComma]
  | cons c t ih =>
    unfold splitComma
    split_ifs
    · simp
    · cases h : splitComma t with
      | nil => simp
      | cons w ws => simp

/-- Comma-split pieces contain no comma. -/
theorem splitComma_no_comma (s : List Nat) : ∀ p ∈ splitComma s, 44 ∉ p := by
  induction s with
  | nil =>
    intro p hp
    simp [splitComma] at hp
    simp [hp]
  | cons c t ih =>
    unfold splitComma
    split_ifs with hc
    · intro p hp
      rcases List.mem_cons.mp hp with hp | hp
      · simp [hp]
      · exact ih p hp
    · cases h : splitComma t with
      | nil => exact absurd h (splitComma_ne_nil t)
      | cons w ws =>
        intro p hp
        rcases List.mem_cons.mp hp with hp | hp
        · rw [hp]
          intro hmem
          rcases List.mem_cons.mp hmem with hmem | hmem
          · exact hc hmem.symm
          · exact ih w (h ▸ List.mem_cons_self w ws) hmem
        · exact ih p (h ▸ List.mem_cons_of_mem w hp)

/-- Unfolding equation of `splitComma`. -/
theorem splitComma_cons (c : Nat) (t : List Nat) :
    splitComma (c :: t) =
      if c = 44 then [] :: splitComma t
      else
        match splitComma t with
        | [] => [[c]]
        | w :: ws => (c :: w) :: ws := rfl

/-- A comma-free string splits to itself alone. -/
theorem splitComma_eq_single (s : List Nat) (h : 44 ∉ s) : splitComma s = [s] := by
  induction s with
  | nil => rfl
  | cons c t ih =>
    have hcne : ¬ (c = 44) := by
      intro he
      exact h (by rw [he]; exact List.mem_cons_self 44 t)
    rw [splitComma_cons, if_neg hcne, ih fun hm => h (List.mem_cons_of_mem c hm)]

/-- Splitting at the first comma. -/
theorem splitComma_append (a b : List Nat) (ha : 44 ∉ a) :
    splitComma (a ++ 44 :: b) = a :: splitComma b := by
  induction a with
  | nil =>
    rw [List.nil_append, splitComma_cons, if_pos rfl]
  | cons c t ih =>
    have hcne : ¬ (c = 44) := by
      intro he
      exact ha (by rw [he]; exact List.mem_cons_self 44 t)
    rw [List.cons_append, splitComma_cons, if_neg hcne,
      ih fun hm => ha (List.mem_cons_of_mem c hm)]

/-- A string containing a comma splits to at least two pieces. -/
theorem splitComma_two_pieces (s : List Nat) (h : 44 ∈ s) :
    ∃ p q rest, splitComma s = p :: q :: rest := by
  induction s with
  | nil => simp at h
  | cons c t ih =>
    unfold splitComma
    split_ifs with hc
    · cases he : splitComma t with
      | nil => exact absurd he (splitComma_ne_nil t)
      | cons w ws => exact ⟨[], w, ws, rfl⟩
    · have ht : 44 ∈ t := by
        rcases List.mem_cons.mp h with h | h
        · exact absurd h.symm hc
        · exact h
      obtain ⟨p, q, rest, he⟩ := ih ht
      rw [he]
      exact ⟨c :: p, q, rest, rfl⟩

/-- Characters of a stripped string come from the original. -/
theorem mem_pyStrip (s : List Nat) (c : Nat) (h : c ∈ pyStrip s) : c ∈ s := by
  unfold pyStrip at h
  rw [List.mem_reverse] at h
  have h1 := (List.dropWhile_sublist (l := (s.dropWhile isPySpace).reverse)
    (p := isPySpace)).mem h
  rw [List.mem_reverse] at h1
  exact (List.dropWhile_sublist (p := isPySpace)).mem h1

/-- Append a comma to the last word of a part (the word shape produced
when a part is followed by a `', '` separator). -/
def commaLast : List (List Nat) → List (List Nat)
  | [] => [[44]]
  | [w] => [w ++ [44]]
  | w :: x :: ws => w :: commaLast (x :: ws)

/-- The word list obtained by whitespace-splitting a `', '`-joined list of
single-spaced parts. -/
def partsToWords : List (List (List Nat)) → List (List Nat)
  | [] => []
  | [ws] => ws
  | ws :: x :: rest => commaLast ws ++ partsToWords (x :: rest)

/-- A part with its comma appended is never empty. -/
theorem commaLast_ne_nil (ws : List (List Nat)) : commaLast ws ≠ [] := by
  match ws with
  | [] => simp [commaLast]
  | [w] => simp [commaLast]
  | w :: x :: r => simp [commaLast]

/-- Comma-appending preserves wordhood. -/
theorem commaLast_wordOK (ws : List (List Nat)) (h : ∀ w ∈ ws, wordOK w) :
    ∀ v ∈ commaLast ws, wordOK v := by
  match ws with
  | [] =>
    intro v hv
    simp [commaLast] at hv
    rw [hv]
    exact ⟨by simp, by intro c hc; simp at hc; simp [hc, isPySpace]⟩
  | [w] =>
    intro v hv
    simp [commaLast] at hv
    rw [hv]
    obtain ⟨h1, h2⟩ := h w (by simp)
    refine ⟨by simp [h1], ?_⟩
    intro c hc
    rcases List.mem_append.mp hc with hc | hc
    · exact h2 c hc
    · simp at hc
      simp [hc, isPySpace]
  | w :: x :: r =>
    intro v hv
    rw [show commaLast (w :: x :: r) = w :: commaLast (x :: r) from rfl] at hv
    rcases List.mem_cons.mp hv with hv | hv
    · exact hv ▸ h w (List.mem_cons_self _ _)
    · exact commaLast_wordOK (x :: r) (fun u hu => h u (List.mem_cons_of_mem w hu)) v hv

/-- Some comma-appended word contains the comma. -/
theorem commaLast_has_comma (ws : List (List Nat)) : ∃ v ∈ commaLast ws, 44 ∈ v := by
  match ws with
  | [] => exact ⟨[44], by simp [commaLast]⟩
  | [w] => exact ⟨w ++ [44], by simp [commaLast]⟩
  | w :: x :: r =>
    obtain ⟨v, hv, hc⟩ := commaLast_has_comma (x :: r)
    refine ⟨v, ?_, hc⟩
    rw [show commaLast (w :: x :: r) = w :: commaLast (x :: r) from rfl]
    exact List.mem_cons_of_mem w hv

/-- Joining a comma-appended part appends the comma to the joined part. -/
theorem joinSpace_commaLast (ws : List (List Nat)) :
    joinSpace (commaLast ws) = joinSpace ws ++ [44] := by
  match ws with
  | [] => simp [commaLast, joinSpace, List.intersperse]
  | [w] =>
    rw [show commaLast [w] = [w ++ [44]] from rfl, joinSpace_single, joinSpace_single]
  | w :: x :: r =>
    rw [show commaLast (w :: x :: r) = w :: commaLast (x :: r) from rfl]
    cases hcl : commaLast (x :: r) with
    | nil => exact absurd hcl (commaLast_ne_nil (x :: r))
    | cons v vs =>
      rw [joinSpace_cons_cons, ← hcl, joinSpace_commaLast (x :: r), joinSpace_cons_cons]
      simp

/-- A part in canonical form: all its words proper and comma-free. -/
def partOK (ws : List (List Nat)) : Prop := ∀ w ∈ ws, wordOK w ∧ 44 ∉ w

/-- Joining two or more comma-separated parts. -/
theorem joinCommaSpace_cons_cons (p q : List Nat) (l : List (List Nat)) :
    joinCommaSpace (p :: q :: l) = p ++ 44 :: 32 :: joinCommaSpace (q :: l) := by
  simp [joinCommaSpace, List.intersperse]

/-- Joining a single part. -/
theorem joinCommaSpace_single (p : List Nat) : joinCommaSpace [p] = p := by
  simp [joinCommaSpace, List.intersperse]

/-- Whitespace-splitting a `', '`-joined list of canonical parts yields
the comma-merged word list. -/
theorem splitWs_joinCommaSpace (wss : List (List (List Nat)))
    (h : ∀ ws ∈ wss, partOK ws) (hne : wss ≠ []) :
    pySplitWs (joinCommaSpace (wss.map joinSpace)) = partsToWords wss := by
  match wss with
  | [] => exact absurd rfl hne
  | [ws] =>
    rw [List.map_singleton, joinCommaSpace_single]
    exact splitWs_joinSpace ws fun w hw => ((h ws (by simp)) w hw).1
  | ws :: x :: rest =>
    have hws : partOK ws := h ws (List.mem_cons_self _ _)
    rw [List.map_cons, List.map_cons, joinCommaSpace_cons_cons, ← List.map_cons joinSpace]
    have hstep : joinSpace ws ++ 44 :: 32 :: joinCommaSpace ((x :: rest).map joinSpace) =
        joinSpace (commaLast ws) ++ 32 :: joinCommaSpace ((x :: rest).map joinSpace) := by
      rw [joinSpace_commaLast]
      simp
    rw [hstep, splitWs_join_cons (commaLast ws) _
      (commaLast_wordOK ws fun w hw => (hws w hw).1) (commaLast_ne_nil ws)]
    rw [splitWs_joinCommaSpace (x :: rest) (fun u hu => h u (List.mem_cons_of_mem ws hu))
      (by simp)]
    rfl

/-- Comma-splitting the space-normalised join of comma-merged words and
stripping each piece recovers the joined parts. -/
theorem splitComma_joinSpace_partsToWords (wss : List (List (List Nat)))
    (h : ∀ ws ∈ wss, partOK ws) (hne : wss ≠ []) :
    (splitComma (joinSpace (partsToWords wss))).map pyStrip = wss.map joinSpace := by
  match wss with
  | [] => exact absurd rfl hne
  | [ws] =>
    have hws : partOK ws := h ws (by simp)
    have hfree : 44 ∉ joinSpace ws :=
      not_mem_joinSpace ws 44 (by omega) fun w hw => (hws w hw).2
    rw [show partsToWords [ws] = ws from rfl, splitComma_eq_single _ hfree]
    rw [List.map_singleton, List.map_singleton,
      pyStrip_joinSpace ws fun w hw => (hws w hw).1]
  | ws :: x :: rest =>
    have hws : partOK ws := h ws (List.mem_cons_self _ _)
    have hfree : 44 ∉ joinSpace ws :=
      not_mem_joinSpace ws 44 (by omega) fun w hw => (hws w hw).2
    have hfix : pyStrip (joinSpace ws) = joinSpace ws :=
      pyStrip_joinSpace ws fun w hw => (hws w hw).1
    rw [show partsToWords (ws :: x :: rest) = commaLast ws ++ partsToWords (x :: rest)
      from rfl]
    by_cases hP : partsToWords (x :: rest) = []
    · -- only possible when the tail is the single empty part
      have hrest : rest = [] ∧ x = [] := by
        cases rest with
        | nil => exact ⟨rfl, hP⟩
        | cons y ys =>
          rw [show partsToWords (x :: y :: ys) = commaLast x ++ partsToWords (y :: ys)
            from rfl] at hP
          rcases List.append_eq_nil.mp hP with ⟨h1, _⟩
          exact absurd h1 (commaLast_ne_nil x)
      obtain ⟨hr, hx⟩ := hrest
      rw [hr, hx]
      rw [show partsToWords [([] : List (List Nat))] = ([] : List (List Nat)) from rfl]
      rw [List.append_nil, joinSpace_commaLast]
      rw [splitComma_append _ [] hfree]
      rw [List.map_cons, hfix]
      rfl
    · have hJP : joinSpace (commaLast ws ++ partsToWords (x :: rest)) =
          joinSpace ws ++ 44 :: 32 :: joinSpace (partsToWords (x :: rest)) := by
        rw [joinSpace_append _ _ (commaLast_ne_nil ws) hP, joinSpace_commaLast]
        simp
      rw [hJP, splitComma_append _ _ hfree]
      cases hsc : splitComma (joinSpace (partsToWords (x :: rest))) with
      | nil => exact absurd hsc (splitComma_ne_nil _)
      | cons hd tl =>
        have h32 : splitComma (32 :: joinSpace (partsToWords (x :: rest))) =
            (32 :: hd) :: tl := by
          rw [splitComma_cons, if_neg (by omega), hsc]
        rw [h32, List.map_cons, List.map_cons, hfix, pyStrip_cons_space]
        have hih := splitComma_joinSpace_partsToWords (x :: rest)
          (fun u hu => h u (List.mem_cons_of_mem ws hu)) (by simp)
        rw [hsc, List.map_cons] at hih
        rw [List.map_cons, hih]

/-- Normal form of the location formatter. -/
theorem cleanAndFormatLocationName_eq (y : List Nat) :
    cleanAndFormatLocationName y =
      if 44 ∈ joinSpace (pySplitWs y) then
        joinCommaSpace
          (((splitComma (joinSpace (pySplitWs y))).map pyStrip).map formatLocationPart)
      else joinSpace ((pySplitWs y).map pyCapitalize) := by
  unfold cleanAndFormatLocationName
  dsimp only
  rw [splitWs_pyStrip, splitWs_joinSpace _ (splitWs_wordOK y)]

/-- Idempotence of the location formatter. -/
theorem cleanAndFormatLocationName_idem (x : List Nat) :
    cleanAndFormatLocationName (cleanAndFormatLocationName x) =
      cleanAndFormatLocationName x := by
  by_cases hc : 44 ∈ joinSpace (pySplitWs x)
  · -- comma branch
    set cleaned := joinSpace (pySplitWs x) with hcl
    set wss := ((splitComma cleaned).map pyStrip).map
      (fun p => (pySplitWs p).map pyCapitalize) with hwss
    have hF1 : ((splitComma cleaned).map pyStrip).map formatLocationPart =
        wss.map joinSpace := by
      rw [hwss]
      conv_rhs => rw [List.map_map]
      rfl
    have hF2 : ∀ ws ∈ wss, partOK ws := by
      intro ws hws
      rw [hwss] at hws
      obtain ⟨p, hp, hpe⟩ := List.mem_map.mp hws
      obtain ⟨q, hq, hqe⟩ := List.mem_map.mp hp
      intro w hw
      rw [← hpe] at hw
      obtain ⟨u, hu, hue⟩ := List.mem_map.mp hw
      have huOK : wordOK u := splitWs_wordOK p u hu
      constructor
      · rw [← hue]
        exact wordOK_pyCapitalize u huOK
      · rw [← hue]
        intro hmem
        have h44u : 44 ∈ u := (mem_pyCapitalize_low u 44 (by omega)).mp hmem
        have h44p : 44 ∈ p := splitWs_chars p u hu 44 h44u
        rw [← hqe] at h44p
        exact splitComma_no_comma cleaned q hq (mem_pyStrip q 44 h44p)
    have hF3 : wss ≠ [] := by
      rw [hwss]
      simp only [ne_eq, List.map_eq_nil_iff]
      exact splitComma_ne_nil cleaned
    obtain ⟨p0, q0, rest0, hpieces⟩ := splitComma_two_pieces cleaned hc
    have hF4 : ∃ a b r, wss = a :: b :: r := by
      rw [hwss, hpieces]
      exact ⟨_, _, _, rfl⟩
    have hFx : cleanAndFormatLocationName x = joinCommaSpace (wss.map joinSpace) := by
      rw [cleanAndFormatLocationName_eq, if_pos hc, ← hcl, hF1]
    have hF5 : pySplitWs (cleanAndFormatLocationName x) = partsToWords wss := by
      rw [hFx]
      exact splitWs_joinCommaSpace wss hF2 hF3
    have hF7 : 44 ∈ joinSpace (pySplitWs (cleanAndFormatLocationName x)) := by
      rw [hF5]
      obtain ⟨a, b, r, he⟩ := hF4
      obtain ⟨v, hv, h44⟩ := commaLast_has_comma a
      rw [he, show partsToWords (a :: b :: r) = commaLast a ++ partsToWords (b :: r)
        from rfl]
      exact mem_joinSpace_of_mem _ v 44 (List.mem_append.mpr (Or.inl hv)) h44
    have hcapStable : ∀ ws ∈ wss, ws.map pyCapitalize = ws := by
      intro ws hws
      rw [hwss] at hws
      obtain ⟨p, _, hpe⟩ := List.mem_map.mp hws
      rw [← hpe, List.map_map]
      exact List.map_congr_left fun u _ => pyCapitalize_idem u
    have hF9 : (wss.map joinSpace).map formatLocationPart = wss.map joinSpace := by
      rw [List.map_map]
      apply List.map_congr_left
      intro ws hws
      show formatLocationPart (joinSpace ws) = joinSpace ws
      unfold formatLocationPart
      rw [splitWs_joinSpace ws fun w hw => (hF2 ws hws w hw).1, hcapStable ws hws]
    rw [cleanAndFormatLocationName_eq (cleanAndFormatLocationName x), if_pos hF7]
    rw [hF5, show joinSpace (partsToWords wss) =
      joinSpace (pySplitWs (cleanAndFormatLocationName x)) by rw [hF5]]
    rw [hF5]
    rw [splitComma_joinSpace_partsToWords wss hF2 hF3, hF9, ← hFx]
  · -- comma-free branch
    have hFx : cleanAndFormatLocationName x = joinSpace ((pySplitWs x).map pyCapitalize) := by
      rw [cleanAndFormatLocationName_eq, if_neg hc]
    have hok : ∀ w ∈ (pySplitWs x).map pyCapitalize, wordOK w := by
      intro w hw
      obtain ⟨u, hu, hue⟩ := List.mem_map.mp hw
      rw [← hue]
      exact wordOK_pyCapitalize u (splitWs_wordOK x u hu)
    have hsplit : pySplitWs (cleanAndFormatLocationName x) = (pySplitWs x).map pyCapitalize := by
      rw [hFx]
      exact splitWs_joinSpace _ hok
    have hnc : 44 ∉ joinSpace (pySplitWs (cleanAndFormatLocationName x)) := by
      rw [hsplit]
      apply not_mem_joinSpace _ 44 (by omega)
      intro w hw hmem
      obtain ⟨u, hu, hue⟩ := List.mem_map.mp hw
      rw [← hue] at hmem
      exact hc (mem_joinSpace_of_mem _ u 44 hu
        ((mem_pyCapitalize_low u 44 (by omega)).mp hmem))
    rw [cleanAndFormatLocationName_eq (cleanAndFormatLocationName x), if_neg hnc]
    rw [hsplit, List.map_map]
    rw [show (pySplitWs x).map (pyCapitalize ∘ pyCapitalize) = (pySplitWs x).map pyCapitalize
      from List.map_congr_left fun u _ => pyCapitalize_idem u]
    exact hFx.symm

/-- Case-insensitive prefix test against a lowercase pattern. -/
def ciPrefixEq (pat s : List Nat) : Bool :=
  decide (pyLower (s.take pat.length) = pat)

/-- The alternatives of the date-cleaning regex
`^\s*(?:on|date|scheduled for)\s+`, in alternation order. -/
def datePrefixAlts : List (List Nat) := [codes "on", codes "date", codes "scheduled for"]

/-- Removal of the single leading prefix matched by
`re.sub(r'^\s*(?:on|date|scheduled for)\s+', '', date, flags=re.IGNORECASE)`:
the anchored pattern can match at most once, at position 0. -/
def stripLeadDatePre (date : List Nat) : List Nat :=
  let rest := date.dropWhile isPySpace
  match datePrefixAlts.find? (fun alt =>
    ciPrefixEq alt rest &&
      match rest.drop alt.length with
      | c :: _ => isPySpace c
      | [] => false) with
  | some alt => (rest.drop alt.length).dropWhile isPySpace
  | none => date

/-- Python `\w` on ASCII: letters, digits, underscore. -/
def isWordChar (c : Nat) : Bool :=
  decide ((48 ≤ c ∧ c ≤ 57) ∨ (65 ≤ c ∧ c ≤ 90) ∨ (97 ≤ c ∧ c ≤ 122) ∨ c = 95)

/-- One month replacement `re.sub(r'\b' + abbrev + r'\b', fullMonth, s,
flags=re.IGNORECASE)`: scan left to right, replace every word-bounded
case-insensitive occurrence, and continue after the match. -/
def replaceWordCIGo (pat rep : List Nat) : Nat → Option Nat → List Nat → List Nat
  | 0, _, _ => []
  | _, _, [] => []
  | fuel + 1, prev, c :: t =>
    if (!pat.isEmpty && ciPrefixEq pat (c :: t) &&
        (match prev with | some p => !isWordChar p | none => true) &&
        (match (c :: t).drop pat.length with | d :: _ => !isWordChar d | [] => true)) = true
    then
      rep ++ replaceWordCIGo pat rep fuel ((c :: t).take pat.length).getLast?
        ((c :: t).drop pat.length)
    else c :: replaceWordCIGo pat rep fuel (some c) t

def replaceWordCI (pat rep : List Nat) (prev : Option Nat) (s : List Nat) : List Nat :=
  replaceWordCIGo pat rep s.length prev s

/-- The month-name replacement table of `_cleanAndFormatDate`, in
dict-insertion order. -/
def dateMonthTable : List (List Nat × List Nat) :=
  [(codes "january", codes "January"), (codes "jan", codes "January"),
   (codes "february", codes "February"), (codes "feb", codes "February"),
   (codes "march", codes "March"), (codes "mar", codes "March"),
   (codes "april", codes "April"), (codes "apr", codes "April"),
   (codes "may", codes "May"),
   (codes "june", codes "June"), (codes "jun", codes "June"),
   (codes "july", codes "July"), (codes "jul", codes "July"),
   (codes "august", codes "August"), (codes "aug", codes "August"),
   (codes "september", codes "September"), (codes "sep", codes "September"),
   (codes "october", codes "October"), (codes "oct", codes "October"),
   (codes "november", codes "November"), (codes "nov", codes "November"),
   (codes "december", codes "December"), (codes "dec", codes "December")]

/-- `_cleanAndFormatDate`: strip one leading prefix, strip whitespace,
then expand month names via the fixed table. -/
def cleanAndFormatDate (date : List Nat) : List Nat :=
  let cleaned := pyStrip (stripLeadDatePre date)
  dateMonthTable.foldl (fun s p => replaceWordCI p.1 p.2 none s) cleaned

/-! ### A small backtracking regular-expression engine

The `re.finditer` / `re.search` calls of the extractor are modelled by an
explicit backtracking matcher over character-code lists.  Results are
produced in backtracking preference order, so the head of the result list
is the match Python's engine returns.  The matcher carries fuel so that it
is structurally recursive and kernel-evaluable; the entry points choose a
fuel large enough for the call depth, which is bounded by the pattern size
plus one per character consumed by a star iteration. -/

/-- Regular-expression syntax: character classes, sequencing, ordered
alternation, greedy or lazy Kleene star, capture groups, the word
boundary, and the two anchors. -/
inductive RE where
  | eps
  | cls (p : Nat → Bool)
  | seq (a b : RE)
  | alt (a b : RE)
  | star (greedy : Bool) (r : RE)
  | grp (i : Nat) (r : RE)
  | wb
  | bos
  | eos

/-- Matcher state: absolute position, previous character (for the word
boundary), and remaining input. -/
structure MSt where
  pos : Nat
  prev : Option Nat
  rest : List Nat
deriving DecidableEq, Repr

/-- Capture list: `(group index, start, end)` in closing order. -/
abbrev Caps := List (Nat × Nat × Nat)

/-- Whether an optional character is a word character (`\b` test at the
edges of the input). -/
def isWordOpt : Option Nat → Bool
  | some c => isWordChar c
  | none => false

/-- The backtracking matcher: all ways to match `re` at the given state,
in preference order.  Fuel decreases at every recursive call; a star only
iterates on alternatives that consumed at least one character. -/
def mmatch : Nat → RE → MSt → Caps → List (MSt × Caps)
  | 0, _, _, _ => []
  | fuel + 1, re, st, cps =>
    match re with
    | .eps => [(st, cps)]
    | .cls p =>
      match st.rest with
      | [] => []
      | c :: t => if p c then [(⟨st.pos + 1, some c, t⟩, cps)] else []
    | .seq a b => (mmatch fuel a st cps).flatMap fun r => mmatch fuel b r.1 r.2
    | .alt a b => mmatch fuel a st cps ++ mmatch fuel b st cps
    | .star g r =>
      let next := (mmatch fuel r st cps).filter fun x => st.pos < x.1.pos
      let conts := next.flatMap fun x => mmatch fuel (.star g r) x.1 x.2
      if g then conts ++ [(st, cps)] else (st, cps) :: conts
    | .grp i r =>
      (mmatch fuel r st cps).map fun x => (x.1, x.2 ++ [(i, st.pos, x.1.pos)])
    | .wb => if isWordOpt st.prev != isWordOpt st.rest.head? then [(st, cps)] else []
    | .bos => if st.pos = 0 then [(st, cps)] else []
    | .eos => if st.rest.isEmpty then [(st, cps)] else []

/-- Size of a pattern, used to choose sufficient fuel. -/
def reSize : RE → Nat
  | .eps => 1
  | .cls _ => 1
  | .seq a b => reSize a + reSize b + 1
  | .alt a b => reSize a + reSize b + 1
  | .star _ r => reSize r + 1
  | .grp _ r => reSize r + 1
  | .wb => 1
  | .bos => 1
  | .eos => 1

/-- Fuel for one match attempt: ample for a call depth bounded by the
pattern size plus the number of characters a chain of stars can consume. -/
def matchFuel (re : RE) (len : Nat) : Nat := (reSize re + 1) * (len + 2)

/-- All matches of `re` at a state, Python preference order, fresh
captures. -/
def reMatches (re : RE) (st : MSt) : List (MSt × Caps) :=
  mmatch (matchFuel re st.rest.length) re st []

/-- `re.finditer` scan: at each position try a match; on success emit
`(start, end, captures)` and continue at the match end (one character
further for an empty match), otherwise slide one character. -/
def finditerGo (re : RE) : Nat → MSt → List (Nat × Nat × Caps)
  | 0, _ => []
  | fuel + 1, st =>
    match (reMatches re st).head? with
    | some (st2, cps) =>
      if st.pos < st2.pos then (st.pos, st2.pos, cps) :: finditerGo re fuel st2
      else
        match st.rest with
        | [] => [(st.pos, st2.pos, cps)]
        | c :: t =>
          (st.pos, st2.pos, cps) :: finditerGo re fuel ⟨st.pos + 1, some c, t⟩
    | none =>
      match st.rest with
      | [] => []
      | c :: t => finditerGo re fuel ⟨st.pos + 1, some c, t⟩

/-- `re.finditer(pattern, s)` as a list of `(start, end, captures)`. -/
def finditer (re : RE) (s : List Nat) : List (Nat × Nat × Caps) :=
  finditerGo re (s.length + 1) ⟨0, none, s⟩

/-- `re.search(pattern, s)`: the first match of the scan. -/
def reSearch (re : RE) (s : List Nat) : Option (Nat × Nat × Caps) :=
  (finditer re s).head?

/-- Python `match.group(i)` lookup: the last closed capture of group `i`. -/
def capLookup (i : Nat) (cps : Caps) : Option (Nat × Nat) :=
  match cps.reverse.find? (fun x => x.1 == i) with
  | some x => some x.2
  | none => none

/-- Python slice `text[a:b]`. -/
def sliceN (text : List Nat) (a b : Nat) : List Nat := (text.take b).drop a

/-! #### Pattern construction helpers -/

/-- Literal character. -/
def lit (c : Nat) : RE := .cls (fun x => decide (x = c))

/-- Case-insensitive literal character. -/
def litCI (c : Nat) : RE := .cls (fun x => decide (pyLowerChar x = pyLowerChar c))

/-- Literal string. -/
def strRe (s : List Nat) : RE := s.foldr (fun c r => .seq (lit c) r) .eps

/-- Case-insensitive literal string. -/
def strCI (s : List Nat) : RE := s.foldr (fun c r => .seq (litCI c) r) .eps

/-- Ordered alternation of a list of patterns (`a|b|...`). -/
def altList : List RE → RE
  | [] => .cls (fun _ => false)
  | [r] => r
  | r :: rs => .alt r (altList rs)

/-- `r+` (greedy). -/
def plus (r : RE) : RE := .seq r (.star true r)

/-- `r?` (greedy). -/
def qmark (r : RE) : RE := .alt r .eps

/-- `r{n}`. -/
def powRe : Nat → RE → RE
  | 0, _ => .eps
  | k + 1, r => .seq r (powRe k r)

/-- `r{0,k}` (greedy). -/
def optsRe : Nat → RE → RE
  | 0, _ => .eps
  | k + 1, r => .alt (.seq r (optsRe k r)) .eps

/-- `r{m,n}` (greedy). -/
def repRange (m n : Nat) (r : RE) : RE := .seq (powRe m r) (optsRe (n - m) r)

/-- `r{m,}` (greedy). -/
def repAtLeast (m : Nat) (r : RE) : RE := .seq (powRe m r) (.star true r)

/-- `[a-z]`. -/
def reLower : RE := .cls (fun c => decide (97 ≤ c ∧ c ≤ 122))

/-- `[A-Z]`. -/
def reUpper : RE := .cls (fun c => decide (65 ≤ c ∧ c ≤ 90))

/-- `[A-Z]` under `re.IGNORECASE` (any ASCII letter); also `[a-z]` CI. -/
def reLetter : RE :=
  .cls (fun c => decide ((65 ≤ c ∧ c ≤ 90) ∨ (97 ≤ c ∧ c ≤ 122)))

/-- `\d`. -/
def reDigit : RE := .cls (fun c => decide (48 ≤ c ∧ c ≤ 57))

/-- `\s`. -/
def reWs : RE := .cls isPySpace

/-- `.` (any character but newline). -/
def reDot : RE := .cls (fun c => decide (¬ c = 10))

/-! #### Generic matcher facts -/

/-- Syntactic check: every alternative of the pattern consumes at least
one character. -/
def strictB : RE → Bool
  | .eps => false
  | .cls _ => true
  | .seq a b => strictB a || strictB b
  | .alt a b => strictB a && strictB b
  | .star _ _ => false
  | .grp _ r => strictB r
  | .wb => false
  | .bos => false
  | .eos => false

/-- Syntactic check: every capture group inside the pattern has a strict
body. -/
def grpStrictB : RE → Bool
  | .eps => true
  | .cls _ => true
  | .seq a b => grpStrictB a && grpStrictB b
  | .alt a b => grpStrictB a && grpStrictB b
  | .star _ r => grpStrictB r
  | .grp _ r => strictB r && grpStrictB r
  | .wb => true
  | .bos => true
  | .eos => true

/-- The matcher never moves backwards. -/
theorem mmatch_mono : ∀ (fuel : Nat) (re : RE) (st : MSt) (cps : Caps)
    (r : MSt × Caps), r ∈ mmatch fuel re st cps → st.pos ≤ r.1.pos := by
  intro fuel
  induction fuel with
  | zero => intro re st cps r h; simp [mmatch] at h
  | succ fuel ih =>
    intro re st cps r h
    cases re with
    | eps => simp [mmatch] at h; rw [h]
    | cls p =>
      simp only [mmatch] at h
      cases hr : st.rest with
      | nil => rw [hr] at h; simp at h
      | cons c t =>
        rw [hr] at h
        by_cases hp : p c = true
        · simp [hp] at h
          rw [h]
          exact Nat.le_succ _
        · simp [hp] at h
    | seq a b =>
      simp only [mmatch, List.mem_flatMap] at h
      obtain ⟨m, hm, hr⟩ := h
      exact le_trans (ih a st cps m hm) (ih b m.1 m.2 r hr)
    | alt a b =>
      simp only [mmatch, List.mem_append] at h
      rcases h with h | h
      · exact ih a st cps r h
      · exact ih b st cps r h
    | star g body =>
      simp only [mmatch] at h
      split at h
      · rw [List.mem_append] at h
        rcases h with h | h
        · simp only [List.mem_flatMap, List.mem_filter, decide_eq_true_eq] at h
          obtain ⟨x, ⟨_, hlt⟩, hr⟩ := h
          exact le_trans (Nat.le_of_lt hlt) (ih (.star g body) x.1 x.2 r hr)
        · simp at h; rw [h]
      · rcases List.mem_cons.mp h with h | h
        · rw [h]
        · simp only [List.mem_flatMap, List.mem_filter, decide_eq_true_eq] at h
          obtain ⟨x, ⟨_, hlt⟩, hr⟩ := h
          exact le_trans (Nat.le_of_lt hlt) (ih (.star g body) x.1 x.2 r hr)
    | grp i body =>
      simp only [mmatch, List.mem_map] at h
      obtain ⟨x, hx, hr⟩ := h
      rw [← hr]
      exact ih body st cps x hx
    | wb =>
      simp only [mmatch] at h
      split at h
      · simp at h; rw [h]
      · simp at h
    | bos =>
      simp only [mmatch] at h
      split at h
      · simp at h; rw [h]
      · simp at h
    | eos =>
      simp only [mmatch] at h
      split at h
      · simp at h; rw [h]
      · simp at h

/-- A syntactically strict pattern consumes at least one character. -/
theorem mmatch_strict : ∀ (fuel : Nat) (re : RE) (st : MSt) (cps : Caps)
    (r : MSt × Caps), strictB re = true → r ∈ mmatch fuel re st cps →
    st.pos < r.1.pos := by
  intro fuel
  induction fuel with
  | zero => intro re st cps r _ h; simp [mmatch] at h
  | succ fuel ih =>
    intro re st cps r hs h
    cases re with
    | eps => simp [strictB] at hs
    | cls p =>
      simp only [mmatch] at h
      cases hr : st.rest with
      | nil => rw [hr] at h; simp at h
      | cons c t =>
        rw [hr] at h
        by_cases hp : p c = true
        · simp [hp] at h
          rw [h]
          exact Nat.lt_succ_self _
        · simp [hp] at h
    | seq a b =>
      simp only [mmatch, List.mem_flatMap] at h
      obtain ⟨m, hm, hr⟩ := h
      simp only [strictB, Bool.or_eq_true] at hs
      rcases hs with hs | hs
      · exact Nat.lt_of_lt_of_le (ih a st cps m hs hm) (mmatch_mono fuel b m.1 m.2 r hr)
      · exact Nat.lt_of_le_of_lt (mmatch_mono fuel a st cps m hm) (ih b m.1 m.2 r hs hr)
    | alt a b =>
      simp only [strictB, Bool.and_eq_true] at hs
      simp only [mmatch, List.mem_append] at h
      rcases h with h | h
      · exact ih a st cps r hs.1 h
      · exact ih b st cps r hs.2 h
    | star g body => simp [strictB] at hs
    | grp i body =>
      simp only [mmatch, List.mem_map] at h
      obtain ⟨x, hx, hr⟩ := h
      rw [← hr]
      exact ih body st cps x hs hx
    | wb => simp [strictB] at hs
    | bos => simp [strictB] at hs
    | eos => simp [strictB] at hs

/-- When every group body is strict, every capture entry that is not
inherited from the incoming capture list spans at least one character. -/
theorem mmatch_caps : ∀ (fuel : Nat) (re : RE) (st : MSt) (cps : Caps)
    (r : MSt × Caps), grpStrictB re = true → r ∈ mmatch fuel re st cps →
    ∀ x ∈ r.2, x ∈ cps ∨ x.2.1 < x.2.2 := by
  intro fuel
  induction fuel with
  | zero => intro re st cps r _ h; simp [mmatch] at h
  | succ fuel ih =>
    intro re st cps r hg h x hx
    cases re with
    | eps => simp [mmatch] at h; rw [h] at hx; exact Or.inl hx
    | cls p =>
      simp only [mmatch] at h
      cases hr : st.rest with
      | nil => rw [hr] at h; simp at h
      | cons c t =>
        rw [hr] at h
        by_cases hp : p c = true
        · simp [hp] at h
          rw [h] at hx
          exact Or.inl hx
        · simp [hp] at h
    | seq a b =>
      simp only [mmatch, List.mem_flatMap] at h
      obtain ⟨m, hm, hr⟩ := h
      simp only [grpStrictB, Bool.and_eq_true] at hg
      rcases ih b m.1 m.2 r hg.2 hr x hx with hmid | hlt
      · exact ih a st cps m hg.1 hm x hmid
      · exact Or.inr hlt
    | alt a b =>
      simp only [grpStrictB, Bool.and_eq_true] at hg
      simp only [mmatch, List.mem_append] at h
      rcases h with h | h
      · exact ih a st cps r hg.1 h x hx
      · exact ih b st cps r hg.2 h x hx
    | star g body =>
      simp only [mmatch] at h
      have hgb : grpStrictB body = true := hg
      have hmem : r ∈ (st, cps) ::
          ((mmatch fuel body st cps).filter fun y => st.pos < y.1.pos).flatMap
            (fun y => mmatch fuel (.star g body) y.1 y.2) := by
        split at h
        · rw [List.mem_append] at h
          rcases h with h | h
          · exact List.mem_cons.mpr (Or.inr h)
          · simp at h; rw [h]; exact List.mem_cons.mpr (Or.inl rfl)
        · exact h
      rcases List.mem_cons.mp hmem with h2 | h2
      · rw [h2] at hx; exact Or.inl hx
      · simp only [List.mem_flatMap, List.mem_filter] at h2
        obtain ⟨y, ⟨hy, _⟩, hr⟩ := h2
        rcases ih (.star g body) y.1 y.2 r hg hr x hx with hmid | hlt
        · exact ih body st cps y hgb hy x hmid
        · exact Or.inr hlt
    | grp i body =>
      simp only [grpStrictB, Bool.and_eq_true] at hg
      simp only [mmatch, List.mem_map] at h
      obtain ⟨y, hy, hr⟩ := h
      rw [← hr] at hx
      rcases List.mem_append.mp hx with hx2 | hx2
      · exact ih body st cps y hg.2 hy x hx2
      · rw [List.mem_singleton.mp hx2]
        exact Or.inr (mmatch_strict fuel body st cps y hg.1 hy)
    | wb =>
      simp only [mmatch] at h
      split at h
      · simp at h; rw [h] at hx; exact Or.inl hx
      · simp at h
    | bos =>
      simp only [mmatch] at h
      split at h
      · simp at h; rw [h] at hx; exact Or.inl hx
      · simp at h
    | eos =>
      simp only [mmatch] at h
      split at h
      · simp at h; rw [h] at hx; exact Or.inl hx
      · simp at h

/-- Every match a scan of a strict pattern emits is nonempty. -/
theorem finditerGo_strict (re : RE) (hs : strictB re = true) :
    ∀ (fuel : Nat) (st : MSt) (m : Nat × Nat × Caps),
    m ∈ finditerGo re fuel st → m.1 < m.2.1 := by
  intro fuel
  induction fuel with
  | zero => intro st m h; simp [finditerGo] at h
  | succ fuel ih =>
    intro st m h
    simp only [finditerGo] at h
    split at h
    · rename_i st2 cps heq
      have hmem := List.mem_of_mem_head?
        (show (st2, cps) ∈ (reMatches re st).head? by rw [heq]; rfl)
      have hlt := mmatch_strict _ re st [] (st2, cps) hs hmem
      split at h
      · rcases List.mem_cons.mp h with h2 | h2
        · rw [h2]; exact hlt
        · exact ih st2 m h2
      · rename_i hif
        exact absurd hlt hif
    · split at h
      · simp at h
      · exact ih _ m h

/-- Every capture a scan of a group-strict pattern emits spans at least
one character. -/
theorem finditerGo_caps (re : RE) (hg : grpStrictB re = true) :
    ∀ (fuel : Nat) (st : MSt) (m : Nat × Nat × Caps),
    m ∈ finditerGo re fuel st → ∀ x ∈ m.2.2, x.2.1 < x.2.2 := by
  intro fuel
  induction fuel with
  | zero => intro st m h; simp [finditerGo] at h
  | succ fuel ih =>
    intro st m h x hx
    simp only [finditerGo] at h
    split at h
    · rename_i st2 cps heq
      have hmem := List.mem_of_mem_head?
        (show (st2, cps) ∈ (reMatches re st).head? by rw [heq]; rfl)
      have hcaps := mmatch_caps _ re st [] (st2, cps) hg hmem
      split at h
      · rcases List.mem_cons.mp h with h2 | h2
        · rw [h2] at hx
          rcases hcaps x hx with hin | hlt
          · simp at hin
          · exact hlt
        · exact ih st2 m h2 x hx
      · split at h
        · rw [List.mem_singleton.mp h] at hx
          rcases hcaps x hx with hin | hlt
          · simp at hin
          · exact hlt
        · rcases List.mem_cons.mp h with h2 | h2
          · rw [h2] at hx
            rcases hcaps x hx with hin | hlt
            · simp at hin
            · exact hlt
          · exact ih _ m h2 x hx
    · split at h
      · simp at h
      · exact ih _ m h x hx

/-- `finditer` emits only nonempty matches for strict patterns. -/
theorem finditer_strict (re : RE) (s : List Nat) (hs : strictB re = true)
    (m : Nat × Nat × Caps) (hm : m ∈ finditer re s) : m.1 < m.2.1 :=
  finditerGo_strict re hs _ _ m hm

/-- `finditer` captures span at least one character for group-strict
patterns. -/
theorem finditer_caps (re : RE) (s : List Nat) (hg : grpStrictB re = true)
    (m : Nat × Nat × Caps) (hm : m ∈ finditer re s) :
    ∀ x ∈ m.2.2, x.2.1 < x.2.2 :=
  finditerGo_caps re hg _ _ m hm

/-- A successful group lookup names an entry of the capture list. -/
theorem capLookup_mem (i : Nat) (cps : Caps) (s e : Nat)
    (h : capLookup i cps = some (s, e)) : (i, s, e) ∈ cps := by
  unfold capLookup at h
  split at h
  · rename_i x heq
    have hx := List.mem_of_find?_eq_some heq
    have hp := List.find?_some heq
    rw [List.mem_reverse] at hx
    have hix : x.1 = i := by simpa using hp
    have hse : x.2 = (s, e) := Option.some.inj h
    have : x = (i, s, e) := by
      cases x with
      | mk a b => simp at hix hse; rw [hix, hse]
    rw [← this]
    exact hx
  · simp at h

/-! ### The hybrid NER extractor (`Name_Entity_Recogniztion.py`) -/

/-- Python `ch.isupper()` on an ASCII character. -/
def isUpperCh (c : Nat) : Bool := decide (65 ≤ c ∧ c ≤ 90)

/-- Python `ch.islower()` on an ASCII character. -/
def isLowerCh (c : Nat) : Bool := decide (97 ≤ c ∧ c ≤ 122)

/-- ASCII letter (cased character). -/
def isLetterCh (c : Nat) : Bool := isUpperCh c || isLowerCh c

/-- Python `s.isalpha()` (ASCII). -/
def pyIsAlphaStr (s : List Nat) : Bool := !s.isEmpty && s.all isLetterCh

/-- Python `s.islower()` (ASCII): at least one cased character and no
uppercase one. -/
def pyIsLowerStr (s : List Nat) : Bool := s.any isLetterCh && s.all (fun c => !isUpperCh c)

/-- `s[0]` of a nonempty Python string (0 as a dummy for the empty one). -/
def headCh (s : List Nat) : Nat := s.headD 0

/-- Python `x in someSet` for a set of strings. -/
def setMem (w : List Nat) (s : List (List Nat)) : Bool := s.any (fun x => decide (x = w))

/-- `self.commonFirstNames`. -/
def commonFirstNames : List (List Nat) :=
  [codes "john", codes "jane", codes "michael", codes "sarah", codes "david",
   codes "maria", codes "james", codes "lisa", codes "robert", codes "jennifer",
   codes "william", codes "elizabeth", codes "richard", codes "patricia",
   codes "ahmed", codes "fatima", codes "muhammad", codes "aisha", codes "ali",
   codes "zainab", codes "omar", codes "sara"]

/-- `self.commonLastNames`. -/
def commonLastNames : List (List Nat) :=
  [codes "smith", codes "johnson", codes "brown", codes "taylor", codes "miller",
   codes "davis", codes "garcia", codes "rodriguez", codes "wilson",
   codes "martinez", codes "anderson", codes "jackson", codes "white",
   codes "khan", codes "ahmed", codes "ali", codes "shah", codes "malik",
   codes "hussain", codes "abbas"]

/-- `self.eventTypeIndicators`. -/
def eventTypeIndicators : List (List Nat) :=
  [codes "conference", codes "summit", codes "workshop", codes "seminar",
   codes "meetup", codes "expo", codes "convention", codes "symposium",
   codes "forum", codes "congress", codes "festival", codes "competition",
   codes "tournament", codes "championship", codes "ceremony"]

/-- `self.domainKeywords`. -/
def domainKeywords : List (List Nat) :=
  [codes "tech", codes "technology", codes "ai", codes "artificial intelligence",
   codes "ml", codes "machine learning", codes "data science", codes "blockchain",
   codes "cybersecurity", codes "cloud", codes "mobile", codes "web",
   codes "software", codes "hardware", codes "iot", codes "robotics",
   codes "fintech", codes "healthtech"]

/-- `self.majorCities`. -/
def majorCities : List (List Nat) :=
  [codes "new york", codes "london", codes "tokyo", codes "paris", codes "berlin",
   codes "sydney", codes "toronto", codes "mumbai", codes "delhi",
   codes "bangalore", codes "karachi", codes "lahore", codes "islamabad",
   codes "dubai", codes "singapore", codes "hong kong", codes "san francisco",
   codes "los angeles"]

/-- `self.registrationVerbs` (a Python set; listed in source order — the
claims settled here do not depend on the set's iteration order). -/
def registrationVerbs : List (List Nat) :=
  [codes "registered", codes "signed up", codes "enrolled", codes "joined",
   codes "participated", codes "attended", codes "booked", codes "reserved",
   codes "confirmed", codes "applied", codes "subscribed"]

/-- The `nonNameWords` literal of `_validatePersonName`. -/
def nonNameWords : List (List Nat) :=
  [codes "conference", codes "summit", codes "workshop", codes "meeting",
   codes "event", codes "the", codes "and", codes "or"]

/-- The `nonLocationWords` literal of `_validateLocation`. -/
def nonLocationWords : List (List Nat) :=
  [codes "conference", codes "summit", codes "workshop", codes "meeting",
   codes "event", codes "the", codes "and", codes "or"]

/-- Chain a list of patterns in sequence. -/
def seqList : List RE → RE
  | [] => .eps
  | [r] => r
  | r :: rs => .seq r (seqList rs)

/-- `[A-Z][a-z]+`. -/
def upperWord : RE := .seq reUpper (plus reLower)

/-- `[A-Z][a-z]+` under `re.IGNORECASE`. -/
def upperWordCI : RE := .seq reLetter (plus reLetter)

/-- `\s+`. -/
def wsPlus : RE := plus reWs

/-- `(?:\s+[A-Z][a-z]+)*`. -/
def moreUpperWords : RE := .star true (.seq wsPlus upperWord)

/-- `(?:\s+[A-Z][a-z]+)*` under `re.IGNORECASE`. -/
def moreUpperWordsCI : RE := .star true (.seq wsPlus upperWordCI)

/-- `patterns["personNames"][0]`:
`\b[A-Z][a-z]+\s+[A-Z][a-z]+(?:\s+[A-Z][a-z]+)?\b`. -/
def personNames1 : RE :=
  seqList [.wb, upperWord, wsPlus, upperWord, qmark (.seq wsPlus upperWord), .wb]

/-- `patterns["personNames"][1]`:
`\b(?:Mr|Mrs|Ms|Dr|Prof)\.?\s+[A-Z][a-z]+\s+[A-Z][a-z]+\b`. -/
def personNames2 : RE :=
  seqList [.wb,
    altList [strRe (codes "Mr"), strRe (codes "Mrs"), strRe (codes "Ms"),
      strRe (codes "Dr"), strRe (codes "Prof")],
    qmark (lit 46), wsPlus, upperWord, wsPlus, upperWord, .wb]

/-- `patterns["personNames"][2]`: `\b[A-Z][a-z]+\s+[A-Z]\.\s+[A-Z][a-z]+\b`. -/
def personNames3 : RE :=
  seqList [.wb, upperWord, wsPlus, reUpper, lit 46, wsPlus, upperWord, .wb]

/-- The event-type alternation of the first event pattern (IGNORECASE). -/
def eventTypeAltCI : RE :=
  altList [strCI (codes "Conference"), strCI (codes "Summit"),
    strCI (codes "Workshop"), strCI (codes "Meetup"), strCI (codes "Expo"),
    strCI (codes "Convention"), strCI (codes "Symposium")]

/-- `patterns["eventPatterns"][0]` (IGNORECASE):
`\b(?:the\s+)?[A-Z][a-z]*\s+(?:Conference|Summit|Workshop|Meetup|Expo|Convention|Symposium)\b`. -/
def eventPatterns1 : RE :=
  seqList [.wb, qmark (.seq (strCI (codes "the")) wsPlus), reLetter,
    .star true reLetter, wsPlus, eventTypeAltCI, .wb]

/-- `patterns["eventPatterns"][1]`: `\b[A-Z]+\s+\d{4}\b`. -/
def eventPatterns2 : RE :=
  seqList [.wb, plus reUpper, wsPlus, powRe 4 reDigit, .wb]

/-- `patterns["eventPatterns"][2]` (IGNORECASE):
`\b\d{4}\s+[A-Z][a-z]+\s+(?:Conference|Summit)\b`. -/
def eventPatterns3 : RE :=
  seqList [.wb, powRe 4 reDigit, wsPlus, upperWordCI, wsPlus,
    altList [strCI (codes "Conference"), strCI (codes "Summit")], .wb]

/-- `patterns["locationPatterns"][0]`:
`\bin\s+([A-Z][a-z]+(?:\s+[A-Z][a-z]+)*),?\s*([A-Z]{2,3})?\b`. -/
def locationPatterns1 : RE :=
  seqList [.wb, strRe (codes "in"), wsPlus, .grp 1 (.seq upperWord moreUpperWords),
    qmark (lit 44), .star true reWs, qmark (.grp 2 (repRange 2 3 reUpper)), .wb]

/-- `patterns["locationPatterns"][1]`:
`\bat\s+([A-Z][a-z]+(?:\s+[A-Z][a-z]+)*)\b`. -/
def locationPatterns2 : RE :=
  seqList [.wb, strRe (codes "at"), wsPlus, .grp 1 (.seq upperWord moreUpperWords), .wb]

/-- `patterns["locationPatterns"][2]`:
`\b([A-Z][a-z]+),\s*([A-Z][a-z]+)(?:,\s*([A-Z]{2,3}))?\b`. -/
def locationPatterns3 : RE :=
  seqList [.wb, .grp 1 upperWord, lit 44, .star true reWs, .grp 2 upperWord,
    qmark (seqList [lit 44, .star true reWs, .grp 3 (repRange 2 3 reUpper)]), .wb]

/-- The month-abbreviation alternation (IGNORECASE). -/
def monthsAltCI : RE :=
  altList [strCI (codes "Jan"), strCI (codes "Feb"), strCI (codes "Mar"),
    strCI (codes "Apr"), strCI (codes "May"), strCI (codes "Jun"),
    strCI (codes "Jul"), strCI (codes "Aug"), strCI (codes "Sep"),
    strCI (codes "Oct"), strCI (codes "Nov"), strCI (codes "Dec")]

/-- The character class slash-or-dash. -/
def slashDash : RE := .alt (lit 47) (lit 45)

/-- `patterns["datePatterns"][0]` (IGNORECASE):
`\b(?:on\s+)?(?:Jan|...|Dec)[a-z]*\s+\d{1,2},?\s+\d{4}\b`. -/
def datePatterns1 : RE :=
  seqList [.wb, qmark (.seq (strCI (codes "on")) wsPlus), monthsAltCI,
    .star true reLetter, wsPlus, repRange 1 2 reDigit, qmark (lit 44), wsPlus,
    powRe 4 reDigit, .wb]

/-- `patterns["datePatterns"][1]` (IGNORECASE):
`\b(?:on\s+)?\d{1,2}\s+(?:Jan|...|Dec)[a-z]*\s+\d{4}\b`. -/
def datePatterns2 : RE :=
  seqList [.wb, qmark (.seq (strCI (codes "on")) wsPlus), repRange 1 2 reDigit,
    wsPlus, monthsAltCI, .star true reLetter, wsPlus, powRe 4 reDigit, .wb]

/-- `patterns["datePatterns"][2]`: slash-dash date `\b(?:on\s+)?\d{1,2}\d{1,2}\d{2,4}\b` with `[` `/` `-` `]` separators. -/
def datePatterns3 : RE :=
  seqList [.wb, qmark (.seq (strRe (codes "on")) wsPlus), repRange 1 2 reDigit,
    slashDash, repRange 1 2 reDigit, slashDash, repRange 2 4 reDigit, .wb]

/-- `patterns["datePatterns"][3]`: slash-dash date `\b(?:on\s+)?\d{4}\d{1,2}\d{1,2}\b` with `[` `/` `-` `]` separators. -/
def datePatterns4 : RE :=
  seqList [.wb, qmark (.seq (strRe (codes "on")) wsPlus), powRe 4 reDigit,
    slashDash, repRange 1 2 reDigit, slashDash, repRange 1 2 reDigit, .wb]

/-- The appended capture `([A-Z][a-z]+(?:\s+[A-Z][a-z]+)*)` of the
person-context patterns, under IGNORECASE. -/
def pcNameGroup : RE :=
  .seq reLetter (.seq (plus reLetter) (.star true (.seq wsPlus (.seq reLetter (plus reLetter)))))

/-- `contextualRules["personNameContext"][0]` + capture (IGNORECASE). -/
def personNameContext1 : RE :=
  seqList [.wb,
    altList [strCI (codes "Mr"), strCI (codes "Mrs"), strCI (codes "Ms"),
      strCI (codes "Dr"), strCI (codes "Prof")],
    qmark (lit 46), wsPlus, .grp 1 pcNameGroup]

/-- `contextualRules["personNameContext"][1]` + capture (IGNORECASE). -/
def personNameContext2 : RE :=
  seqList [.wb,
    altList [strCI (codes "registered"), strCI (codes "signed up"),
      strCI (codes "enrolled")],
    wsPlus, altList [strCI (codes "for"), strCI (codes "to")], wsPlus,
    .star false reDot, wsPlus,
    altList [strCI (codes "by"), strCI (codes "participant"),
      strCI (codes "attendee")],
    wsPlus, .grp 1 pcNameGroup]

/-- `contextualRules["personNameContext"][2]` + capture (IGNORECASE). -/
def personNameContext3 : RE :=
  seqList [.wb, strCI (codes "participant"), wsPlus,
    qmark (seqList [strCI (codes "name"), .star true reWs, lit 58, .star true reWs]),
    .grp 1 pcNameGroup]

/-- `contextualRules["personNameContext"][3]` + capture (IGNORECASE). -/
def personNameContext4 : RE :=
  seqList [.wb, strCI (codes "attendee"), wsPlus,
    qmark (seqList [strCI (codes "name"), .star true reWs, lit 58, .star true reWs]),
    .grp 1 pcNameGroup]

/-- The event-type alternation of `_extractEventNamesFromContext`. -/
def ecTypeAltCI : RE :=
  altList [strCI (codes "conference"), strCI (codes "summit"),
    strCI (codes "workshop"), strCI (codes "meetup"), strCI (codes "expo"),
    strCI (codes "convention"), strCI (codes "symposium")]

/-- The per-verb pattern of `_extractEventNamesFromContext` (IGNORECASE):
`\b{verb}\s+(?:for\s+)?(?:the\s+)?([A-Z][^.!?]*?(?:conference|...|symposium))`. -/
def eventContextPattern (verb : List Nat) : RE :=
  seqList [.wb, strCI verb, wsPlus, qmark (.seq (strCI (codes "for")) wsPlus),
    qmark (.seq (strCI (codes "the")) wsPlus),
    .grp 1 (seqList [reLetter,
      .star false (.cls (fun c => decide (¬ (c = 46 ∨ c = 33 ∨ c = 63)))),
      ecTypeAltCI])]

/-- `\b20\d{2}\b` (case-sensitive, used for `hasYear`). -/
def reYear : RE := seqList [.wb, strRe (codes "20"), powRe 2 reDigit, .wb]

/-- `^[A-Z][a-z]+(?:\s+[A-Z][a-z]+)*(?:,\s*[A-Z]{2,})?` of
`_validateLocation` / `_calculateLocationConfidence`. -/
def reLocVal : RE :=
  seqList [.bos, upperWord, moreUpperWords,
    qmark (seqList [lit 44, .star true reWs, repAtLeast 2 reUpper])]

/-- `\b(?:Jan|...|Dec)` (IGNORECASE), used by `_calculateDateConfidence`. -/
def reMonthSearch : RE := .seq .wb monthsAltCI

/-- `\d{4}`, used by `_calculateDateConfidence`. -/
def reFourDigits : RE := powRe 4 reDigit

/-- `_validateDate` pattern 1 (IGNORECASE):
`\b(?:Jan|...|Dec)[a-z]*\s+\d{1,2},?\s+\d{4}\b`. -/
def valDate1 : RE :=
  seqList [.wb, monthsAltCI, .star true reLetter, wsPlus, repRange 1 2 reDigit,
    qmark (lit 44), wsPlus, powRe 4 reDigit, .wb]

/-- `_validateDate` pattern 2 (IGNORECASE):
`\b\d{1,2}\s+(?:Jan|...|Dec)[a-z]*\s+\d{4}\b`. -/
def valDate2 : RE :=
  seqList [.wb, repRange 1 2 reDigit, wsPlus, monthsAltCI, .star true reLetter,
    wsPlus, powRe 4 reDigit, .wb]

/-- `_validateDate` pattern 3: the slash-dash short date pattern. -/
def valDate3 : RE :=
  seqList [.wb, repRange 1 2 reDigit, slashDash, repRange 1 2 reDigit, slashDash,
    repRange 2 4 reDigit, .wb]

/-- `_validateDate` pattern 4: the slash-dash ISO-like date pattern. -/
def valDate4 : RE :=
  seqList [.wb, powRe 4 reDigit, slashDash, repRange 1 2 reDigit, slashDash,
    repRange 1 2 reDigit, .wb]

/-- `_validatePersonName` (NER). -/
def validatePersonNameNER (name : List Nat) : Bool :=
  if name = [] ∨ (pySplitWs name).length < 2 then false
  else
    let words := (pySplitWs name).map pyLower
    let hasFirstName := words.any (fun w => setMem w commonFirstNames)
    let hasLastName := words.any (fun w => setMem w commonLastNames)
    let hasValidPattern :=
      (pySplitWs name).all (fun w => pyIsAlphaStr w && isUpperCh (headCh w))
    let hasNonNameWords :=
      (pySplitWs name).any (fun w => setMem (pyLower w) nonNameWords)
    (hasFirstName || hasLastName || hasValidPattern) && !hasNonNameWords

/-- `_validateEventName` (NER). -/
def validateEventNameNER (eventName : List Nat) : Bool :=
  if eventName = [] ∨ (pyStrip eventName).length < 3 then false
  else
    let eventLower := pyLower eventName
    let hasEventIndicator := eventTypeIndicators.any (fun i => containsSub i eventLower)
    let hasDomainKeyword := domainKeywords.any (fun k => containsSub k eventLower)
    let hasYear := (reSearch reYear eventName).isSome
    hasEventIndicator || hasDomainKeyword || hasYear

/-- `_validateLocation` (NER). -/
def validateLocationNER (location : List Nat) : Bool :=
  if location = [] ∨ (pyStrip location).length < 2 then false
  else
    let locationLower := pyLower location
    let isKnownCity := setMem locationLower majorCities
    let hasLocationPattern := (reSearch reLocVal location).isSome
    let hasNonLocationWords :=
      (pySplitWs location).any (fun w => setMem (pyLower w) nonLocationWords)
    (isKnownCity || hasLocationPattern) && !hasNonLocationWords

/-- `_validateDate` (NER). -/
def validateDateNER (date : List Nat) : Bool :=
  if date = [] then false
  else [valDate1, valDate2, valDate3, valDate4].any
    (fun p => (reSearch p date).isSome)

/-- `_calculatePersonNameConfidence`. -/
def calculatePersonNameConfidence (name : List Nat) : ExtractionConfidence :=
  let words := (pySplitWs name).map pyLower
  let score : Int :=
    (if words.any (fun w => setMem w commonFirstNames) then 3 else 0) +
    (if words.any (fun w => setMem w commonLastNames) then 3 else 0) +
    (if (pySplitWs name).all
        (fun w => isUpperCh (headCh w) && pyIsLowerStr (w.drop 1)) then 2 else 0) +
    (if words.length = 2 then 2 else if words.length > 4 then -1 else 0)
  if score ≥ 5 then .HIGH else if score ≥ 3 then .MEDIUM else .LOW

/-- `_calculateEventNameConfidence`. -/
def calculateEventNameConfidence (eventName fullText : List Nat) : ExtractionConfidence :=
  let eventLower := pyLower eventName
  let score : Nat :=
    (if eventTypeIndicators.any (fun i => containsSub i eventLower) then 4 else 0) +
    (if domainKeywords.any (fun k => containsSub k eventLower) then 3 else 0) +
    (if (reSearch reYear eventName).isSome then 2 else 0) +
    (if registrationVerbs.any (fun v => containsSub v (pyLower fullText)) then 2 else 0) +
    (if !eventName.isEmpty && isUpperCh (headCh eventName) then 1 else 0)
  if score ≥ 6 then .HIGH else if score ≥ 3 then .MEDIUM else .LOW

/-- `_calculateLocationConfidence`. -/
def calculateLocationConfidence (location : List Nat) : ExtractionConfidence :=
  let locationLower := pyLower location
  let score : Nat :=
    (if setMem locationLower majorCities then 4 else 0) +
    (if (reSearch reLocVal location).isSome then 3 else 0) +
    (if 3 ≤ location.length ∧ location.length ≤ 30 then 1 else 0)
  if score ≥ 4 then .HIGH else if score ≥ 2 then .MEDIUM else .LOW

/-- `_calculateDateConfidence`. -/
def calculateDateConfidence (date : List Nat) : ExtractionConfidence :=
  if (reSearch reMonthSearch date).isSome then .HIGH
  else if (reSearch reFourDigits date).isSome then .MEDIUM
  else .LOW

/-- Removal of the anchored prefix matched by
`re.sub(pattern, '', text, flags=re.IGNORECASE)` for a prefix pattern of
the shape `^\s*(?:alt|...)\s+`. -/
def stripLeadPre (alts : List (List Nat)) (s : List Nat) : List Nat :=
  let rest := s.dropWhile isPySpace
  match alts.find? (fun alt =>
    ciPrefixEq alt rest &&
      match rest.drop alt.length with
      | c :: _ => isPySpace c
      | [] => false) with
  | some alt => (rest.drop alt.length).dropWhile isPySpace
  | none => s

/-- `_cleanLocationText`: strip one leading `in|at|near` prefix, then
`strip()`. -/
def cleanLocationText (locationText : List Nat) : List Nat :=
  pyStrip (stripLeadPre [codes "in", codes "at", codes "near"] locationText)

/-- `_cleanDateText`: strip one leading `on|date|scheduled for` prefix,
then `strip()`. -/
def cleanDateText (dateText : List Nat) : List Nat :=
  pyStrip (stripLeadPre [codes "on", codes "date", codes "scheduled for"] dateText)

/-- Pattern part of `_extractPersonNames` (strategy 1). -/
def extractPersonNamesPattern (text : List Nat) : List (Except (List Nat) ExtractedEntity) :=
  [personNames1, personNames2, personNames3].flatMap (fun pat =>
    (finditer pat text).filterMap (fun m =>
      let name := pyStrip (sliceN text m.1 m.2.1)
      if validatePersonNameNER name then
        some (mkExtractedEntity .PERSON name (calculatePersonNameConfidence name)
          (m.1 : Int) (m.2.1 : Int) (sliceN text m.1 m.2.1))
      else none))

/-- `_extractPersonNamesFromContext` (strategy 2). -/
def extractPersonNamesFromContext (text : List Nat) : List (Except (List Nat) ExtractedEntity) :=
  [personNameContext1, personNameContext2, personNameContext3,
    personNameContext4].flatMap (fun pat =>
    (finditer pat text).filterMap (fun m =>
      match capLookup 1 m.2.2 with
      | some (gs, ge) =>
        let name := pyStrip (sliceN text gs ge)
        if validatePersonNameNER name then
          some (mkExtractedEntity .PERSON name .HIGH (gs : Int) (ge : Int) name)
        else none
      | none => none))

/-- `_extractPersonNames`. -/
def extractPersonNames (text : List Nat) : List (Except (List Nat) ExtractedEntity) :=
  extractPersonNamesPattern text ++ extractPersonNamesFromContext text

/-- Pattern part of `_extractEventNames`. -/
def extractEventNamesPattern (text : List Nat) : List (Except (List Nat) ExtractedEntity) :=
  [eventPatterns1, eventPatterns2, eventPatterns3].flatMap (fun pat =>
    (finditer pat text).filterMap (fun m =>
      let eventName := pyStrip (sliceN text m.1 m.2.1)
      if validateEventNameNER eventName then
        some (mkExtractedEntity .EVENT eventName
          (calculateEventNameConfidence eventName text)
          (m.1 : Int) (m.2.1 : Int) (sliceN text m.1 m.2.1))
      else none))

/-- `_extractEventNamesFromContext`. -/
def extractEventNamesFromContext (text : List Nat) : List (Except (List Nat) ExtractedEntity) :=
  registrationVerbs.flatMap (fun verb =>
    (finditer (eventContextPattern verb) text).filterMap (fun m =>
      match capLookup 1 m.2.2 with
      | some (gs, ge) =>
        let eventName := pyStrip (sliceN text gs ge)
        if validateEventNameNER eventName then
          some (mkExtractedEntity .EVENT eventName .HIGH (gs : Int) (ge : Int) eventName)
        else none
      | none => none))

/-- `_extractEventNames`. -/
def extractEventNames (text : List Nat) : List (Except (List Nat) ExtractedEntity) :=
  extractEventNamesPattern text ++ extractEventNamesFromContext text

/-- `_extractLocations`. -/
def extractLocations (text : List Nat) : List (Except (List Nat) ExtractedEntity) :=
  [locationPatterns1, locationPatterns2, locationPatterns3].flatMap (fun pat =>
    (finditer pat text).filterMap (fun m =>
      let location := cleanLocationText (sliceN text m.1 m.2.1)
      if location ≠ [] ∧ validateLocationNER location = true then
        some (mkExtractedEntity .LOCATION location
          (calculateLocationConfidence location)
          (m.1 : Int) (m.2.1 : Int) (sliceN text m.1 m.2.1))
      else none))

/-- `_extractDates`. -/
def extractDates (text : List Nat) : List (Except (List Nat) ExtractedEntity) :=
  [datePatterns1, datePatterns2, datePatterns3, datePatterns4].flatMap (fun pat =>
    (finditer pat text).filterMap (fun m =>
      let dateText := pyStrip (sliceN text m.1 m.2.1)
      let cleanedDate := cleanDateText dateText
      if cleanedDate ≠ [] ∧ validateDateNER cleanedDate = true then
        some (mkExtractedEntity .DATE cleanedDate (calculateDateConfidence cleanedDate)
          (m.1 : Int) (m.2.1 : Int) (sliceN text m.1 m.2.1))
      else none))

/-- Sequence entity constructions, propagating the first raised error
(the exception Python's `try` block would see). -/
def collectExcept : List (Except (List Nat) ExtractedEntity) →
    Except (List Nat) (List ExtractedEntity)
  | [] => .ok []
  | x :: xs =>
    match x with
    | .error e => .error e
    | .ok a =>
      match collectExcept xs with
      | .error e => .error e
      | .ok l => .ok (a :: l)

/-- The observable outcome of `extractEntities`: empty-input early return,
a successful entity list, or the `except` branch that records
`_lastError` and returns `[]`. -/
inductive ExtractionOutcome where
  | emptyInput
  | success (entities : List ExtractedEntity)
  | failure (error : List Nat)
deriving DecidableEq, Repr

/-- `extractEntities`: guard, the four strategies, overlap removal and
context enhancement, with the `try/except` modelled by `Except`. -/
def extractEntitiesRun (text : List Nat) : ExtractionOutcome :=
  if pyStrip text = [] then .emptyInput
  else
    match collectExcept (extractPersonNames text ++ extractEventNames text ++
        extractLocations text ++ extractDates text) with
    | .error msg => .failure (codes "Extraction error: " ++ msg)
    | .ok es => .success (enhanceWithContext (removeDuplicatesAndOverlaps es) text)

/-- The entity list `extractEntities` returns (empty on the guard and on
the `except` branch). -/
def extractionEntities : ExtractionOutcome → List ExtractedEntity
  | .emptyInput => []
  | .success es => es
  | .failure _ => []

/-! ### The information processor (`info_processing.py`) -/

/-- `invalidPatterns['personName'][0]` (searched with IGNORECASE). -/
def invPersonWords : RE :=
  seqList [.wb,
    altList [strCI (codes "conference"), strCI (codes "summit"),
      strCI (codes "workshop"), strCI (codes "event"), strCI (codes "meeting")],
    .wb]

/-- `invalidPatterns['personName'][1]` (searched with IGNORECASE). -/
def invPersonMonths : RE :=
  seqList [.wb,
    altList [strCI (codes "january"), strCI (codes "february"),
      strCI (codes "march"), strCI (codes "april"), strCI (codes "may"),
      strCI (codes "june"), strCI (codes "july"), strCI (codes "august"),
      strCI (codes "september"), strCI (codes "october"),
      strCI (codes "november"), strCI (codes "december")],
    .wb]

/-- `^\d+$` (only numbers). -/
def invOnlyDigits : RE := seqList [.bos, plus reDigit, .eos]

/-- `^[a-z\s]+$` under IGNORECASE (any ASCII letter or whitespace). -/
def invOnlyLetters : RE :=
  seqList [.bos, plus (.cls (fun c => isLetterCh c || isPySpace c)), .eos]

/-- `invalidPatterns['location'][0]` (searched with IGNORECASE). -/
def invLocVerbs : RE :=
  seqList [.wb,
    altList [strCI (codes "registered"), strCI (codes "signed up"),
      strCI (codes "enrolled")],
    .wb]

/-- The charset check `^[A-Za-z\s\.\-\']+$` of `_validatePersonName`
(`re.match`, so anchored at the start). -/
def personCharset : RE :=
  seqList [.bos,
    plus (.cls (fun c => isLetterCh c || isPySpace c || decide (c = 46) ||
      decide (c = 45) || decide (c = 39))),
    .eos]

/-- `_validatePersonName` (processor). -/
def validatePersonNameProc (name : List Nat) : Bool :=
  if name = [] ∨ (pyStrip name).length < 3 then false
  else if name.length > 100 then false
  else if [invPersonWords, invPersonMonths, reFourDigits, lit 64].any
      (fun p => (reSearch p name).isSome) then false
  else if !(reSearch personCharset name).isSome then false
  else if !containsSub [32] (pyStrip name) then false
  else true

/-- `_validateEventName` (processor). -/
def validateEventNameProc (eventName : List Nat) : Bool :=
  if eventName = [] ∨ (pyStrip eventName).length < 5 then false
  else if eventName.length > 200 then false
  else if [invOnlyDigits, invOnlyLetters].any
      (fun p => (reSearch p eventName).isSome) then false
  else true

/-- `_validateLocationName` (processor). -/
def validateLocationNameProc (location : List Nat) : Bool :=
  if location = [] ∨ (pyStrip location).length < 2 then false
  else if location.length > 100 then false
  else if [invLocVerbs, invOnlyDigits].any
      (fun p => (reSearch p location).isSome) then false
  else true

/-- `_validateDateFormat` (processor). -/
def validateDateFormatProc (date : List Nat) : Bool :=
  if date = [] ∨ pyStrip date = [] then false
  else [valDate1, valDate2, valDate3, valDate4].any
    (fun p => (reSearch p date).isSome)

/-- Decimal digit string of a natural number (`str(n)` in Python). -/
def natDecimalGo : Nat → Nat → List Nat
  | 0, _ => []
  | fuel + 1, n =>
    if n < 10 then [48 + n]
    else natDecimalGo fuel (n / 10) ++ [48 + n % 10]

/-- `str(n)`. -/
def natDecimal (n : Nat) : List Nat := natDecimalGo (n + 1) n

/-- `_scorePersonEntity` (the float scores are integral, so exact). -/
def scorePersonEntityI (e : ExtractedEntity) : Int :=
  let confScore : Int :=
    match e.confidence with
    | .HIGH => 10 | .MEDIUM => 6 | .LOW => 2 | .UNKNOWN => 0
  let words := pySplitWs e.value
  let lenScore : Int := if words.length = 2 then 5 else if words.length = 3 then 3 else -1
  let capScore : Int :=
    if words.all (fun w => isUpperCh (headCh w) && pyIsLowerStr (w.drop 1)) then 3 else 0
  let sizeScore : Int := if 5 ≤ e.value.length ∧ e.value.length ≤ 50 then 2 else 0
  confScore + lenScore + capScore + sizeScore

/-- `_scoreEventEntity`. -/
def scoreEventEntityI (e : ExtractedEntity) : Int :=
  let confScore : Int :=
    match e.confidence with
    | .HIGH => 10 | .MEDIUM => 6 | .LOW => 2 | .UNKNOWN => 0
  let kwScore : Int :=
    if [codes "conference", codes "summit", codes "workshop", codes "meeting",
        codes "seminar", codes "expo", codes "forum"].any
        (fun k => containsSub k (pyLower e.value)) then 5 else 0
  let lenScore : Int := if 10 ≤ e.value.length ∧ e.value.length ≤ 100 then 3 else 0
  let words := pySplitWs e.value
  let capScore : Int :=
    if !words.isEmpty && isUpperCh (headCh (words.headD [])) then 2 else 0
  confScore + kwScore + lenScore + capScore

/-- `_scoreLocationEntity`. -/
def scoreLocationEntityI (e : ExtractedEntity) : Int :=
  let confScore : Int :=
    match e.confidence with
    | .HIGH => 10 | .MEDIUM => 6 | .LOW => 2 | .UNKNOWN => 0
  let fmtScore : Int := if containsSub [44] e.value then 5 else 0
  let lenScore : Int := if 3 ≤ e.value.length ∧ e.value.length ≤ 50 then 3 else 0
  let capScore : Int :=
    if (pySplitWs e.value).all (fun w => isUpperCh (headCh w)) then 2 else 0
  confScore + fmtScore + lenScore + capScore

/-- The format pattern of `_scoreDateEntity`. -/
def dateFormatScoreRe : RE :=
  .alt
    (.grp 1 (seqList [repRange 1 2 reDigit, slashDash, repRange 1 2 reDigit,
      slashDash, repRange 2 4 reDigit]))
    (.grp 2 (seqList [plus reLetter, lit 32, repRange 1 2 reDigit, qmark (lit 44),
      lit 32, powRe 4 reDigit]))

/-- `_scoreDateEntity` (`datetime.now().year` is the parameter
`currentYear`). -/
def scoreDateEntityI (currentYear : Nat) (e : ExtractedEntity) : Int :=
  let confScore : Int :=
    match e.confidence with
    | .HIGH => 10 | .MEDIUM => 6 | .LOW => 2 | .UNKNOWN => 0
  let yearScore : Int := if (reSearch reFourDigits e.value).isSome then 5 else 0
  let recentScore : Int :=
    if containsSub (natDecimal currentYear) e.value ||
        containsSub (natDecimal (currentYear + 1)) e.value then 3 else 0
  let fmtScore : Int := if (reSearch dateFormatScoreRe e.value).isSome then 2 else 0
  confScore + yearScore + recentScore + fmtScore

/-- One step of the stable descending sort
`scoredEntities.sort(key=lambda x: x[1], reverse=True)`. -/
def insertDescBy (f : ExtractedEntity → Int) (e : ExtractedEntity) :
    List ExtractedEntity → List ExtractedEntity
  | [] => [e]
  | x :: xs => if f e ≥ f x then e :: x :: xs else x :: insertDescBy f e xs

/-- Stable descending sort by score. -/
def sortDescBy (f : ExtractedEntity → Int) (l : List ExtractedEntity) :
    List ExtractedEntity := l.foldr (insertDescBy f) []

/-- `_selectBestPersonEntity`. -/
def selectBestPersonEntity (entities : List ExtractedEntity) : Option ExtractedEntity :=
  if entities = [] then none else (sortDescBy scorePersonEntityI entities).head?

/-- `_selectBestEventEntity`. -/
def selectBestEventEntity (entities : List ExtractedEntity) : Option ExtractedEntity :=
  if entities = [] then none else (sortDescBy scoreEventEntityI entities).head?

/-- `_selectBestLocationEntity`. -/
def selectBestLocationEntity (entities : List ExtractedEntity) : Option ExtractedEntity :=
  if entities = [] then none else (sortDescBy scoreLocationEntityI entities).head?

/-- `_selectBestDateEntity`. -/
def selectBestDateEntity (currentYear : Nat) (entities : List ExtractedEntity) :
    Option ExtractedEntity :=
  if entities = [] then none
  else (sortDescBy (scoreDateEntityI currentYear) entities).head?

/-- `_processPersonEntities`. -/
def processPersonEntities (personEntities : List ExtractedEntity) : Option (List Nat) :=
  if personEntities = [] then none
  else
    match selectBestPersonEntity personEntities with
    | some best =>
      if validatePersonNameProc best.value then some (cleanAndFormatPersonName best.value)
      else none
    | none => none

/-- `_processEventEntities`. -/
def processEventEntities (eventEntities : List ExtractedEntity) : Option (List Nat) :=
  if eventEntities = [] then none
  else
    match selectBestEventEntity eventEntities with
    | some best =>
      if validateEventNameProc best.value then some (cleanAndFormatEventName best.value)
      else none
    | none => none

/-- `_processLocationEntities`. -/
def processLocationEntities (locationEntities : List ExtractedEntity) : Option (List Nat) :=
  if locationEntities = [] then none
  else
    match selectBestLocationEntity locationEntities with
    | some best =>
      if validateLocationNameProc best.value then some (cleanAndFormatLocationName best.value)
      else none
    | none => none

/-- `_processDateEntities`. -/
def processDateEntities (currentYear : Nat) (dateEntities : List ExtractedEntity) :
    Option (List Nat) :=
  if dateEntities = [] then none
  else
    match selectBestDateEntity currentYear dateEntities with
    | some best =>
      if validateDateFormatProc best.value then some (cleanAndFormatDate best.value)
      else none
    | none => none

/-- Strip a trailing run of sentence punctuation:
`re.sub(r'[.!?]+$', '', s)`. -/
def stripTrailPunct (s : List Nat) : List Nat :=
  (s.reverse.dropWhile (fun c => decide (c = 46 ∨ c = 33 ∨ c = 63))).reverse

/-- First `some` in a list of attempts (the `for pattern: ... return`
loop shape of the fallback extractors). -/
def firstSome : List (Option (List Nat)) → Option (List Nat)
  | [] => none
  | x :: xs =>
    match x with
    | some v => some v
    | none => firstSome xs

/-- `_extractNameFallback` pattern 1 (IGNORECASE):
`(?:name|participant|attendee)\s*:\s*([A-Z][a-z]+\s+[A-Z][a-z]+)`. -/
def nameFallback1 : RE :=
  seqList [altList [strCI (codes "name"), strCI (codes "participant"),
      strCI (codes "attendee")],
    .star true reWs, lit 58, .star true reWs,
    .grp 1 (seqList [upperWordCI, wsPlus, upperWordCI])]

/-- `_extractNameFallback` pattern 2 (IGNORECASE):
`\b([A-Z][a-z]+\s+[A-Z][a-z]+)\s+(?:registered|signed up|enrolled)`. -/
def nameFallback2 : RE :=
  seqList [.wb, .grp 1 (seqList [upperWordCI, wsPlus, upperWordCI]), wsPlus,
    altList [strCI (codes "registered"), strCI (codes "signed up"),
      strCI (codes "enrolled")]]

/-- `_extractNameFallback` pattern 3 (IGNORECASE):
`(?:Mr|Mrs|Ms|Dr)\.?\s+([A-Z][a-z]+\s+[A-Z][a-z]+)`. -/
def nameFallback3 : RE :=
  seqList [altList [strCI (codes "Mr"), strCI (codes "Mrs"), strCI (codes "Ms"),
      strCI (codes "Dr")],
    qmark (lit 46), wsPlus, .grp 1 (seqList [upperWordCI, wsPlus, upperWordCI])]

/-- One fallback attempt shared by `_extractNameFallback`'s loop body. -/
def tryNameFallback (pat : RE) (text : List Nat) : Option (List Nat) :=
  match reSearch pat text with
  | some m =>
    match capLookup 1 m.2.2 with
    | some (gs, ge) =>
      let name := pyStrip (sliceN text gs ge)
      if validatePersonNameProc name then some (cleanAndFormatPersonName name) else none
    | none => none
  | none => none

/-- `_extractNameFallback`. -/
def extractNameFallback (text : List Nat) : Option (List Nat) :=
  firstSome ([nameFallback1, nameFallback2, nameFallback3].map
    (fun p => tryNameFallback p text))

/-- `_extractEventFallback` pattern 1 (IGNORECASE): a quoted event name. -/
def eventFallback1 : RE :=
  seqList [lit 34,
    .grp 1 (seqList [.star true (.cls (fun c => decide (¬ c = 34))),
      altList [strCI (codes "conference"), strCI (codes "summit"),
        strCI (codes "workshop"), strCI (codes "meetup"), strCI (codes "expo"),
        strCI (codes "convention")],
      .star true (.cls (fun c => decide (¬ c = 34)))]),
    lit 34]

/-- `_extractEventFallback` pattern 2 (IGNORECASE):
`(?:event|conference|summit)\s*:\s*([A-Z][^.!?]*?)(?:\.|$)`. -/
def eventFallback2 : RE :=
  seqList [altList [strCI (codes "event"), strCI (codes "conference"),
      strCI (codes "summit")],
    .star true reWs, lit 58, .star true reWs,
    .grp 1 (.seq reLetter
      (.star false (.cls (fun c => decide (¬ (c = 46 ∨ c = 33 ∨ c = 63)))))),
    .alt (lit 46) .eos]

/-- `_extractEventFallback` pattern 3 (IGNORECASE):
`(?:attending|joining)\s+(?:the\s+)?([A-Z][^.!?]*?(?:conference|summit|workshop|meetup|expo))`. -/
def eventFallback3 : RE :=
  seqList [altList [strCI (codes "attending"), strCI (codes "joining")], wsPlus,
    qmark (.seq (strCI (codes "the")) wsPlus),
    .grp 1 (seqList [reLetter,
      .star false (.cls (fun c => decide (¬ (c = 46 ∨ c = 33 ∨ c = 63)))),
      altList [strCI (codes "conference"), strCI (codes "summit"),
        strCI (codes "workshop"), strCI (codes "meetup"), strCI (codes "expo")]])]

/-- One fallback attempt of `_extractEventFallback`'s loop body. -/
def tryEventFallback (pat : RE) (text : List Nat) : Option (List Nat) :=
  match reSearch pat text with
  | some m =>
    match capLookup 1 m.2.2 with
    | some (gs, ge) =>
      let eventName := pyStrip (sliceN text gs ge)
      if validateEventNameProc eventName then some (cleanAndFormatEventName eventName)
      else none
    | none => none
  | none => none

/-- `_extractEventFallback`. -/
def extractEventFallback (text : List Nat) : Option (List Nat) :=
  firstSome ([eventFallback1, eventFallback2, eventFallback3].map
    (fun p => tryEventFallback p text))

/-- `[a-zA-Z\s,]` of the location fallback patterns. -/
def locCharCls : RE := .cls (fun c => isLetterCh c || isPySpace c || decide (c = 44))

/-- `_extractLocationFallback` pattern 1 (case-sensitive):
`(?:location|venue|city|place)\s*:\s*([A-Z][a-zA-Z\s,]+)`. -/
def locFallback1 : RE :=
  seqList [altList [strRe (codes "location"), strRe (codes "venue"),
      strRe (codes "city"), strRe (codes "place")],
    .star true reWs, lit 58, .star true reWs,
    .grp 1 (.seq reUpper (plus locCharCls))]

/-- `_extractLocationFallback` pattern 2 (case-sensitive):
`(?:held|taking place|happening|located)\s+(?:in|at)\s+([A-Z][a-zA-Z\s,]+)`. -/
def locFallback2 : RE :=
  seqList [altList [strRe (codes "held"), strRe (codes "taking place"),
      strRe (codes "happening"), strRe (codes "located")],
    wsPlus, altList [strRe (codes "in"), strRe (codes "at")], wsPlus,
    .grp 1 (.seq reUpper (plus locCharCls))]

/-- `_extractLocationFallback` pattern 3 (case-sensitive):
`\b([A-Z][a-z]+,\s*[A-Z][a-z]+)\b`. -/
def locFallback3 : RE :=
  seqList [.wb, .grp 1 (seqList [upperWord, lit 44, .star true reWs, upperWord]), .wb]

/-- One fallback attempt of `_extractLocationFallback`'s loop body. -/
def tryLocFallback (pat : RE) (text : List Nat) : Option (List Nat) :=
  match reSearch pat text with
  | some m =>
    match capLookup 1 m.2.2 with
    | some (gs, ge) =>
      let location := stripTrailPunct (pyStrip (sliceN text gs ge))
      if validateLocationNameProc location then some (cleanAndFormatLocationName location)
      else none
    | none => none
  | none => none

/-- `_extractLocationFallback`. -/
def extractLocationFallback (text : List Nat) : Option (List Nat) :=
  firstSome ([locFallback1, locFallback2, locFallback3].map
    (fun p => tryLocFallback p text))

/-- The letters-digits-whitespace-comma-slash-dash class of the date fallback patterns. -/
def dateCharCls : RE :=
  .cls (fun c => isLetterCh c || decide (48 ≤ c ∧ c ≤ 57) || isPySpace c ||
    decide (c = 44) || decide (c = 47) || decide (c = 45))

/-- `_extractDateFallback` pattern 1 (IGNORECASE):
colon-anchored date text (letters, digits, whitespace, comma, slash, dash). -/
def dateFallback1 : RE :=
  seqList [altList [strCI (codes "date"), strCI (codes "when"),
      strCI (codes "scheduled"), strCI (codes "happening")],
    .star true reWs, lit 58, .star true reWs, .grp 1 (plus dateCharCls)]

/-- `_extractDateFallback` pattern 2 (IGNORECASE):
`starts|begins|commences` then optional `on` then date text (letters, digits, whitespace, comma, slash, dash). -/
def dateFallback2 : RE :=
  seqList [altList [strCI (codes "starts"), strCI (codes "begins"),
      strCI (codes "commences")],
    wsPlus, qmark (.seq (strCI (codes "on")) wsPlus), .grp 1 (plus dateCharCls)]

/-- `_extractDateFallback` pattern 3 (IGNORECASE):
`\b((?:Jan|...|Dec)[a-z]*\s+\d{1,2},?\s+\d{4})\b`. -/
def dateFallback3 : RE :=
  seqList [.wb,
    .grp 1 (seqList [monthsAltCI, .star true reLetter, wsPlus,
      repRange 1 2 reDigit, qmark (lit 44), wsPlus, powRe 4 reDigit]),
    .wb]

/-- One fallback attempt of `_extractDateFallback`'s loop body. -/
def tryDateFallback (pat : RE) (text : List Nat) : Option (List Nat) :=
  match reSearch pat text with
  | some m =>
    match capLookup 1 m.2.2 with
    | some (gs, ge) =>
      let date := stripTrailPunct (pyStrip (sliceN text gs ge))
      if validateDateFormatProc date then some (cleanAndFormatDate date) else none
    | none => none
  | none => none

/-- `_extractDateFallback`. -/
def extractDateFallback (text : List Nat) : Option (List Nat) :=
  firstSome ([dateFallback1, dateFallback2, dateFallback3].map
    (fun p => tryDateFallback p text))

/-- `_postProcessInformation`: fill each still-unset field from its
fallback extractor, then recalculate the overall confidence. -/
def postProcessInformation (info : EventRegistrationInfo) (originalText : List Nat) :
    EventRegistrationInfo :=
  let i1 :=
    if truthyField info.participantName then info
    else { info with participantName := extractNameFallback originalText }
  let i2 :=
    if truthyField i1.eventName then i1
    else { i1 with eventName := extractEventFallback originalText }
  let i3 :=
    if truthyField i2.location then i2
    else { i2 with location := extractLocationFallback originalText }
  let i4 :=
    if truthyField i3.date then i3
    else { i3 with date := extractDateFallback originalText }
  { i4 with overallConfidence := calculateOverallConfidence i4 }

/-- The entities of one type, in order (`_groupEntitiesByType` groups into
a dict keyed by type, preserving append order). -/
def entitiesOfType (ty : EntityType) (es : List ExtractedEntity) : List ExtractedEntity :=
  es.filter (fun e => e.entityType = ty)

/-- `processExtractedEntities` (`datetime.now().year` of the date scorer
is the parameter `currentYear`). -/
def processExtractedEntities (currentYear : Nat) (entities : List ExtractedEntity)
    (originalText : List Nat) : EventRegistrationInfo :=
  if entities = [] then { originalText := originalText }
  else
    let persons := entitiesOfType .PERSON entities
    let events := entitiesOfType .EVENT entities
    let locations := entitiesOfType .LOCATION entities
    let dates := entitiesOfType .DATE entities
    let info : EventRegistrationInfo :=
      { originalText := originalText
        extractedEntities := entities
        participantName := if persons = [] then none else processPersonEntities persons
        eventName := if events = [] then none else processEventEntities events
        location := if locations = [] then none else processLocationEntities locations
        date := if dates = [] then none else processDateEntities currentYear dates }
    let info2 := { info with overallConfidence := calculateOverallConfidence info }
    postProcessInformation info2 originalText

/-- Steps 2 and 3 of `extractInformation`: entity extraction on the
preprocessed text, information processing against the original text. -/
def extractionPipeline (currentYear : Nat) (preprocessedText originalText : List Nat) :
    EventRegistrationInfo :=
  processExtractedEntities currentYear
    (extractionEntities (extractEntitiesRun preprocessedText)) originalText

/-! ### C2: the demo sentence loses its event name -/

/-- The original input of the claimed scenario (also the sample text of
the frontend). -/
def origC2 : List Nat :=
  codes "Dr. Sarah Johnson registered for the International AI Conference 2025 taking place in San Francisco, California on March 15, 2025."

/-- `preprocessText` applied to `origC2` (hand-traced through
`text_process.py`): `cleanText` changes nothing, `normalizeText`
lowercases and abbreviates `march` to `mar`, and
`_enhanceKeywordContext` wraps the registration verb and the event-type
keyword in `REG_ACTION` and `EVENT_TYPE` brackets; the error-fixing and
formatting passes change nothing further. -/
def processedC2 : List Nat :=
  codes "dr. sarah johnson [REG_ACTION]registered[/REG_ACTION] for the international ai [EVENT_TYPE]conference[/EVENT_TYPE] 2025 taking place in san francisco, california on mar 15, 2025."

/-- The one person entity the extractor finds in `processedC2` (from the
contextual strategy, the three case-sensitive person patterns being
defeated by the lowercased text). -/
def c2PersonEntity : ExtractedEntity :=
  ⟨.PERSON, codes "sarah johnson", .HIGH, 4, 17, codes "sarah johnson"⟩

/-- The one date entity the extractor finds in `processedC2`. -/
def c2DateEntity : ExtractedEntity :=
  ⟨.DATE, codes "mar 15, 2025", .HIGH, 162, 177, codes "on mar 15, 2025"⟩

set_option maxRecDepth 1000000 in
unseal Rat.mul Rat.inv Rat.add Rat.sub in
/-- C2: on the claimed scenario input, the pipeline (entity extraction on
the preprocessed text, processing against the original text) produces NO
event name at all: the preprocessing lowercases the text, which defeats
the case-sensitive event patterns, and brackets `registered` and
`conference` with tag markers, which defeats the case-insensitive event
patterns and the contextual rules; the event fallback finds no quoted,
colon-anchored or `attending|joining` event phrase in the original text
either, so `eventName` is `None` — the claim instead requires an event
name containing "Conference" and "2025".  The other four claimed outputs
are as claimed (the participant, the location containing "San Francisco",
the date "March 15, 2025", and HIGH overall confidence), for every value
of the wall-clock year used by the date scorer. -/
theorem pipeline_c2_loses_event_name (currentYear : Nat) :
    extractEntitiesRun processedC2 = .success [c2PersonEntity, c2DateEntity] ∧
    (extractionPipeline currentYear processedC2 origC2).participantName =
      some (codes "Sarah Johnson") ∧
    (extractionPipeline currentYear processedC2 origC2).eventName = none ∧
    (extractionPipeline currentYear processedC2 origC2).location =
      some (codes "San Francisco, California On March") ∧
    (extractionPipeline currentYear processedC2 origC2).date =
      some (codes "March 15, 2025") ∧
    (extractionPipeline currentYear processedC2 origC2).overallConfidence = .HIGH := by
  have hrun : extractEntitiesRun processedC2 = .success [c2PersonEntity, c2DateEntity] := rfl
  have hpipe : extractionPipeline currentYear processedC2 origC2 =
      { participantName := some (codes "Sarah Johnson"),
        eventName := none,
        location := some (codes "San Francisco, California On March"),
        date := some (codes "March 15, 2025"),
        extractedEntities := [c2PersonEntity, c2DateEntity],
        originalText := origC2,
        overallConfidence := .HIGH } := by
    unfold extractionPipeline
    rw [hrun]
    have h0 : processExtractedEntities currentYear
        (extractionEntities (ExtractionOutcome.success [c2PersonEntity, c2DateEntity]))
        origC2 =
      processExtractedEntities 0
        (extractionEntities (ExtractionOutcome.success [c2PersonEntity, c2DateEntity]))
        origC2 := rfl
    rw [h0]
    rfl
  exact ⟨hrun, by rw [hpipe], by rw [hpipe], by rw [hpipe], by rw [hpipe], by rw [hpipe]⟩

/-! ### C8: the fallback pass only fills unset fields -/

/-- C8: for every record and original text, `_postProcessInformation`
leaves every already-set (truthy) field unchanged — the fallback
extractors only run for fields that are still unset, so each field is
assigned at most once across the primary and fallback passes. -/
theorem post_process_preserves_set_fields (info : EventRegistrationInfo)
    (originalText : List Nat) :
    (truthyField info.participantName = true →
      (postProcessInformation info originalText).participantName = info.participantName) ∧
    (truthyField info.eventName = true →
      (postProcessInformation info originalText).eventName = info.eventName) ∧
    (truthyField info.location = true →
      (postProcessInformation info originalText).location = info.location) ∧
    (truthyField info.date = true →
      (postProcessInformation info originalText).date = info.date) := by
  unfold postProcessInformation
  refine ⟨fun h => ?_, fun h => ?_, fun h => ?_, fun h => ?_⟩ <;>
  · cases hp : truthyField info.participantName <;>
      cases he : truthyField info.eventName <;>
        cases hl : truthyField info.location <;>
          cases hd : truthyField info.date <;>
            simp_all

/-- A record with all four fields set, for the C8 witness. -/
def c8Info : EventRegistrationInfo :=
  { participantName := some (codes "John Smith"),
    eventName := some (codes "AI Summit 2025"),
    location := some (codes "Berlin"),
    date := some (codes "March 15, 2025") }

/-- C8 witness: on a concrete fully-set record the fallback pass changes
no field. -/
theorem post_process_preserves_set_fields_witness :
    (postProcessInformation c8Info []).participantName = c8Info.participantName ∧
    (postProcessInformation c8Info []).eventName = c8Info.eventName ∧
    (postProcessInformation c8Info []).location = c8Info.location ∧
    (postProcessInformation c8Info []).date = c8Info.date := by
  have h := post_process_preserves_set_fields c8Info []
  exact ⟨h.1 (by decide), h.2.1 (by decide), h.2.2.1 (by decide), h.2.2.2 (by decide)⟩

/-! ### C6: the candidate generator never fails and yields well-formed
entities -/

/-- The head of a `dropWhile` result never satisfies the predicate. -/
theorem dropWhile_head_not {p : Nat → Bool} :
    ∀ (l : List Nat) (c : Nat), (l.dropWhile p).head? = some c → p c = false := by
  intro l
  induction l with
  | nil => intro c h; simp at h
  | cons d t ih =>
    intro c h
    rw [List.dropWhile_cons] at h
    by_cases hp : p d = true
    · rw [if_pos hp] at h
      exact ih c h
    · rw [if_neg hp] at h
      simp at h
      rw [← h]
      exact Bool.of_not_eq_true hp

/-- A nonempty `dropWhile` result keeps the last element. -/
theorem getLast?_dropWhile {p : Nat → Bool} :
    ∀ (l : List Nat), l.dropWhile p ≠ [] → (l.dropWhile p).getLast? = l.getLast? := by
  intro l
  induction l with
  | nil => intro h; simp at h
  | cons d t ih =>
    intro h
    rw [List.dropWhile_cons]
    by_cases hp : p d = true
    · rw [List.dropWhile_cons, if_pos hp] at h
      rw [if_pos hp, ih h]
      cases ht : t with
      | nil => rw [ht] at h; simp at h
      | cons e r => rw [List.getLast?_cons_cons]
    · rw [if_neg hp]

/-- `strip` is idempotent. -/
theorem pyStrip_idem (s : List Nat) : pyStrip (pyStrip s) = pyStrip s := by
  apply pyStrip_eq_self
  · intro c hc
    unfold pyStrip at hc
    rw [List.head?_reverse] at hc
    have hne : (s.dropWhile isPySpace).reverse.dropWhile isPySpace ≠ [] := by
      intro he
      rw [he] at hc
      simp at hc
    rw [getLast?_dropWhile _ hne, List.getLast?_reverse] at hc
    exact dropWhile_head_not s c hc
  · intro c hc
    unfold pyStrip at hc
    rw [List.getLast?_reverse] at hc
    exact dropWhile_head_not _ c hc

/-- Well-formedness of an extracted entity: a nonempty span, and a value
that is neither empty nor whitespace-only. -/
def entOK (ent : ExtractedEntity) : Prop :=
  ent.startPosition < ent.endPosition ∧ ent.value ≠ [] ∧ pyStrip ent.value ≠ []

/-- Entity construction succeeds on a stripped nonempty value and an
ordered span. -/
theorem mkExtractedEntity_ok (ty : EntityType) (v : List Nat)
    (cf : ExtractionConfidence) (s e : Int) (o : List Nat)
    (hsv : pyStrip v ≠ []) (hs : 0 ≤ s) (hse : s ≤ e) :
    mkExtractedEntity ty v cf s e o = .ok ⟨ty, v, cf, s, e, o⟩ := by
  have hv : v ≠ [] := by
    intro h
    exact hsv (by rw [h]; rfl)
  unfold mkExtractedEntity entityInitError
  dsimp only
  rw [if_neg (by tauto), if_neg (by omega)]

/-- If every element of the construction list is a successful
well-formed construction, the collected result is the successful list of
well-formed entities. -/
theorem collectExcept_ok :
    ∀ (l : List (Except (List Nat) ExtractedEntity)),
    (∀ x ∈ l, ∃ ent, x = .ok ent ∧ entOK ent) →
    ∃ es, collectExcept l = .ok es ∧ ∀ e ∈ es, entOK e := by
  intro l
  induction l with
  | nil => intro _; exact ⟨[], rfl, by simp⟩
  | cons x xs ih =>
    intro h
    obtain ⟨ent, hx, hok⟩ := h x (List.mem_cons_self x xs)
    obtain ⟨es, hxs, hesok⟩ := ih (fun y hy => h y (List.mem_cons_of_mem x hy))
    refine ⟨ent :: es, ?_, ?_⟩
    · unfold collectExcept
      rw [hx, hxs]
    · intro e he
      rcases List.mem_cons.mp he with he | he
      · rw [he]; exact hok
      · exact hesok e he

/-- The inner scan of the resolver only emits accepted or candidate
entities. -/
theorem resolverScan_mem (cleaned : List ExtractedEntity)
    (entity : ExtractedEntity) :
    ∀ (l : List ExtractedEntity) (x : ExtractedEntity),
    x ∈ resolverScan cleaned entity l → x ∈ cleaned ∨ x = entity := by
  intro l
  induction l with
  | nil =>
    intro x h
    unfold resolverScan at h
    rcases List.mem_append.mp h with h | h
    · exact Or.inl h
    · exact Or.inr (List.mem_singleton.mp h)
  | cons y ys ih =>
    intro x h
    unfold resolverScan at h
    split_ifs at h with h1 h2
    · rcases List.mem_append.mp h with h | h
      · exact Or.inl (List.mem_of_mem_erase h)
      · exact Or.inr (List.mem_singleton.mp h)
    · exact Or.inl h
    · exact ih x h

/-- The resolver fold only emits entities from the accumulator or the
input list. -/
theorem foldl_resolverStep_mem :
    ∀ (l acc : List ExtractedEntity) (x : ExtractedEntity),
    x ∈ l.foldl resolverStep acc → x ∈ acc ∨ x ∈ l := by
  intro l
  induction l with
  | nil => intro acc x h; exact Or.inl h
  | cons y ys ih =>
    intro acc x h
    rw [List.foldl_cons] at h
    rcases ih (resolverStep acc y) x h with h2 | h2
    · rcases resolverScan_mem acc y acc x h2 with h3 | h3
      · exact Or.inl h3
      · exact Or.inr (by rw [h3]; exact List.mem_cons_self y ys)
    · exact Or.inr (List.mem_cons_of_mem y h2)

/-- Sorting preserves membership. -/
theorem sortByStart_mem (l : List ExtractedEntity) (x : ExtractedEntity)
    (h : x ∈ sortByStart l) : x ∈ l := by
  induction l with
  | nil => exact h
  | cons y ys ih =>
    unfold sortByStart at h
    rw [List.foldr_cons] at h
    rcases (insertByStart_mem y (sortByStart ys) x).mp h with h2 | h2
    · rw [h2]; exact List.mem_cons_self y ys
    · exact List.mem_cons_of_mem y (ih h2)

/-- The resolver output is a subset of its input. -/
theorem removeDuplicatesAndOverlaps_mem (l : List ExtractedEntity)
    (x : ExtractedEntity) (h : x ∈ removeDuplicatesAndOverlaps l) : x ∈ l := by
  unfold removeDuplicatesAndOverlaps at h
  split_ifs at h with h1
  · exact h
  · rcases foldl_resolverStep_mem (sortByStart l) [] x h with h2 | h2
    · simp at h2
    · exact sortByStart_mem l x h2

/-- Context enhancement only rewrites the confidence field. -/
theorem enhanceEntity_fields (text : List Nat) (e : ExtractedEntity) :
    (enhanceEntity text e).startPosition = e.startPosition ∧
    (enhanceEntity text e).endPosition = e.endPosition ∧
    (enhanceEntity text e).value = e.value := by
  unfold enhanceEntity
  split_ifs <;> exact ⟨rfl, rfl, rfl⟩

/-- A validated person name is nonempty. -/
theorem validatePersonNameNER_ne (name : List Nat)
    (h : validatePersonNameNER name = true) : name ≠ [] := by
  intro he
  unfold validatePersonNameNER at h
  rw [if_pos (Or.inl he)] at h
  exact Bool.false_ne_true h

/-- A validated event name is nonempty. -/
theorem validateEventNameNER_ne (eventName : List Nat)
    (h : validateEventNameNER eventName = true) : eventName ≠ [] := by
  intro he
  unfold validateEventNameNER at h
  rw [if_pos (Or.inl he)] at h
  exact Bool.false_ne_true h

/-- Strip-idempotence turned into the nonemptiness fact used by the
entity constructions: a nonempty already-stripped value is not
whitespace-only. -/
theorem stripped_value_ok (x : List Nat) (v : List Nat) (hv : v = pyStrip x)
    (hne : v ≠ []) : pyStrip v ≠ [] := by
  rw [hv, pyStrip_idem]
  rw [hv] at hne
  exact hne

/-- The pattern strategy of `_extractPersonNames` only builds successful
well-formed entities. -/
theorem extractPersonNamesPattern_ok (text : List Nat) :
    ∀ x ∈ extractPersonNamesPattern text, ∃ ent, x = .ok ent ∧ entOK ent := by
  intro x hx
  unfold extractPersonNamesPattern at hx
  rw [List.mem_flatMap] at hx
  obtain ⟨pat, hpat, hx⟩ := hx
  rw [List.mem_filterMap] at hx
  obtain ⟨m, hm, hf⟩ := hx
  have hstrict : strictB pat = true := by
    simp only [List.mem_cons, List.not_mem_nil, or_false] at hpat
    rcases hpat with h | h | h <;> subst h <;> rfl
  have hlt := finditer_strict pat text hstrict m hm
  dsimp only at hf
  by_cases hv : validatePersonNameNER (pyStrip (sliceN text m.1 m.2.1)) = true
  · rw [if_pos hv] at hf
    obtain hfx := Option.some.inj hf
    have hsv := stripped_value_ok (sliceN text m.1 m.2.1) _ rfl
      (validatePersonNameNER_ne _ hv)
    refine ⟨⟨.PERSON, pyStrip (sliceN text m.1 m.2.1),
      calculatePersonNameConfidence (pyStrip (sliceN text m.1 m.2.1)),
      (m.1 : Int), (m.2.1 : Int), sliceN text m.1 m.2.1⟩, ?_, ?_, ?_, ?_⟩
    · rw [← hfx]
      exact mkExtractedEntity_ok _ _ _ _ _ _ hsv (Int.natCast_nonneg _)
        (by exact_mod_cast Nat.le_of_lt hlt)
    · show (m.1 : Int) < (m.2.1 : Int)
      exact_mod_cast hlt
    · exact validatePersonNameNER_ne _ hv
    · exact hsv
  · rw [if_neg hv] at hf
    exact absurd hf (by simp)

/-- The contextual strategy of `_extractPersonNames` only builds
successful well-formed entities. -/
theorem extractPersonNamesFromContext_ok (text : List Nat) :
    ∀ x ∈ extractPersonNamesFromContext text, ∃ ent, x = .ok ent ∧ entOK ent := by
  intro x hx
  unfold extractPersonNamesFromContext at hx
  rw [List.mem_flatMap] at hx
  obtain ⟨pat, hpat, hx⟩ := hx
  rw [List.mem_filterMap] at hx
  obtain ⟨m, hm, hf⟩ := hx
  have hgrp : grpStrictB pat = true := by
    simp only [List.mem_cons, List.not_mem_nil, or_false] at hpat
    rcases hpat with h | h | h | h <;> subst h <;> rfl
  rcases hcl : capLookup 1 m.2.2 with _ | ⟨gs, ge⟩
  · rw [hcl] at hf
    exact absurd hf (by simp)
  · rw [hcl] at hf
    dsimp only at hf
    have hglt : gs < ge :=
      finditer_caps pat text hgrp m hm (1, gs, ge) (capLookup_mem 1 m.2.2 gs ge hcl)
    by_cases hv : validatePersonNameNER (pyStrip (sliceN text gs ge)) = true
    · rw [if_pos hv] at hf
      obtain hfx := Option.some.inj hf
      have hsv := stripped_value_ok (sliceN text gs ge) _ rfl
        (validatePersonNameNER_ne _ hv)
      refine ⟨⟨.PERSON, pyStrip (sliceN text gs ge), .HIGH,
        (gs : Int), (ge : Int), pyStrip (sliceN text gs ge)⟩, ?_, ?_, ?_, ?_⟩
      · rw [← hfx]
        exact mkExtractedEntity_ok _ _ _ _ _ _ hsv (Int.natCast_nonneg _)
          (by exact_mod_cast Nat.le_of_lt hglt)
      · show (gs : Int) < (ge : Int)
        exact_mod_cast hglt
      · exact validatePersonNameNER_ne _ hv
      · exact hsv
    · rw [if_neg hv] at hf
      exact absurd hf (by simp)

/-- The pattern strategy of `_extractEventNames` only builds successful
well-formed entities. -/
theorem extractEventNamesPattern_ok (text : List Nat) :
    ∀ x ∈ extractEventNamesPattern text, ∃ ent, x = .ok ent ∧ entOK ent := by
  intro x hx
  unfold extractEventNamesPattern at hx
  rw [List.mem_flatMap] at hx
  obtain ⟨pat, hpat, hx⟩ := hx
  rw [List.mem_filterMap] at hx
  obtain ⟨m, hm, hf⟩ := hx
  have hstrict : strictB pat = true := by
    simp only [List.mem_cons, List.not_mem_nil, or_false] at hpat
    rcases hpat with h | h | h <;> subst h <;> rfl
  have hlt := finditer_strict pat text hstrict m hm
  dsimp only at hf
  by_cases hv : validateEventNameNER (pyStrip (sliceN text m.1 m.2.1)) = true
  · rw [if_pos hv] at hf
    obtain hfx := Option.some.inj hf
    have hsv := stripped_value_ok (sliceN text m.1 m.2.1) _ rfl
      (validateEventNameNER_ne _ hv)
    refine ⟨⟨.EVENT, pyStrip (sliceN text m.1 m.2.1),
      calculateEventNameConfidence (pyStrip (sliceN text m.1 m.2.1)) text,
      (m.1 : Int), (m.2.1 : Int), sliceN text m.1 m.2.1⟩, ?_, ?_, ?_, ?_⟩
    · rw [← hfx]
      exact mkExtractedEntity_ok _ _ _ _ _ _ hsv (Int.natCast_nonneg _)
        (by exact_mod_cast Nat.le_of_lt hlt)
    · show (m.1 : Int) < (m.2.1 : Int)
      exact_mod_cast hlt
    · exact validateEventNameNER_ne _ hv
    · exact hsv
  · rw [if_neg hv] at hf
    exact absurd hf (by simp)

/-- Case-insensitive literal strings contain no capture group. -/
theorem grpStrictB_strCI (v : List Nat) : grpStrictB (strCI v) = true := by
  induction v with
  | nil => rfl
  | cons c t ih =>
    have h : grpStrictB (strCI (c :: t)) = grpStrictB (strCI t) := rfl
    rw [h, ih]

/-- The per-verb event context pattern has only strict capture groups,
whatever the verb. -/
theorem eventContextPattern_grpStrict (verb : List Nat) :
    grpStrictB (eventContextPattern verb) = true := by
  have h : grpStrictB (eventContextPattern verb) =
      (grpStrictB (strCI verb) &&
        grpStrictB (seqList [wsPlus, qmark (.seq (strCI (codes "for")) wsPlus),
          qmark (.seq (strCI (codes "the")) wsPlus),
          .grp 1 (seqList [reLetter,
            .star false (.cls (fun c => decide (¬ (c = 46 ∨ c = 33 ∨ c = 63)))),
            ecTypeAltCI])])) := rfl
  rw [h, grpStrictB_strCI]
  rfl

/-- The contextual strategy of `_extractEventNames` only builds
successful well-formed entities. -/
theorem extractEventNamesFromContext_ok (text : List Nat) :
    ∀ x ∈ extractEventNamesFromContext text, ∃ ent, x = .ok ent ∧ entOK ent := by
  intro x hx
  unfold extractEventNamesFromContext at hx
  rw [List.mem_flatMap] at hx
  obtain ⟨verb, hverb, hx⟩ := hx
  rw [List.mem_filterMap] at hx
  obtain ⟨m, hm, hf⟩ := hx
  rcases hcl : capLookup 1 m.2.2 with _ | ⟨gs, ge⟩
  · rw [hcl] at hf
    exact absurd hf (by simp)
  · rw [hcl] at hf
    dsimp only at hf
    have hglt : gs < ge :=
      finditer_caps (eventContextPattern verb) text
        (eventContextPattern_grpStrict verb) m hm (1, gs, ge)
        (capLookup_mem 1 m.2.2 gs ge hcl)
    by_cases hv : validateEventNameNER (pyStrip (sliceN text gs ge)) = true
    · rw [if_pos hv] at hf
      obtain hfx := Option.some.inj hf
      have hsv := stripped_value_ok (sliceN text gs ge) _ rfl
        (validateEventNameNER_ne _ hv)
      refine ⟨⟨.EVENT, pyStrip (sliceN text gs ge), .HIGH,
        (gs : Int), (ge : Int), pyStrip (sliceN text gs ge)⟩, ?_, ?_, ?_, ?_⟩
      · rw [← hfx]
        exact mkExtractedEntity_ok _ _ _ _ _ _ hsv (Int.natCast_nonneg _)
          (by exact_mod_cast Nat.le_of_lt hglt)
      · show (gs : Int) < (ge : Int)
        exact_mod_cast hglt
      · exact validateEventNameNER_ne _ hv
      · exact hsv
    · rw [if_neg hv] at hf
      exact absurd hf (by simp)

/-- `_extractLocations` only builds successful well-formed entities. -/
theorem extractLocations_ok (text : List Nat) :
    ∀ x ∈ extractLocations text, ∃ ent, x = .ok ent ∧ entOK ent := by
  intro x hx
  unfold extractLocations at hx
  rw [List.mem_flatMap] at hx
  obtain ⟨pat, hpat, hx⟩ := hx
  rw [List.mem_filterMap] at hx
  obtain ⟨m, hm, hf⟩ := hx
  have hstrict : strictB pat = true := by
    simp only [List.mem_cons, List.not_mem_nil, or_false] at hpat
    rcases hpat with h | h | h <;> subst h <;> rfl
  have hlt := finditer_strict pat text hstrict m hm
  dsimp only at hf
  by_cases hv : cleanLocationText (sliceN text m.1 m.2.1) ≠ [] ∧
      validateLocationNER (cleanLocationText (sliceN text m.1 m.2.1)) = true
  · rw [if_pos hv] at hf
    obtain hfx := Option.some.inj hf
    have hsv : pyStrip (cleanLocationText (sliceN text m.1 m.2.1)) ≠ [] :=
      stripped_value_ok _ _ (by unfold cleanLocationText; rfl) hv.1
    refine ⟨⟨.LOCATION, cleanLocationText (sliceN text m.1 m.2.1),
      calculateLocationConfidence (cleanLocationText (sliceN text m.1 m.2.1)),
      (m.1 : Int), (m.2.1 : Int), sliceN text m.1 m.2.1⟩, ?_, ?_, ?_, ?_⟩
    · rw [← hfx]
      exact mkExtractedEntity_ok _ _ _ _ _ _ hsv (Int.natCast_nonneg _)
        (by exact_mod_cast Nat.le_of_lt hlt)
    · show (m.1 : Int) < (m.2.1 : Int)
      exact_mod_cast hlt
    · exact hv.1
    · exact hsv
  · rw [if_neg hv] at hf
    exact absurd hf (by simp)

/-- `_extractDates` only builds successful well-formed entities. -/
theorem extractDates_ok (text : List Nat) :
    ∀ x ∈ extractDates text, ∃ ent, x = .ok ent ∧ entOK ent := by
  intro x hx
  unfold extractDates at hx
  rw [List.mem_flatMap] at hx
  obtain ⟨pat, hpat, hx⟩ := hx
  rw [List.mem_filterMap] at hx
  obtain ⟨m, hm, hf⟩ := hx
  have hstrict : strictB pat = true := by
    simp only [List.mem_cons, List.not_mem_nil, or_false] at hpat
    rcases hpat with h | h | h | h <;> subst h <;> rfl
  have hlt := finditer_strict pat text hstrict m hm
  dsimp only at hf
  by_cases hv : cleanDateText (pyStrip (sliceN text m.1 m.2.1)) ≠ [] ∧
      validateDateNER (cleanDateText (pyStrip (sliceN text m.1 m.2.1))) = true
  · rw [if_pos hv] at hf
    obtain hfx := Option.some.inj hf
    have hsv : pyStrip (cleanDateText (pyStrip (sliceN text m.1 m.2.1))) ≠ [] :=
      stripped_value_ok _ _ (by unfold cleanDateText; rfl) hv.1
    refine ⟨⟨.DATE, cleanDateText (pyStrip (sliceN text m.1 m.2.1)),
      calculateDateConfidence (cleanDateText (pyStrip (sliceN text m.1 m.2.1))),
      (m.1 : Int), (m.2.1 : Int), sliceN text m.1 m.2.1⟩, ?_, ?_, ?_, ?_⟩
    · rw [← hfx]
      exact mkExtractedEntity_ok _ _ _ _ _ _ hsv (Int.natCast_nonneg _)
        (by exact_mod_cast Nat.le_of_lt hlt)
    · show (m.1 : Int) < (m.2.1 : Int)
      exact_mod_cast hlt
    · exact hv.1
    · exact hsv
  · rw [if_neg hv] at hf
    exact absurd hf (by simp)

/-- C6: for every input text, `extractEntities` never reaches the
`except` branch (no entity construction can raise), and every entity of
the returned list has a nonempty span `start < end`, a value that is
neither empty nor whitespace-only, and a confidence among the four enum
members; the empty-input guard and the (unreachable) failure branch both
return the empty list. -/
theorem extract_entities_safety (text : List Nat) :
    (∀ msg, extractEntitiesRun text ≠ .failure msg) ∧
    (∀ e ∈ extractionEntities (extractEntitiesRun text),
      e.startPosition < e.endPosition ∧ e.value ≠ [] ∧ pyStrip e.value ≠ [] ∧
        (e.confidence = .HIGH ∨ e.confidence = .MEDIUM ∨ e.confidence = .LOW ∨
          e.confidence = .UNKNOWN)) := by
  have hconf : ∀ c : ExtractionConfidence,
      c = .HIGH ∨ c = .MEDIUM ∨ c = .LOW ∨ c = .UNKNOWN := by
    intro c
    cases c <;> simp
  by_cases hempty : pyStrip text = []
  · constructor
    · intro msg h
      unfold extractEntitiesRun at h
      rw [if_pos hempty] at h
      exact ExtractionOutcome.noConfusion h
    · intro e he
      unfold extractEntitiesRun at he
      rw [if_pos hempty] at he
      exact absurd he (by simp [extractionEntities])
  · have hall : ∀ x ∈ (extractPersonNames text ++ extractEventNames text ++
        extractLocations text ++ extractDates text),
        ∃ ent, x = .ok ent ∧ entOK ent := by
      intro x hx
      rcases List.mem_append.mp hx with hx | hx
      · rcases List.mem_append.mp hx with hx | hx
        · rcases List.mem_append.mp hx with hx | hx
          · unfold extractPersonNames at hx
            rcases List.mem_append.mp hx with hx | hx
            · exact extractPersonNamesPattern_ok text x hx
            · exact extractPersonNamesFromContext_ok text x hx
          · unfold extractEventNames at hx
            rcases List.mem_append.mp hx with hx | hx
            · exact extractEventNamesPattern_ok text x hx
            · exact extractEventNamesFromContext_ok text x hx
        · exact extractLocations_ok text x hx
      · exact extractDates_ok text x hx
    obtain ⟨es, hes, hesok⟩ := collectExcept_ok _ hall
    constructor
    · intro msg h
      unfold extractEntitiesRun at h
      rw [if_neg hempty, hes] at h
      exact ExtractionOutcome.noConfusion h
    · intro e he
      unfold extractEntitiesRun at he
      rw [if_neg hempty, hes] at he
      have he2 : e ∈ enhanceWithContext (removeDuplicatesAndOverlaps es) text := he
      unfold enhanceWithContext at he2
      rw [List.mem_map] at he2
      obtain ⟨e0, he0, heq⟩ := he2
      have hok := hesok e0 (removeDuplicatesAndOverlaps_mem es e0 he0)
      have hf := enhanceEntity_fields text e0
      refine ⟨?_, ?_, ?_, hconf e.confidence⟩
      · rw [← heq, hf.1, hf.2.1]
        exact hok.1
      · rw [← heq, hf.2.2]
        exact hok.2.1
      · rw [← heq, hf.2.2]
        exact hok.2.2

/-- The entity the extractor finds in the witness text. -/
def c6WitnessEntity : ExtractedEntity :=
  ⟨.PERSON, codes "Jo Li", .HIGH, 4, 9, codes "Jo Li"⟩

set_option maxRecDepth 100000 in
/-- C6 witness: on a concrete input the extractor succeeds and its output
entity satisfies all the claimed well-formedness facts. -/
theorem extract_entities_safety_witness :
    c6WitnessEntity ∈
      extractionEntities (extractEntitiesRun (codes "Dr. Jo Li attended.")) ∧
    c6WitnessEntity.startPosition < c6WitnessEntity.endPosition ∧
    c6WitnessEntity.value ≠ [] ∧ pyStrip c6WitnessEntity.value ≠ [] ∧
    (c6WitnessEntity.confidence = .HIGH ∨ c6WitnessEntity.confidence = .MEDIUM ∨
      c6WitnessEntity.confidence = .LOW ∨ c6WitnessEntity.confidence = .UNKNOWN) := by
  have hmem : c6WitnessEntity ∈
      extractionEntities (extractEntitiesRun (codes "Dr. Jo Li attended.")) := by decide
  exact ⟨hmem, (extract_entities_safety (codes "Dr. Jo Li attended.")).2 c6WitnessEntity hmem⟩

/-! ### C9: formatter idempotence -/

/-- C9: the date formatter is not idempotent: the anchored prefix regex
`^\s*(?:on|date|scheduled for)\s+` removes only one leading prefix per
application, so a date beginning with two prefixes — a string the date
validator accepts — changes again on the second application. -/
theorem date_formatter_double_strip_counterexample :
    validateDateFormatProc (codes "on on March 15, 2025") = true ∧
    cleanAndFormatDate (cleanAndFormatDate (codes "on on March 15, 2025")) ≠
      cleanAndFormatDate (codes "on on March 15, 2025") := by
  constructor
  · decide
  · decide

/-- C9 (amended): the person, event and location formatters are idempotent
on every string, but the date formatter is not: it strips a single leading
date prefix per application, so the validator-accepted
"on on March 15, 2025" maps first to "on March 15, 2025" and then to
"March 15, 2025". -/
theorem formatters_idempotence_amended :
    (∀ x, cleanAndFormatPersonName (cleanAndFormatPersonName x) =
      cleanAndFormatPersonName x) ∧
    (∀ x, cleanAndFormatEventName (cleanAndFormatEventName x) =
      cleanAndFormatEventName x) ∧
    (∀ x, cleanAndFormatLocationName (cleanAndFormatLocationName x) =
      cleanAndFormatLocationName x) ∧
    validateDateFormatProc (codes "on on March 15, 2025") = true ∧
    cleanAndFormatDate (codes "on on March 15, 2025") = codes "on March 15, 2025" ∧
    cleanAndFormatDate (cleanAndFormatDate (codes "on on March 15, 2025")) ≠
      cleanAndFormatDate (codes "on on March 15, 2025") :=
  ⟨cleanAndFormatPersonName_idem, cleanAndFormatEventName_idem,
   cleanAndFormatLocationName_idem, by decide, by decide, by decide⟩
